import Mathlib

/-!
# Verification development for the 2D vector-path geometry core

Shallow embedding of `shotamatsuda/graphics/path2.h`, `conic2.h` and `shape2.h`.

* Scalars are exact rationals (`ℚ`), standing for the template scalar type `T`
  and its promotion, as the claims are stated in exact arithmetic.
* A `Path` is the list of its commands (`commands_`), a `Shape` the list of its paths.
* An operation that trips a contract violation (a field read on a command whose tag
  does not carry it, `front()`/`back()` on an empty list, or stepping past the end)
  returns `none`; otherwise it returns `some` of its result.
-/

set_option autoImplicit false

namespace Graphics

/-! ## Collaborator value types -/

/-- Modelled from the spec: the point/vector value type supplied by the math library
(`Vec2<T>`), two coordinates with structural equality. -/
structure Vec2 where
  x : ℚ
  y : ℚ
deriving DecidableEq

namespace Vec2

/-- Componentwise sum, `a + b`. -/
def add (a b : Vec2) : Vec2 := ⟨a.x + b.x, a.y + b.y⟩

/-- Componentwise difference, `a - b`. -/
def sub (a b : Vec2) : Vec2 := ⟨a.x - b.x, a.y - b.y⟩

/-- Scalar multiple, `s * a` (also written `a * s` in the source). -/
def smul (s : ℚ) (a : Vec2) : Vec2 := ⟨s * a.x, s * a.y⟩

/-- Scalar quotient, `a / s`. -/
def sdiv (a : Vec2) (s : ℚ) : Vec2 := ⟨a.x / s, a.y / s⟩

/-- Scalar 2D cross product, `a.cross(b)`. -/
def cross (a b : Vec2) : ℚ := a.x * b.y - a.y * b.x

/-- Modelled from the spec: `equals(other, tolerance)`, true when the other point is
within `tolerance` distance (compared on squared Euclidean distance). The operations
that call it take the comparison as a parameter; this is the instance used on
concrete inputs. -/
def equals (a b : Vec2) (tolerance : ℚ) : Bool :=
  decide (0 ≤ tolerance) &&
    decide ((a.x - b.x) * (a.x - b.x) + (a.y - b.y) * (a.y - b.y) ≤ tolerance * tolerance)

end Vec2

/-- Modelled from the spec: the rectangle value type of the math library, an
axis-aligned box given by its minimum and maximum corner. -/
structure Rect2 where
  min : Vec2
  max : Vec2
deriving DecidableEq

namespace Rect2

/-- Modelled from the spec: the default-constructed (empty) rectangle. -/
def zero : Rect2 := ⟨⟨0, 0⟩, ⟨0, 0⟩⟩

/-- Modelled from the spec: the rectangle constructed from one point. -/
def ofPoint (p : Vec2) : Rect2 := ⟨p, p⟩

/-- Modelled from the spec: `include(point)`, the smallest box holding both. -/
def includePoint (r : Rect2) (p : Vec2) : Rect2 :=
  ⟨⟨Min.min r.min.x p.x, Min.min r.min.y p.y⟩, ⟨Max.max r.max.x p.x, Max.max r.max.y p.y⟩⟩

/-- Component-wise superset: `outer` reaches at least as far as `inner` on each side. -/
def covers (outer inner : Rect2) : Prop :=
  outer.min.x ≤ inner.min.x ∧ outer.min.y ≤ inner.min.y ∧
    inner.max.x ≤ outer.max.x ∧ inner.max.y ≤ outer.max.y

/-- The point `q` lies in the box. -/
def Contains (r : Rect2) (q : Vec2) : Prop :=
  r.min.x ≤ q.x ∧ q.x ≤ r.max.x ∧ r.min.y ≤ q.y ∧ q.y ≤ r.max.y

/-- Modelled from the spec: `include(rectangle)`, the smallest box holding both. -/
def includeRect (r s : Rect2) : Rect2 :=
  ⟨⟨Min.min r.min.x s.min.x, Min.min r.min.y s.min.y⟩,
    ⟨Max.max r.max.x s.max.x, Max.max r.max.y s.max.y⟩⟩

/-- Modelled from the spec: `empty()` of the rectangle type. The spec names the test
and calls the default rectangle an empty bounds value, without defining it further;
`Shape::bounds` below takes the test as a parameter, and this is the instance used on
concrete inputs: a rectangle of zero width or zero height. -/
def empty (r : Rect2) : Bool := decide (r.max.x = r.min.x) || decide (r.max.y = r.min.y)

/-- The corners are in order: the minimum corner is below the maximum corner on both
axes. -/
def Ordered (r : Rect2) : Prop := r.min.x ≤ r.max.x ∧ r.min.y ≤ r.max.y

end Rect2

/-! ## Commands -/

/-- The command tags of `command_type.h`. -/
inductive CommandType where
  | MOVE
  | LINE
  | QUADRATIC
  | CONIC
  | CUBIC
  | CLOSE
deriving DecidableEq

/-- Modelled from the spec: the winding direction enumeration (`path_direction.h`). -/
inductive PathDirection where
  | UNDEFINED
  | CLOCKWISE
  | COUNTER_CLOCKWISE
deriving DecidableEq

/-- Modelled from the spec: the tagged drawing command (`command.h` is not among the
sources). Each variant carries exactly the payload the data model gives its tag:
`point` for all but Close, `control` for Quadratic and Conic, `weight` for Conic,
`control1` and `control2` for Cubic. Argument order follows the constructor calls
in `path2.h`. -/
inductive Command where
  | move (point : Vec2)
  | line (point : Vec2)
  | quadratic (control point : Vec2)
  | conic (control point : Vec2) (weight : ℚ)
  | cubic (control1 control2 point : Vec2)
  | close
deriving DecidableEq

namespace Command

/-- The tag, `type()`. -/
def type : Command → CommandType
  | move _ => CommandType.MOVE
  | line _ => CommandType.LINE
  | quadratic _ _ => CommandType.QUADRATIC
  | conic _ _ _ => CommandType.CONIC
  | cubic _ _ _ => CommandType.CUBIC
  | close => CommandType.CLOSE

/-- Modelled from the spec: `point()`, defined for every tag except Close; reading it
on a Close command is a contract violation (`none`). -/
def point : Command → Option Vec2
  | move p => some p
  | line p => some p
  | quadratic _ p => some p
  | conic _ p _ => some p
  | cubic _ _ p => some p
  | close => none

/-- Modelled from the spec: `control()`, defined for Quadratic and Conic only. -/
def control : Command → Option Vec2
  | quadratic c _ => some c
  | conic c _ _ => some c
  | _ => none

/-- Modelled from the spec: `control1()`, defined for Cubic only. -/
def control1 : Command → Option Vec2
  | cubic c _ _ => some c
  | _ => none

/-- Modelled from the spec: `control2()`, defined for Cubic only. -/
def control2 : Command → Option Vec2
  | cubic _ c _ => some c
  | _ => none

/-- Modelled from the spec: `weight()`, defined for Conic only. -/
def weight : Command → Option ℚ
  | conic _ _ w => some w
  | _ => none

end Command

/-! ## Path: builder operations (`path2.h`, "Adding commands") -/

/-- A path is its command list `commands_`. -/
abbrev Path := List Command

namespace Path

/-- Path invariant (a): a non-empty path starts with a Move command. -/
def firstIsMove : Path → Bool
  | [] => true
  | c :: _ => decide (c.type = CommandType.MOVE)

/-- Path invariant (b): no Close command before the last position, so there is at
most one Close and it is last. -/
def closeOnlyLast (p : Path) : Bool :=
  p.dropLast.all (fun c => decide (c.type ≠ CommandType.CLOSE))

/-- Both path invariants. -/
def wellFormed (p : Path) : Bool := firstIsMove p && closeOnlyLast p

/-- Source `Path::close`: reads `commands_.back()` (a contract violation on the empty
list) and appends a Close unless the last command already is one. -/
def close (p : Path) : Option Path :=
  match p.getLast? with
  | none => none
  | some b =>
    if b.type ≠ CommandType.CLOSE then some (p ++ [Command.close]) else some p

/-- Source `Path::moveTo(const Vec2<T>&)`: clears the list and emplaces one Move. -/
def moveTo (_p : Path) (point : Vec2) : Path := [Command.move point]

/-- Source `Path::moveTo(T, T)`: forwards to the point overload. -/
def moveToXY (p : Path) (x y : ℚ) : Path := moveTo p ⟨x, y⟩

/-- The body shared verbatim by `lineTo`, `quadraticTo`, `conicTo` and `cubicTo`,
with `c` the command each of them emplaces and `point` its endpoint: on the empty
list `moveTo(point)`; otherwise pop a trailing Close, emplace `c`, and call `close()`
when `point == commands_.front().point()`. -/
def appendSegment (p : Path) (c : Command) (point : Vec2) : Option Path :=
  if p.isEmpty then some (moveTo p point)
  else
    match p.getLast? with
    | none => none
    | some b =>
      let popped := if b.type = CommandType.CLOSE then p.dropLast else p
      let pushed := popped ++ [c]
      match pushed.head? with
      | none => none
      | some f =>
        match f.point with
        | none => none
        | some fp => if point = fp then close pushed else some pushed

/-- Source `Path::lineTo(const Vec2<T>&)`. -/
def lineTo (p : Path) (point : Vec2) : Option Path :=
  appendSegment p (Command.line point) point

/-- Source `Path::quadraticTo(const Vec2<T>&, const Vec2<T>&)`. -/
def quadraticTo (p : Path) (control point : Vec2) : Option Path :=
  appendSegment p (Command.quadratic control point) point

/-- Source `Path::conicTo(const Vec2<T>&, const Vec2<T>&, Promote<T>)`. -/
def conicTo (p : Path) (control point : Vec2) (weight : ℚ) : Option Path :=
  appendSegment p (Command.conic control point weight) point

/-- Source `Path::cubicTo(const Vec2<T>&, const Vec2<T>&, const Vec2<T>&)`. -/
def cubicTo (p : Path) (control1 control2 point : Vec2) : Option Path :=
  appendSegment p (Command.cubic control1 control2 point) point

/-! ## Path: attributes and direction -/

/-- Source `Path::closed`: false below three commands; true when the last command is
a Close; otherwise whether `back().point() == front().point()`. -/
def closed (p : Path) : Option Bool :=
  if p.length < 3 then some false
  else
    match p.getLast?, p.head? with
    | some b, some f =>
      if b.type = CommandType.CLOSE then some true
      else
        match b.point, f.point with
        | some bp, some fp => some (decide (bp = fp))
        | _, _ => none
    | _, _ => none

/-- The loop of `Path::direction`: `current` walks the whole command list with `next`
one step ahead; each step adds `current->point().cross(next->point())`, and the last
step (where `next` is the end) adds `current->point().cross(front().point())`. -/
def directionLoop (front : Command) : List Command → ℚ → Option ℚ
  | [], sum => some sum
  | [current], sum =>
    match current.point, front.point with
    | some cp, some fp => some (sum + cp.cross fp)
    | _, _ => none
  | current :: next :: rest, sum =>
    match current.point, next.point with
    | some cp, some np => directionLoop front (next :: rest) (sum + cp.cross np)
    | _, _ => none

/-- Source `Path::direction`. -/
def direction (p : Path) : Option PathDirection :=
  if p.length < 3 then some PathDirection.UNDEFINED
  else
    match closed p with
    | none => none
    | some false => some PathDirection.UNDEFINED
    | some true =>
      match p.head? with
      | none => none
      | some f =>
        match directionLoop f p 0 with
        | none => none
        | some sum =>
          if sum = 0 then some PathDirection.UNDEFINED
          else if sum < 0 then some PathDirection.COUNTER_CLOCKWISE
          else some PathDirection.CLOCKWISE

/-! ## Path: reverse -/

/-- The private `Holder` of `path2.h`: one cell used either as a point or as a scalar. -/
inductive Holder where
  | vector (v : Vec2)
  | scalar (s : ℚ)
deriving DecidableEq

/-- First loop of `Path::reverse`, one command: the holders it emplaces, in order. -/
def holdersOf : Command → List Holder
  | Command.move p => [Holder.vector p]
  | Command.line p => [Holder.vector p]
  | Command.quadratic c p => [Holder.vector c, Holder.vector p]
  | Command.conic c p w => [Holder.vector c, Holder.scalar w, Holder.vector p]
  | Command.cubic c1 c2 p => [Holder.vector c1, Holder.vector c2, Holder.vector p]
  | Command.close => []

/-- First loop of `Path::reverse`: all holders in traversal order. -/
def collectHolders : List Command → List Holder
  | [] => []
  | c :: cs => holdersOf c ++ collectHolders cs

/-- The `std::reverse` step of `Path::reverse` on a non-empty list: the range after
the first command is reversed, stopping before a trailing Close. A list that is a
lone Close gives the range `[next(begin), prev(end))` with its ends crossed, which
is not a valid range (`none`). -/
def reverseCommands : Path → Option Path
  | [] => none
  | first :: rest =>
    match (first :: rest).getLast? with
    | none => none
    | some b =>
      if b.type = CommandType.CLOSE then
        match rest with
        | [] => none
        | _ :: _ => some (first :: (rest.dropLast.reverse ++ [b]))
      else some (first :: rest.reverse)

/-- Read `*(itr++)` as a point: fails past the end or on a cell holding a scalar. -/
def takeVector : List Holder → Option (Vec2 × List Holder)
  | Holder.vector v :: rest => some (v, rest)
  | _ => none

/-- Read `*(itr++)` as a scalar: fails past the end or on a cell holding a point. -/
def takeScalar : List Holder → Option (ℚ × List Holder)
  | Holder.scalar s :: rest => some (s, rest)
  | _ => none

/-- Second loop of `Path::reverse`, one command: its fields are overwritten from the
holder cursor in the order the source assigns them. -/
def refill : Command → List Holder → Option (Command × List Holder)
  | Command.move _, hs =>
    match takeVector hs with
    | some (p, hs1) => some (Command.move p, hs1)
    | none => none
  | Command.line _, hs =>
    match takeVector hs with
    | some (p, hs1) => some (Command.line p, hs1)
    | none => none
  | Command.quadratic _ _, hs =>
    match takeVector hs with
    | some (c, hs1) =>
      match takeVector hs1 with
      | some (p, hs2) => some (Command.quadratic c p, hs2)
      | none => none
    | none => none
  | Command.conic _ _ _, hs =>
    match takeScalar hs with
    | some (w, hs1) =>
      match takeVector hs1 with
      | some (c, hs2) =>
        match takeVector hs2 with
        | some (p, hs3) => some (Command.conic c p w, hs3)
        | none => none
      | none => none
    | none => none
  | Command.cubic _ _ _, hs =>
    match takeVector hs with
    | some (c1, hs1) =>
      match takeVector hs1 with
      | some (c2, hs2) =>
        match takeVector hs2 with
        | some (p, hs3) => some (Command.cubic c1 c2 p, hs3)
        | none => none
      | none => none
    | none => none
  | Command.close, hs => some (Command.close, hs)

/-- Second loop of `Path::reverse` over the whole (reordered) command list. -/
def refillAll : List Command → List Holder → Option (List Command × List Holder)
  | [], hs => some ([], hs)
  | c :: cs, hs =>
    match refill c hs with
    | none => none
    | some (c1, hs1) =>
      match refillAll cs hs1 with
      | none => none
      | some (cs1, hs2) => some (c1 :: cs1, hs2)

/-- Source `Path::reverse`; the final `assert(itr == std::end(holders))` is the check
that no holder is left over. -/
def reverse (p : Path) : Option Path :=
  if p.isEmpty then some p
  else
    match reverseCommands p with
    | none => none
    | some commands =>
      match refillAll commands (collectHolders p).reverse with
      | none => none
      | some (out, left) => if left = [] then some out else none

/-- Source `Path::reversed`: reverse of a copy. -/
def reversed (p : Path) : Option Path := reverse p

/-! ## Path: bounds -/

/-- The four running values of `calculateApproximateBounds`; `none` stands for the
initial sentinel (`numeric_limits<T>::max()` for the minima, `lowest()` for the
maxima), which in exact arithmetic lies beyond every coordinate. -/
structure Limits where
  min_x : Option ℚ
  min_y : Option ℚ
  max_x : Option ℚ
  max_y : Option ℚ
deriving DecidableEq

/-- One `if (v < min) min = v;` update. -/
def lowerTo (cur : Option ℚ) (v : ℚ) : Option ℚ :=
  match cur with
  | none => some v
  | some m => if v < m then some v else some m

/-- One `if (v > max) max = v;` update. -/
def raiseTo (cur : Option ℚ) (v : ℚ) : Option ℚ :=
  match cur with
  | none => some v
  | some m => if v > m then some v else some m

/-- The four updates applied for one point, in source order. -/
def Limits.visit (l : Limits) (p : Vec2) : Limits :=
  ⟨lowerTo l.min_x p.x, lowerTo l.min_y p.y, raiseTo l.max_x p.x, raiseTo l.max_y p.y⟩

/-- Switch body of `calculateApproximateBounds` for one command. The Cubic case
visits `control2()` and then passes through to the Conic/Quadratic case, which reads
`control()`, and on to the Line/Move case, which reads `point()`. -/
def approximateStep (l : Limits) (c : Command) : Option Limits :=
  match c.type with
  | CommandType.CUBIC =>
    match c.control2 with
    | none => none
    | some c2 =>
      match c.control with
      | none => none
      | some c1 =>
        match c.point with
        | none => none
        | some p => some (((l.visit c2).visit c1).visit p)
  | CommandType.CONIC =>
    match c.control with
    | none => none
    | some c1 =>
      match c.point with
      | none => none
      | some p => some ((l.visit c1).visit p)
  | CommandType.QUADRATIC =>
    match c.control with
    | none => none
    | some c1 =>
      match c.point with
      | none => none
      | some p => some ((l.visit c1).visit p)
  | CommandType.LINE =>
    match c.point with
    | none => none
    | some p => some (l.visit p)
  | CommandType.MOVE =>
    match c.point with
    | none => none
    | some p => some (l.visit p)
  | CommandType.CLOSE => some l

/-- The loop of `calculateApproximateBounds`. -/
def approximateLoop : List Command → Limits → Option Limits
  | [], l => some l
  | c :: cs, l =>
    match approximateStep l c with
    | none => none
    | some l1 => approximateLoop cs l1

/-- Source `Path::calculateApproximateBounds`: a value still at its sentinel after the
loop is replaced by `T()`. -/
def calculateApproximateBounds (p : Path) : Option Rect2 :=
  match approximateLoop p ⟨none, none, none, none⟩ with
  | none => none
  | some l =>
    some ⟨⟨l.min_x.getD 0, l.min_y.getD 0⟩, ⟨l.max_x.getD 0, l.max_y.getD 0⟩⟩

/-- Source `Path::evaluateQuadraticAt`. -/
def evaluateQuadraticAt (p0 p1 p2 : Vec2) (t : ℚ) : Vec2 :=
  let a := (1 - t) * (1 - t)
  let b := 2 * (1 - t) * t
  let c := t * t
  Vec2.add (Vec2.add (Vec2.smul a p0) (Vec2.smul b p1)) (Vec2.smul c p2)

/-- Source `Path::evaluateCubicAt`. -/
def evaluateCubicAt (p0 p1 p2 p3 : Vec2) (t : ℚ) : Vec2 :=
  let a := (1 - t) * (1 - t) * (1 - t)
  let b := 3 * (1 - t) * (1 - t) * t
  let c := 3 * (1 - t) * t * t
  let d := t * t * t
  Vec2.add (Vec2.add (Vec2.add (Vec2.smul a p0) (Vec2.smul b p1)) (Vec2.smul c p2))
    (Vec2.smul d p3)

/-- The guard `count > k && 0 < roots[k] && roots[k] < 1` followed by one evaluation:
the curve point when root `k` exists and lies in the open unit interval. -/
def extremumAt (eval : ℚ → Vec2) (root : Option ℚ) : List Vec2 :=
  match root with
  | none => []
  | some r => if 0 < r ∧ r < 1 then [eval r] else []

/-- Source `Path::findQuadraticExtrema`. The root solver is a collaborator:
`solveLinear a b` is `some root` when it reports a root and `none` when its count
is zero. -/
def findQuadraticExtrema (solveLinear : ℚ → ℚ → Option ℚ) (p0 p1 p2 : Vec2) : List Vec2 :=
  let a := Vec2.add (Vec2.sub p0 (Vec2.smul 2 p1)) p2
  let b := Vec2.sub p1 p0
  let x_root := solveLinear a.x b.x
  let y_root := solveLinear a.y b.y
  extremumAt (evaluateQuadraticAt p0 p1 p2) x_root ++
    extremumAt (evaluateQuadraticAt p0 p1 p2) y_root

/-- Source `Path::findCubicExtrema`. `solveQuadratic a b c` is the list of the roots
the solver reports (its count is the length; only the first two are read). -/
def findCubicExtrema (solveQuadratic : ℚ → ℚ → ℚ → List ℚ) (p0 p1 p2 p3 : Vec2) :
    List Vec2 :=
  let a := Vec2.sub (Vec2.add (Vec2.sub (Vec2.smul 3 p3) (Vec2.smul 9 p2)) (Vec2.smul 9 p1))
    (Vec2.smul 3 p0)
  let b := Vec2.add (Vec2.sub (Vec2.smul 6 p0) (Vec2.smul 12 p1)) (Vec2.smul 6 p2)
  let c := Vec2.sub (Vec2.smul 3 p1) (Vec2.smul 3 p0)
  let x_roots := solveQuadratic a.x b.x c.x
  let y_roots := solveQuadratic a.y b.y c.y
  extremumAt (evaluateCubicAt p0 p1 p2 p3) (x_roots.get? 0) ++
    (extremumAt (evaluateCubicAt p0 p1 p2 p3) (y_roots.get? 0) ++
      (extremumAt (evaluateCubicAt p0 p1 p2 p3) (x_roots.get? 1) ++
        extremumAt (evaluateCubicAt p0 p1 p2 p3) (y_roots.get? 1)))

/-- Switch body of `calculatePreciseBounds` for the command `current` that follows
`previous`. -/
def preciseStep (solveLinear : ℚ → ℚ → Option ℚ) (solveQuadratic : ℚ → ℚ → ℚ → List ℚ)
    (previous current : Command) (result : Rect2) : Option Rect2 :=
  match current.type with
  | CommandType.CUBIC =>
    match current.point, previous.point, current.control1, current.control2 with
    | some p, some p0, some c1, some c2 =>
      some ((findCubicExtrema solveQuadratic p0 c1 c2 p).foldl Rect2.includePoint
        (result.includePoint p))
    | _, _, _, _ => none
  | CommandType.CONIC =>
    match current.control, current.point with
    | some c, some p => some ((result.includePoint c).includePoint p)
    | _, _ => none
  | CommandType.QUADRATIC =>
    match current.point, previous.point, current.control with
    | some p, some p0, some c =>
      some ((findQuadraticExtrema solveLinear p0 c p).foldl Rect2.includePoint
        (result.includePoint p))
    | _, _, _ => none
  | CommandType.LINE =>
    match current.point with
    | some p => some (result.includePoint p)
    | none => none
  | CommandType.MOVE => some result
  | CommandType.CLOSE => some result

/-- The loop of `calculatePreciseBounds`, `previous` trailing `current` by one. -/
def preciseLoop (solveLinear : ℚ → ℚ → Option ℚ) (solveQuadratic : ℚ → ℚ → ℚ → List ℚ) :
    Command → List Command → Rect2 → Option Rect2
  | _, [], result => some result
  | previous, current :: rest, result =>
    match preciseStep solveLinear solveQuadratic previous current result with
    | none => none
    | some r => preciseLoop solveLinear solveQuadratic current rest r

/-- Source `Path::calculatePreciseBounds`. -/
def calculatePreciseBounds (solveLinear : ℚ → ℚ → Option ℚ)
    (solveQuadratic : ℚ → ℚ → ℚ → List ℚ) (p : Path) : Option Rect2 :=
  match p with
  | [] => some Rect2.zero
  | front :: rest =>
    match front.point with
    | none => none
    | some fp => preciseLoop solveLinear solveQuadratic front rest (Rect2.ofPoint fp)

/-- Source `Path::bounds`. -/
def bounds (solveLinear : ℚ → ℚ → Option ℚ) (solveQuadratic : ℚ → ℚ → ℚ → List ℚ)
    (p : Path) (precise : Bool) : Option Rect2 :=
  if precise then calculatePreciseBounds solveLinear solveQuadratic p
  else calculateApproximateBounds p

/-! ## Path: removeDuplicates -/

/-- State of the first loop of `removeDuplicates`: the groups found so far (each a
list of iterators, here positions in the command list), and the two flags. -/
structure DuplicateScan where
  duplicates : List (List Nat)
  duplicated : Bool
  changed : Bool
deriving DecidableEq

/-- The call `duplicates.back().emplace_back(i)`. -/
def pushToBack : List (List Nat) → Nat → List (List Nat)
  | [], _ => []
  | [g], i => [g ++ [i]]
  | g :: h :: gs, i => g :: pushToBack (h :: gs) i

/-- First loop of `removeDuplicates`: `previous` sits at position `i`, `current` is
the head of the remaining list. The point comparison is the collaborator
`equals(other, tolerance)`. -/
def scanDuplicates (equals : Vec2 → Vec2 → ℚ → Bool) (threshold : ℚ) :
    Nat → Command → List Command → DuplicateScan → Option DuplicateScan
  | _, _, [], st => some st
  | i, previous, current :: rest, st =>
    match current.point, previous.point with
    | some cp, some pp =>
      if equals cp pp threshold then
        let opened := if st.duplicated then st.duplicates else st.duplicates ++ [[i]]
        scanDuplicates equals threshold (i + 1) current rest
          ⟨pushToBack opened (i + 1), true, true⟩
      else
        scanDuplicates equals threshold (i + 1) current rest
          ⟨st.duplicates, false, st.changed⟩
    | _, _ => none

/-- A list node during the second loop: the command it holds and whether it has been
erased from `commands_`. -/
structure Cell where
  command : Command
  erased : Bool
deriving DecidableEq

/-- The call `commands_.erase(*itr)` for the node at position `i`. -/
def eraseAt : List Cell → Nat → List Cell
  | [], _ => []
  | c :: cs, 0 => ⟨c.command, true⟩ :: cs
  | c :: cs, i + 1 => c :: eraseAt cs i

/-- Assignment to `point()`: defined for every tag except Close. -/
def setPoint : Command → Vec2 → Option Command
  | Command.move _, q => some (Command.move q)
  | Command.line _, q => some (Command.line q)
  | Command.quadratic c _, q => some (Command.quadratic c q)
  | Command.conic c _ w, q => some (Command.conic c q w)
  | Command.cubic c1 c2 _, q => some (Command.cubic c1 c2 q)
  | Command.close, _ => none

/-- Assignment through the iterator at position `i`. -/
def assignPointAt : List Cell → Nat → Vec2 → Option (List Cell)
  | [], _, _ => none
  | c :: cs, 0, q =>
    match setPoint c.command q with
    | none => none
    | some c1 => some (⟨c1, c.erased⟩ :: cs)
  | c :: cs, i + 1, q =>
    match assignPointAt cs i q with
    | none => none
    | some cs1 => some (c :: cs1)

/-- Body of the second loop of `removeDuplicates` for one group: every node but the
group's first is erased, then the first node's point becomes the midpoint of the
points of the group's first and last nodes. The source reads the last node through
its iterator after erasing it; the model returns the value that node held when it was
erased. -/
def mergeGroup (cells : List Cell) (group : List Nat) : Option (List Cell) :=
  match group with
  | [] => none
  | [_] => none
  | first :: second :: others =>
    let cells1 := (second :: others).foldl eraseAt cells
    match cells1.get? first, cells1.get? ((second :: others).getLast (by simp)) with
    | some fc, some bc =>
      match fc.command.point, bc.command.point with
      | some front, some back =>
        assignPointAt cells1 first (Vec2.sdiv (Vec2.add front back) 2)
      | _, _ => none
    | _, _ => none

/-- Second loop of `removeDuplicates`. -/
def mergeGroups : List (List Nat) → List Cell → Option (List Cell)
  | [], cells => some cells
  | g :: gs, cells =>
    match mergeGroup cells g with
    | none => none
    | some cells1 => mergeGroups gs cells1

/-- The commands still linked in the list. -/
def liveCommands (cells : List Cell) : List Command :=
  (cells.filter (fun c => !c.erased)).map Cell.command

/-- Source `Path::removeDuplicates`, returning the new command list and the `changed`
flag. On the empty list the loop header `previous = current++` steps past the end
(`none`). -/
def removeDuplicates (equals : Vec2 → Vec2 → ℚ → Bool) (threshold : ℚ) (p : Path) :
    Option (Path × Bool) :=
  match p with
  | [] => none
  | front :: rest =>
    match scanDuplicates equals threshold 0 front rest ⟨[], false, false⟩ with
    | none => none
    | some st =>
      match mergeGroups st.duplicates (p.map (fun c => ⟨c, false⟩)) with
      | none => none
      | some cells => some (liveCommands cells, st.changed)

end Path

/-! ## Conic (`conic2.h`) -/

/-- The conic value: three points and a weight. -/
structure Conic where
  a : Vec2
  b : Vec2
  c : Vec2
  weight : ℚ
deriving DecidableEq

namespace Conic

/-- Source `Conic::chop`, with `std::sqrt` taken as the parameter `sqrt`. -/
def chop (sqrt : ℚ → ℚ) (k : Conic) : Conic × Conic :=
  let scale := 1 / (1 + k.weight)
  let weight := sqrt ((1 + k.weight) / 2)
  let weighted := Vec2.smul k.weight k.b
  let middle :=
    Vec2.sdiv (Vec2.smul scale (Vec2.add (Vec2.add (Vec2.add k.a weighted) weighted) k.c)) 2
  (⟨k.a, Vec2.smul scale (Vec2.add k.a weighted), middle, weight⟩,
    ⟨middle, Vec2.smul scale (Vec2.add weighted k.c), k.c, weight⟩)

/-- Source `Conic::subdivide`. -/
def subdivide (sqrt : ℚ → ℚ) : Conic → Nat → List Vec2
  | k, 0 => [k.b, k.c]
  | k, level + 1 =>
    subdivide sqrt (chop sqrt k).1 level ++ subdivide sqrt (chop sqrt k).2 level

/-- Source `Conic::quadratics()`. -/
def quadratics (sqrt : ℚ → ℚ) (k : Conic) : List Vec2 := subdivide sqrt k 1

/-- The `for` loop of `Conic::quadratics(tolerance)`: `remaining` is
`max_subdivision - subdivision`, and the result is the number of increments made
from here on. -/
def subdivisionLoop (tolerance : ℚ) : Nat → ℚ → Nat
  | 0, _ => 0
  | remaining + 1, error =>
    if error > tolerance then 1 + subdivisionLoop tolerance remaining (error * (1 / 4))
    else 0

/-- The initial value of `error` in `Conic::quadratics(tolerance)`. -/
def initialError (sqrt : ℚ → ℚ) (k : Conic) : ℚ :=
  let f := (k.weight - 1) / (4 * (k.weight + 1))
  let x := f * (k.a.x - 2 * k.b.x + k.c.x)
  let y := f * (k.a.y - 2 * k.b.y + k.c.y)
  sqrt (x * x + y * y)

/-- The subdivision level `Conic::quadratics(tolerance)` settles on. -/
def subdivisionLevel (sqrt : ℚ → ℚ) (k : Conic) (tolerance : ℚ) : Nat :=
  if tolerance ≥ 0 then subdivisionLoop tolerance 5 (initialError sqrt k) else 0

/-- Source `Conic::quadratics(tolerance)`. -/
def quadraticsWithin (sqrt : ℚ → ℚ) (k : Conic) (tolerance : ℚ) : List Vec2 :=
  subdivide sqrt k (subdivisionLevel sqrt k tolerance)

end Conic

/-! ## Conic over an arbitrary scalar type

`Conic<T, 2>` is a template over its scalar type. The definitions above fix the
scalar to `ℚ`; the ones below repeat `conic2.h` for any ordered field `K`, so that
statements about the exact square root can be made over the reals as well. -/

/-- A point whose coordinates are of the scalar type `K`. -/
@[ext]
structure Vec2Over (K : Type) where
  x : K
  y : K
deriving DecidableEq

namespace Vec2Over

/-- Componentwise sum, `a + b`. -/
def add {K : Type} [Field K] (a b : Vec2Over K) : Vec2Over K := ⟨a.x + b.x, a.y + b.y⟩

/-- Scalar multiple, `s * a` (also written `a * s` in the source). -/
def smul {K : Type} [Field K] (s : K) (a : Vec2Over K) : Vec2Over K := ⟨s * a.x, s * a.y⟩

/-- Scalar quotient, `a / s`. -/
def sdiv {K : Type} [Field K] (a : Vec2Over K) (s : K) : Vec2Over K := ⟨a.x / s, a.y / s⟩

end Vec2Over

/-- The conic value over the scalar type `K`. -/
@[ext]
structure ConicOver (K : Type) where
  a : Vec2Over K
  b : Vec2Over K
  c : Vec2Over K
  weight : K
deriving DecidableEq

namespace ConicOver

/-- Source `Conic::chop`, with `std::sqrt` taken as the parameter `sqrt`. -/
def chop {K : Type} [Field K] (sqrt : K → K) (k : ConicOver K) : ConicOver K × ConicOver K :=
  let scale := 1 / (1 + k.weight)
  let weight := sqrt ((1 + k.weight) / 2)
  let weighted := Vec2Over.smul k.weight k.b
  let middle :=
    Vec2Over.sdiv
      (Vec2Over.smul scale (Vec2Over.add (Vec2Over.add (Vec2Over.add k.a weighted) weighted) k.c))
      2
  (⟨k.a, Vec2Over.smul scale (Vec2Over.add k.a weighted), middle, weight⟩,
    ⟨middle, Vec2Over.smul scale (Vec2Over.add weighted k.c), k.c, weight⟩)

/-- Source `Conic::subdivide`. -/
def subdivide {K : Type} [Field K] (sqrt : K → K) : ConicOver K → Nat → List (Vec2Over K)
  | k, 0 => [k.b, k.c]
  | k, level + 1 =>
    subdivide sqrt (chop sqrt k).1 level ++ subdivide sqrt (chop sqrt k).2 level

/-- The `for` loop of `Conic::quadratics(tolerance)`: `remaining` is
`max_subdivision - subdivision`, and the result is the number of increments made
from here on. -/
def subdivisionLoop {K : Type} [LinearOrderedField K] (tolerance : K) : Nat → K → Nat
  | 0, _ => 0
  | remaining + 1, error =>
    if error > tolerance then 1 + subdivisionLoop tolerance remaining (error * (1 / 4))
    else 0

/-- The initial value of `error` in `Conic::quadratics(tolerance)`. -/
def initialError {K : Type} [Field K] (sqrt : K → K) (k : ConicOver K) : K :=
  let f := (k.weight - 1) / (4 * (k.weight + 1))
  let x := f * (k.a.x - 2 * k.b.x + k.c.x)
  let y := f * (k.a.y - 2 * k.b.y + k.c.y)
  sqrt (x * x + y * y)

/-- The subdivision level `Conic::quadratics(tolerance)` settles on. -/
def subdivisionLevel {K : Type} [LinearOrderedField K] (sqrt : K → K) (k : ConicOver K)
    (tolerance : K) : Nat :=
  if tolerance ≥ 0 then subdivisionLoop tolerance 5 (initialError sqrt k) else 0

/-- Source `Conic::quadratics(tolerance)`. -/
def quadraticsWithin {K : Type} [LinearOrderedField K] (sqrt : K → K) (k : ConicOver K)
    (tolerance : K) : List (Vec2Over K) :=
  subdivide sqrt k (subdivisionLevel sqrt k tolerance)

end ConicOver

/-- A rational point read as a point over `ℚ` as a scalar field. -/
def Vec2.over (v : Vec2) : Vec2Over ℚ := ⟨v.x, v.y⟩

/-- A rational conic read as a conic over `ℚ` as a scalar field. -/
def Conic.over (k : Conic) : ConicOver ℚ := ⟨k.a.over, k.b.over, k.c.over, k.weight⟩

/-! ## Precise bounds over an arbitrary scalar type

`Path<T, 2>` is a template over its scalar type as well. The definitions below repeat
the precise bounds computation of `path2.h` for any ordered field `K`, so that
statements about the real roots of a derivative can be made over the reals. -/

namespace Vec2Over

/-- Componentwise difference, `a - b`. -/
def sub {K : Type} [Field K] (a b : Vec2Over K) : Vec2Over K := ⟨a.x - b.x, a.y - b.y⟩

end Vec2Over

/-- Modelled from the spec: the rectangle value type over the scalar type `K`, an
axis-aligned box given by its minimum and maximum corner. -/
@[ext]
structure Rect2Over (K : Type) where
  min : Vec2Over K
  max : Vec2Over K
deriving DecidableEq

namespace Rect2Over

/-- Modelled from the spec: the default-constructed (empty) rectangle. -/
def zero {K : Type} [LinearOrderedField K] : Rect2Over K := ⟨⟨0, 0⟩, ⟨0, 0⟩⟩

/-- Modelled from the spec: the rectangle constructed from one point. -/
def ofPoint {K : Type} (p : Vec2Over K) : Rect2Over K := ⟨p, p⟩

/-- Modelled from the spec: `include(point)`, the smallest box holding both. -/
def includePoint {K : Type} [LinearOrderedField K] (r : Rect2Over K) (p : Vec2Over K) :
    Rect2Over K :=
  ⟨⟨Min.min r.min.x p.x, Min.min r.min.y p.y⟩, ⟨Max.max r.max.x p.x, Max.max r.max.y p.y⟩⟩

/-- The point `q` lies in the box. -/
def Contains {K : Type} [LinearOrderedField K] (r : Rect2Over K) (q : Vec2Over K) : Prop :=
  r.min.x ≤ q.x ∧ q.x ≤ r.max.x ∧ r.min.y ≤ q.y ∧ q.y ≤ r.max.y

end Rect2Over

/-- Modelled from the spec: the tagged drawing command over the scalar type `K`, with
the payload the data model gives each tag. -/
inductive CommandOver (K : Type) where
  | move (point : Vec2Over K)
  | line (point : Vec2Over K)
  | quadratic (control point : Vec2Over K)
  | conic (control point : Vec2Over K) (weight : K)
  | cubic (control1 control2 point : Vec2Over K)
  | close
deriving DecidableEq

namespace CommandOver

/-- The tag, `type()`. -/
def type {K : Type} : CommandOver K → CommandType
  | move _ => CommandType.MOVE
  | line _ => CommandType.LINE
  | quadratic _ _ => CommandType.QUADRATIC
  | conic _ _ _ => CommandType.CONIC
  | cubic _ _ _ => CommandType.CUBIC
  | close => CommandType.CLOSE

/-- Modelled from the spec: `point()`, defined for every tag except Close. -/
def point {K : Type} : CommandOver K → Option (Vec2Over K)
  | move p => some p
  | line p => some p
  | quadratic _ p => some p
  | conic _ p _ => some p
  | cubic _ _ p => some p
  | close => none

/-- Modelled from the spec: `control()`, defined for Quadratic and Conic only. -/
def control {K : Type} : CommandOver K → Option (Vec2Over K)
  | quadratic c _ => some c
  | conic c _ _ => some c
  | _ => none

/-- Modelled from the spec: `control1()`, defined for Cubic only. -/
def control1 {K : Type} : CommandOver K → Option (Vec2Over K)
  | cubic c _ _ => some c
  | _ => none

/-- Modelled from the spec: `control2()`, defined for Cubic only. -/
def control2 {K : Type} : CommandOver K → Option (Vec2Over K)
  | cubic _ c _ => some c
  | _ => none

end CommandOver

namespace PathOver

/-- Source `Path::evaluateQuadraticAt`. -/
def evaluateQuadraticAt {K : Type} [Field K] (p0 p1 p2 : Vec2Over K) (t : K) : Vec2Over K :=
  let a := (1 - t) * (1 - t)
  let b := 2 * (1 - t) * t
  let c := t * t
  Vec2Over.add (Vec2Over.add (Vec2Over.smul a p0) (Vec2Over.smul b p1)) (Vec2Over.smul c p2)

/-- Source `Path::evaluateCubicAt`. -/
def evaluateCubicAt {K : Type} [Field K] (p0 p1 p2 p3 : Vec2Over K) (t : K) : Vec2Over K :=
  let a := (1 - t) * (1 - t) * (1 - t)
  let b := 3 * (1 - t) * (1 - t) * t
  let c := 3 * (1 - t) * t * t
  let d := t * t * t
  Vec2Over.add
    (Vec2Over.add (Vec2Over.add (Vec2Over.smul a p0) (Vec2Over.smul b p1)) (Vec2Over.smul c p2))
    (Vec2Over.smul d p3)

/-- The guard `count > k && 0 < roots[k] && roots[k] < 1` followed by one evaluation:
the curve point when root `k` exists and lies in the open unit interval. -/
def extremumAt {K : Type} [LinearOrderedField K] (eval : K → Vec2Over K) (root : Option K) :
    List (Vec2Over K) :=
  match root with
  | none => []
  | some r => if 0 < r ∧ r < 1 then [eval r] else []

/-- Source `Path::findQuadraticExtrema`, the root solver being a collaborator. -/
def findQuadraticExtrema {K : Type} [LinearOrderedField K] (solveLinear : K → K → Option K)
    (p0 p1 p2 : Vec2Over K) : List (Vec2Over K) :=
  let a := Vec2Over.add (Vec2Over.sub p0 (Vec2Over.smul 2 p1)) p2
  let b := Vec2Over.sub p1 p0
  let x_root := solveLinear a.x b.x
  let y_root := solveLinear a.y b.y
  extremumAt (evaluateQuadraticAt p0 p1 p2) x_root ++
    extremumAt (evaluateQuadraticAt p0 p1 p2) y_root

/-- Source `Path::findCubicExtrema`. `solveQuadratic a b c` is the list of the roots
the solver reports (its count is the length; only the first two are read). -/
def findCubicExtrema {K : Type} [LinearOrderedField K] (solveQuadratic : K → K → K → List K)
    (p0 p1 p2 p3 : Vec2Over K) : List (Vec2Over K) :=
  let a := Vec2Over.sub
    (Vec2Over.add (Vec2Over.sub (Vec2Over.smul 3 p3) (Vec2Over.smul 9 p2)) (Vec2Over.smul 9 p1))
    (Vec2Over.smul 3 p0)
  let b := Vec2Over.add (Vec2Over.sub (Vec2Over.smul 6 p0) (Vec2Over.smul 12 p1))
    (Vec2Over.smul 6 p2)
  let c := Vec2Over.sub (Vec2Over.smul 3 p1) (Vec2Over.smul 3 p0)
  let x_roots := solveQuadratic a.x b.x c.x
  let y_roots := solveQuadratic a.y b.y c.y
  extremumAt (evaluateCubicAt p0 p1 p2 p3) (x_roots.get? 0) ++
    (extremumAt (evaluateCubicAt p0 p1 p2 p3) (y_roots.get? 0) ++
      (extremumAt (evaluateCubicAt p0 p1 p2 p3) (x_roots.get? 1) ++
        extremumAt (evaluateCubicAt p0 p1 p2 p3) (y_roots.get? 1)))

/-- Switch body of `calculatePreciseBounds` for the command `current` that follows
`previous`. -/
def preciseStep {K : Type} [LinearOrderedField K] (solveLinear : K → K → Option K)
    (solveQuadratic : K → K → K → List K) (previous current : CommandOver K)
    (result : Rect2Over K) : Option (Rect2Over K) :=
  match current.type with
  | CommandType.CUBIC =>
    match current.point, previous.point, current.control1, current.control2 with
    | some p, some p0, some c1, some c2 =>
      some ((findCubicExtrema solveQuadratic p0 c1 c2 p).foldl Rect2Over.includePoint
        (result.includePoint p))
    | _, _, _, _ => none
  | CommandType.CONIC =>
    match current.control, current.point with
    | some c, some p => some ((result.includePoint c).includePoint p)
    | _, _ => none
  | CommandType.QUADRATIC =>
    match current.point, previous.point, current.control with
    | some p, some p0, some c =>
      some ((findQuadraticExtrema solveLinear p0 c p).foldl Rect2Over.includePoint
        (result.includePoint p))
    | _, _, _ => none
  | CommandType.LINE =>
    match current.point with
    | some p => some (result.includePoint p)
    | none => none
  | CommandType.MOVE => some result
  | CommandType.CLOSE => some result

/-- The loop of `calculatePreciseBounds`, `previous` trailing `current` by one. -/
def preciseLoop {K : Type} [LinearOrderedField K] (solveLinear : K → K → Option K)
    (solveQuadratic : K → K → K → List K) :
    CommandOver K → List (CommandOver K) → Rect2Over K → Option (Rect2Over K)
  | _, [], result => some result
  | previous, current :: rest, result =>
    match preciseStep solveLinear solveQuadratic previous current result with
    | none => none
    | some r => preciseLoop solveLinear solveQuadratic current rest r

/-- Source `Path::calculatePreciseBounds`, which is `bounds(true)`. -/
def calculatePreciseBounds {K : Type} [LinearOrderedField K] (solveLinear : K → K → Option K)
    (solveQuadratic : K → K → K → List K) (p : List (CommandOver K)) :
    Option (Rect2Over K) :=
  match p with
  | [] => some Rect2Over.zero
  | front :: rest =>
    match front.point with
    | none => none
    | some fp => preciseLoop solveLinear solveQuadratic front rest (Rect2Over.ofPoint fp)

end PathOver

/-- A rational box read as a box over `ℚ` as a scalar field. -/
def Rect2.over (r : Rect2) : Rect2Over ℚ := ⟨r.min.over, r.max.over⟩

/-- A rational command read as a command over `ℚ` as a scalar field. -/
def Command.over : Command → CommandOver ℚ
  | Command.move p => CommandOver.move p.over
  | Command.line p => CommandOver.line p.over
  | Command.quadratic c p => CommandOver.quadratic c.over p.over
  | Command.conic c p w => CommandOver.conic c.over p.over w
  | Command.cubic c1 c2 p => CommandOver.cubic c1.over c2.over p.over
  | Command.close => CommandOver.close

/-! ## Shape (`shape2.h`) -/

/-- A shape is its path list `paths_`. -/
abbrev Shape := List Path

namespace Shape

/-- Apply a path operation to `paths_.back()`, a contract violation on the empty
list. -/
def onBack (s : Shape) (f : Path → Option Path) : Option Shape :=
  match s.getLast? with
  | none => none
  | some b =>
    match f b with
    | none => none
    | some b1 => some (s.dropLast ++ [b1])

/-- The guard `if (paths_.empty()) paths_.emplace_back();`. -/
def ensurePath (s : Shape) : Shape := if s.isEmpty then s ++ [[]] else s

/-- Source `Shape::moveTo(T, T)`: emplaces a new path, then `back().moveTo(x, y)`. -/
def moveToXY (s : Shape) (x y : ℚ) : Option Shape :=
  onBack (s ++ [[]]) (fun b => some (Path.moveToXY b x y))

/-- Source `Shape::moveTo(const Vec2<T>&)`: emplaces a path only when there is none,
then `back().moveTo(point)`. -/
def moveTo (s : Shape) (point : Vec2) : Option Shape :=
  onBack (ensurePath s) (fun b => some (Path.moveTo b point))

/-- Source `Shape::close`. -/
def close (s : Shape) : Option Shape := onBack (ensurePath s) Path.close

/-- Source `Shape::lineTo(const Vec2<T>&)`. -/
def lineTo (s : Shape) (point : Vec2) : Option Shape :=
  onBack (ensurePath s) (fun b => Path.lineTo b point)

/-- Source `Shape::quadraticTo(const Vec2<T>&, const Vec2<T>&)`. -/
def quadraticTo (s : Shape) (control point : Vec2) : Option Shape :=
  onBack (ensurePath s) (fun b => Path.quadraticTo b control point)

/-- Source `Shape::conicTo(const Vec2<T>&, const Vec2<T>&, Promote<T>)`. -/
def conicTo (s : Shape) (control point : Vec2) (weight : ℚ) : Option Shape :=
  onBack (ensurePath s) (fun b => Path.conicTo b control point weight)

/-- Source `Shape::cubicTo(const Vec2<T>&, const Vec2<T>&, const Vec2<T>&)`. -/
def cubicTo (s : Shape) (control1 control2 point : Vec2) : Option Shape :=
  onBack (ensurePath s) (fun b => Path.cubicTo b control1 control2 point)

/-- The loop of `Shape::bounds`, with `empty()` of the rectangle type taken as the
parameter `isEmpty`: a path whose bounds is empty is skipped; the first bounds met
while `result` is empty replaces it, any later one is merged by `include`. -/
def boundsLoop (isEmpty : Rect2 → Bool) (solveLinear : ℚ → ℚ → Option ℚ)
    (solveQuadratic : ℚ → ℚ → ℚ → List ℚ) (precise : Bool) :
    List Path → Rect2 → Option Rect2
  | [], result => some result
  | path :: rest, result =>
    match Path.bounds solveLinear solveQuadratic path precise with
    | none => none
    | some b =>
      if isEmpty b then boundsLoop isEmpty solveLinear solveQuadratic precise rest result
      else if isEmpty result then
        boundsLoop isEmpty solveLinear solveQuadratic precise rest b
      else
        boundsLoop isEmpty solveLinear solveQuadratic precise rest (result.includeRect b)

/-- Source `Shape::bounds`. -/
def bounds (isEmpty : Rect2 → Bool) (solveLinear : ℚ → ℚ → Option ℚ)
    (solveQuadratic : ℚ → ℚ → ℚ → List ℚ) (s : Shape) (precise : Bool) : Option Rect2 :=
  if s.isEmpty then some Rect2.zero
  else boundsLoop isEmpty solveLinear solveQuadratic precise s Rect2.zero

end Shape

/-! ## Path: conversions (`path2.h`, "Conversion") -/

namespace Path

/-- The control point `anchor + (control - anchor) * 2 / 3` that
`convertQuadraticsToCubics` computes for each end of a Quadratic. -/
def elevate (anchor control : Vec2) : Vec2 :=
  Vec2.add anchor (Vec2.sdiv (Vec2.smul 2 (Vec2.sub control anchor)) 3)

/-- The loop of `Path::convertQuadraticsToCubics`, with `previous` trailing `current`.
A Quadratic node is rewritten in place (tag set to Cubic, `control1` and `control2`
assigned, point kept); the loop then meets the same node again, now a Cubic, and
steps over it, which makes it the next `previous`. -/
def quadraticsToCubicsLoop : Command → List Command → Bool → Option (List Command × Bool)
  | _, [], changed => some ([], changed)
  | previous, current :: rest, changed =>
    if current.type ≠ CommandType.QUADRATIC then
      match quadraticsToCubicsLoop current rest changed with
      | none => none
      | some (out, ch) => some (current :: out, ch)
    else
      match previous.point, current.control, current.point with
      | some a, some b, some c =>
        match quadraticsToCubicsLoop (Command.cubic (elevate a b) (elevate c b) c) rest true with
        | none => none
        | some (out, ch) => some (Command.cubic (elevate a b) (elevate c b) c :: out, ch)
      | _, _, _ => none

/-- Source `Path::convertQuadraticsToCubics`, returning the new command list and the
`changed` flag. On the empty list the loop header `previous = current++` steps past
the end (`none`). -/
def convertQuadraticsToCubics (p : Path) : Option (Path × Bool) :=
  match p with
  | [] => none
  | front :: rest =>
    match quadraticsToCubicsLoop front rest false with
    | none => none
    | some (out, changed) => some (front :: out, changed)

/-- The inner loop of `convertConicsToQuadratics`: one Quadratic is emplaced for each
two points, read as `*itr` (control) and `*(++itr)` (point) in that order; a point
left without a partner makes `*(++itr)` read past the end (`none`). -/
def emplaceQuadratics : List Vec2 → Option (List Command)
  | [] => some []
  | [_] => none
  | control :: point :: rest =>
    match emplaceQuadratics rest with
    | none => none
    | some out => some (Command.quadratic control point :: out)

/-- The loop of the private `Path::convertConicsToQuadratics(method, args...)`, with
`method` the bound call `conic.quadratics(args...)`. A Conic node is erased and the
Quadratics are emplaced in its place, the last of them becoming `previous`. -/
def conicsToQuadraticsLoop (method : Conic → List Vec2) :
    Command → List Command → Bool → Option (List Command × Bool)
  | _, [], changed => some ([], changed)
  | previous, current :: rest, changed =>
    if current.type ≠ CommandType.CONIC then
      match conicsToQuadraticsLoop method current rest changed with
      | none => none
      | some (out, ch) => some (current :: out, ch)
    else
      match previous.point, current.control, current.point, current.weight with
      | some a, some b, some c, some w =>
        match emplaceQuadratics (method ⟨a, b, c, w⟩) with
        | none => none
        | some quads =>
          match conicsToQuadraticsLoop method (quads.getLastD previous) rest true with
          | none => none
          | some (out, ch) => some (quads ++ out, ch)
      | _, _, _, _ => none

/-- The private template `Path::convertConicsToQuadratics(method, args...)`. On the
empty list the loop header `previous = current++` steps past the end (`none`). -/
def convertConicsWith (method : Conic → List Vec2) (p : Path) : Option (Path × Bool) :=
  match p with
  | [] => none
  | front :: rest =>
    match conicsToQuadraticsLoop method front rest false with
    | none => none
    | some (out, changed) => some (front :: out, changed)

/-- Source `Path::convertConicsToQuadratics()`. -/
def convertConicsToQuadratics (sqrt : ℚ → ℚ) (p : Path) : Option (Path × Bool) :=
  convertConicsWith (Conic.quadratics sqrt) p

/-- Source `Path::convertConicsToQuadratics(tolerance)`. -/
def convertConicsToQuadraticsWithin (sqrt : ℚ → ℚ) (tolerance : ℚ) (p : Path) :
    Option (Path × Bool) :=
  convertConicsWith (fun k => Conic.quadraticsWithin sqrt k tolerance) p

end Path

/-! ## Specification-side definitions -/

/-- The opposite winding: Clockwise and CounterClockwise exchanged, Undefined kept. -/
def PathDirection.opposite : PathDirection → PathDirection
  | PathDirection.UNDEFINED => PathDirection.UNDEFINED
  | PathDirection.CLOCKWISE => PathDirection.COUNTER_CLOCKWISE
  | PathDirection.COUNTER_CLOCKWISE => PathDirection.CLOCKWISE

namespace Path

/-- The path with its trailing Close, if any, removed. -/
def withoutTrailingClose (p : Path) : Path :=
  match p.getLast? with
  | some b => if b.type = CommandType.CLOSE then p.dropLast else p
  | none => p

/-- What the claim on the four appending builders promises for the new command `c`
with endpoint `point`: `[Move point]` on the empty path; otherwise the path without
its trailing Close, then `c`, then one Close exactly when `point` equals the point of
the first command. -/
def appended (p : Path) (c : Command) (point : Vec2) : Path :=
  match p with
  | [] => [Command.move point]
  | first :: _ =>
    withoutTrailingClose p ++ [c] ++
      (if first.point = some point then [Command.close] else [])

/-- One call of the builder interface. -/
inductive BuilderOp where
  | moveTo (point : Vec2)
  | lineTo (point : Vec2)
  | quadraticTo (control point : Vec2)
  | conicTo (control point : Vec2) (weight : ℚ)
  | cubicTo (control1 control2 point : Vec2)
  | close
deriving DecidableEq

/-- Run one builder call on a path. -/
def applyOp (p : Path) : BuilderOp → Option Path
  | BuilderOp.moveTo point => some (moveTo p point)
  | BuilderOp.lineTo point => lineTo p point
  | BuilderOp.quadraticTo control point => quadraticTo p control point
  | BuilderOp.conicTo control point weight => conicTo p control point weight
  | BuilderOp.cubicTo control1 control2 point => cubicTo p control1 control2 point
  | BuilderOp.close => close p

/-- Run a sequence of builder calls, left to right. -/
def runOps : Path → List BuilderOp → Option Path
  | p, [] => some p
  | p, op :: ops =>
    match applyOp p op with
    | none => none
    | some q => runOps q ops

/-- The anchor points of the commands, in order (a Close contributes none). -/
def anchors (p : Path) : List Vec2 := p.filterMap Command.point

/-- A segment traced backwards so that it ends at `q`: the tag is kept, a Quadratic
keeps its control, a Conic keeps its control and weight, a Cubic has `control1` and
`control2` exchanged. -/
def mirrored : Command → Vec2 → Command
  | Command.move _, q => Command.move q
  | Command.line _, q => Command.line q
  | Command.quadratic c _, q => Command.quadratic c q
  | Command.conic c _ w, q => Command.conic c q w
  | Command.cubic c1 c2 _, q => Command.cubic c2 c1 q
  | Command.close, _ => Command.close

/-- What the claim on `reverse()` promises for the path `Move p0 :: body ++ tail`
with anchors `p0 .. pn` (`tail` being the trailing Close or nothing): `Move pn`, then
the segments in reverse order, the `k`-th of them being segment `n+1-k` mirrored onto
the endpoint `p(n-k)`, then `tail`. -/
def reversedPath (p0 : Vec2) (body tail : List Command) : Path :=
  Command.move ((anchors body).getLastD p0) ::
    (List.zipWith mirrored body.reverse (p0 :: anchors body).dropLast.reverse ++ tail)

/-- The anchor of a command, for use on commands that carry one. -/
def anchorOf (c : Command) : Vec2 := c.point.getD ⟨0, 0⟩

/-- The anchor that precedes position 0 of a reversed segment list: the anchor of the
next entry, or the starting point `p0` when there is none. -/
def lastAnchor (p0 : Vec2) : List Command → Vec2
  | [] => p0
  | d :: _ => anchorOf d

/-- The control data of a command in reversed holder order. -/
def dataRev : Command → List Holder
  | Command.move _ => []
  | Command.line _ => []
  | Command.quadratic c _ => [Holder.vector c]
  | Command.conic c _ w => [Holder.scalar w, Holder.vector c]
  | Command.cubic c1 c2 _ => [Holder.vector c2, Holder.vector c1]
  | Command.close => []

/-- The reversed holder sequence that follows the first cell, written over the
reversed segment list. -/
def holderStream (p0 : Vec2) : List Command → List Holder
  | [] => []
  | c :: rb => dataRev c ++ Holder.vector (lastAnchor p0 rb) :: holderStream p0 rb

/-- The mirrored segments, written over the reversed segment list. -/
def mirrorAll (p0 : Vec2) : List Command → List Command
  | [] => []
  | c :: rb => mirrored c (lastAnchor p0 rb) :: mirrorAll p0 rb

/-- The shoelace terms from the anchor list on, the last anchor wrapping to `first`. -/
def shoelaceFrom (first : Vec2) : List Vec2 → ℚ
  | [] => 0
  | [p] => p.cross first
  | p :: q :: rest => p.cross q + shoelaceFrom first (q :: rest)

/-- The shoelace sum `cross(p0,p1) + ... + cross(p(n-1),pn) + cross(pn,p0)` of an
anchor list. -/
def shoelace : List Vec2 → ℚ
  | [] => 0
  | p :: rest => shoelaceFrom p (p :: rest)

/-- The direction the claim assigns to a shoelace sum. -/
def directionOfSum (sum : ℚ) : PathDirection :=
  if sum = 0 then PathDirection.UNDEFINED
  else if sum < 0 then PathDirection.COUNTER_CLOCKWISE
  else PathDirection.CLOCKWISE

/-- The shoelace terms of consecutive anchors without the wrap-around term:
`cross(p0,p1) + ... + cross(p(n-1),pn)`. -/
def chain : List Vec2 → ℚ
  | [] => 0
  | [_] => 0
  | p :: q :: rest => p.cross q + chain (q :: rest)

/-- The wrap-around term `cross(last, first)` of a list with ends `first`, `last`. -/
def wrapTerm (first : Option Vec2) (last : Option Vec2) : ℚ :=
  match first, last with
  | some f, some z => z.cross f
  | _, _ => 0

/-- From `previous` on, every command carries an anchor and no anchor is within
`threshold` of its predecessor's anchor. -/
def SeparatedFrom (equals : Vec2 → Vec2 → ℚ → Bool) (threshold : ℚ) :
    Command → List Command → Prop
  | _, [] => True
  | previous, current :: rest =>
    (∃ cp pp, current.point = some cp ∧ previous.point = some pp ∧
      equals cp pp threshold = false) ∧
    SeparatedFrom equals threshold current rest

/-- A non-empty path in which no anchor is within `threshold` of its predecessor's
anchor. -/
def Separated (equals : Vec2 → Vec2 → ℚ → Bool) (threshold : ℚ) : Path → Prop
  | [] => False
  | front :: rest => SeparatedFrom equals threshold front rest

/-- All four running values are set and `pt` lies between them. -/
def Limits.Holds (l : Limits) (pt : Vec2) : Prop :=
  ∃ a b c d, l = ⟨some a, some b, some c, some d⟩ ∧
    a ≤ pt.x ∧ b ≤ pt.y ∧ pt.x ≤ c ∧ pt.y ≤ d

/-- The control point the claim on degree elevation names: `a + 2/3 * (b - a)`. -/
def twoThirds (a b : Vec2) : Vec2 := Vec2.add a (Vec2.smul (2 / 3) (Vec2.sub b a))

/-- What the claim on `convertQuadraticsToCubics` promises for one command whose
previous anchor is `a`: a Quadratic (control `b`, endpoint `c`) becomes the Cubic with
`control1 = a + 2/3 (b - a)`, `control2 = c + 2/3 (b - c)` and endpoint `c`; any
other command is kept. -/
def elevateCommand (a : Vec2) : Command → Command
  | Command.quadratic b c => Command.cubic (twoThirds a b) (twoThirds c b) c
  | cmd => cmd

/-- The promised result of `convertQuadraticsToCubics` on the commands that follow
an anchor `a`. -/
def elevated (a : Vec2) : List Command → List Command
  | [] => []
  | cmd :: rest => elevateCommand a cmd :: elevated (anchorOf cmd) rest

/-- What the claim on `convertConicsToQuadratics()` promises for one command whose
previous anchor is `a`: a Conic (control `b`, endpoint `c`, weight `w`) becomes the
two Quadratics given by the halves of `Conic(a, b, c, w).chop()`, the second ending
at `c`; any other command is kept. -/
def halveCommand (sqrt : ℚ → ℚ) (a : Vec2) : Command → List Command
  | Command.conic b c w =>
    [Command.quadratic (Conic.chop sqrt ⟨a, b, c, w⟩).1.b (Conic.chop sqrt ⟨a, b, c, w⟩).1.c,
      Command.quadratic (Conic.chop sqrt ⟨a, b, c, w⟩).2.b c]
  | cmd => [cmd]

/-- The promised result of `convertConicsToQuadratics()` on the commands that follow
an anchor `a`. -/
def halved (sqrt : ℚ → ℚ) (a : Vec2) : List Command → List Command
  | [] => []
  | cmd :: rest => halveCommand sqrt a cmd ++ halved sqrt (anchorOf cmd) rest

/-- The promised result of `convertQuadraticsToCubics` on a whole path: the first
command is kept and the rest is `elevated` from its anchor on. -/
def elevatedPath : Path → Path
  | [] => []
  | first :: rest => first :: elevated (anchorOf first) rest

/-- The promised result of `convertConicsToQuadratics()` on a whole path: the first
command is kept and the rest is `halved` from its anchor on. -/
def halvedPath (sqrt : ℚ → ℚ) : Path → Path
  | [] => []
  | first :: rest => first :: halved sqrt (anchorOf first) rest

end Path

namespace ConicOver

/-- One coordinate of the rational quadratic with end values `a`, `c`, control value
`b` and weight `w` at parameter `t`:
`((1-t)^2 a + 2t(1-t) w b + t^2 c) / ((1-t)^2 + 2t(1-t) w + t^2)`. -/
def rationalQuadratic {K : Type} [Field K] (a b c w t : K) : K :=
  ((1 - t) ^ 2 * a + 2 * t * (1 - t) * w * b + t ^ 2 * c) /
    ((1 - t) ^ 2 + 2 * t * (1 - t) * w + t ^ 2)

/-- The point of the conic at parameter `t`, as a rational quadratic. -/
def evaluateAt {K : Type} [Field K] (k : ConicOver K) (t : K) : Vec2Over K :=
  ⟨rationalQuadratic k.a.x k.b.x k.c.x k.weight t,
    rationalQuadratic k.a.y k.b.y k.c.y k.weight t⟩

/-- The function `sqrt` returns the non-negative square root at the argument `x`. -/
def IsSqrtAt {K : Type} [LinearOrderedField K] (sqrt : K → K) (x : K) : Prop :=
  0 ≤ sqrt x ∧ sqrt x * sqrt x = x

/-- The shared point the claim on `chop()` names: `mid = (a + 2 w b + c) * s / 2` with
`s = 1 / (1 + w)`. -/
def middle {K : Type} [Field K] (k : ConicOver K) : Vec2Over K :=
  Vec2Over.sdiv
    (Vec2Over.smul (1 / (1 + k.weight))
      (Vec2Over.add (Vec2Over.add k.a (Vec2Over.smul (2 * k.weight) k.b)) k.c))
    2

/-- The argument `x * x + y * y` that `Conic::quadratics(tolerance)` passes to
`std::sqrt`. -/
def errorSq {K : Type} [Field K] (k : ConicOver K) : K :=
  (k.weight - 1) / (4 * (k.weight + 1)) * (k.a.x - 2 * k.b.x + k.c.x) *
      ((k.weight - 1) / (4 * (k.weight + 1)) * (k.a.x - 2 * k.b.x + k.c.x)) +
    (k.weight - 1) / (4 * (k.weight + 1)) * (k.a.y - 2 * k.b.y + k.c.y) *
      ((k.weight - 1) / (4 * (k.weight + 1)) * (k.a.y - 2 * k.b.y + k.c.y))

/-- The squared Euclidean norm of `a - 2b + c`. -/
def bendSq {K : Type} [Field K] (k : ConicOver K) : K :=
  (k.a.x - 2 * k.b.x + k.c.x) ^ 2 + (k.a.y - 2 * k.b.y + k.c.y) ^ 2

/-- The error estimate as the claim writes it:
`|(w - 1) / (4 (w + 1))| * ‖a - 2b + c‖`. -/
def flatnessError {K : Type} [LinearOrderedField K] (sqrt : K → K) (k : ConicOver K) : K :=
  |(k.weight - 1) / (4 * (k.weight + 1))| * sqrt (bendSq k)

end ConicOver

namespace Path

/-- The running values of `calculateApproximateBounds` that stand for a box. -/
def Limits.ofRect (r : Rect2) : Limits :=
  ⟨some r.min.x, some r.min.y, some r.max.x, some r.max.y⟩

/-- A root solver as the claim on precise bounds assumes it: `solveLinear(a, b)`
reports the root `-b / a` of `a t + b = 0` when `a ≠ 0`, and no root otherwise. -/
def exactLinear (a b : ℚ) : Option ℚ := if a = 0 then none else some (-b / a)

/-- The points the claim on `bounds(false)` lists for a command: its control points
and its anchor; none for a Close. -/
def pointsOf : Command → List Vec2
  | Command.move p => [p]
  | Command.line p => [p]
  | Command.quadratic c p => [c, p]
  | Command.conic c p _ => [c, p]
  | Command.cubic c1 c2 p => [c1, c2, p]
  | Command.close => []

/-- All control and anchor points of a path, in traversal order. -/
def allPoints : Path → List Vec2
  | [] => []
  | c :: cs => pointsOf c ++ allPoints cs

/-- The smallest axis-aligned box containing the given points (none for no points). -/
def boxOf : List Vec2 → Option Rect2
  | [] => none
  | p :: rest => some (rest.foldl Rect2.includePoint (Rect2.ofPoint p))

/-- No command of the list is a Close. -/
def NoClose (l : List Command) : Prop := ∀ c ∈ l, c.type ≠ CommandType.CLOSE

instance (l : List Command) : Decidable (NoClose l) := by
  unfold NoClose
  infer_instance

/-- What a run leaves behind: its first command, whose anchor becomes the midpoint of
its own anchor and the anchor of the run's last command when the run has two or more
commands (`merged`); tag and controls are kept. -/
def finishRun (head : Command) (last : Vec2) (merged : Bool) : Command :=
  if merged then (setPoint head (Vec2.sdiv (Vec2.add (anchorOf head) last) 2)).getD head
  else head

/-- Merging by maximal runs, as the specification words it: `head` is the first
command of the run being read, `last` the anchor of its latest command, `merged`
whether the run has two or more commands. A command whose anchor is within threshold
of `last` joins the run, any other command ends it and starts the next run. -/
def mergeFrom (equals : Vec2 → Vec2 → ℚ → Bool) (threshold : ℚ) (head : Command) :
    Vec2 → Bool → List Command → List Command
  | last, merged, [] => [finishRun head last merged]
  | last, merged, c :: cs =>
    if equals (anchorOf c) last threshold then
      mergeFrom equals threshold head (anchorOf c) true cs
    else finishRun head last merged :: mergeFrom equals threshold c (anchorOf c) false cs

/-- Some command has its anchor within threshold of its predecessor's anchor, that is,
a run of two or more commands exists. -/
def hasRunFrom (equals : Vec2 → Vec2 → ℚ → Bool) (threshold : ℚ) : Vec2 → List Command → Bool
  | _, [] => false
  | last, c :: cs =>
    equals (anchorOf c) last threshold || hasRunFrom equals threshold (anchorOf c) cs

/-- The groups of positions the first loop records from position `i` on, `cur` being
the group still open (if any). -/
def tailGroups (equals : Vec2 → Vec2 → ℚ → Bool) (threshold : ℚ) :
    Nat → Vec2 → List Command → Option (List Nat) → List (List Nat)
  | _, _, [], cur => cur.toList
  | i, last, c :: cs, cur =>
    if equals (anchorOf c) last threshold then
      tailGroups equals threshold (i + 1) (anchorOf c) cs (some (cur.getD [i] ++ [i + 1]))
    else cur.toList ++ tailGroups equals threshold (i + 1) (anchorOf c) cs none

/-- Nodes of commands still linked in the list. -/
def fresh (cs : List Command) : List Cell := cs.map (fun c => ⟨c, false⟩)

/-- Nodes of commands erased from the list. -/
def gone (cs : List Command) : List Cell := cs.map (fun c => ⟨c, true⟩)

/-- The group recorded for a run that starts at position `s` and continues with the
commands `rs`: none when the run is a single command. -/
def runGroup (s : Nat) : List Command → Option (List Nat)
  | [] => none
  | r :: rs => some (List.range' s ((r :: rs).length + 1))

end Path

namespace PathOver

/-- The anchor that precedes the command following `pre` on a path that starts at
`q0`: the point of the last command of `pre`, or `q0` when `pre` is empty. -/
def anchorBefore {K : Type} (q0 : Vec2Over K) (pre : List (CommandOver K)) : Vec2Over K :=
  (pre.filterMap CommandOver.point).getLastD q0

/-- The roots a solver of `a t^2 + b t + c = 0` is to report: every real root, unless
the equation is `0 = 0`, among the first two entries of its result. -/
def ReportsRoots (solveQuadratic : ℝ → ℝ → ℝ → List ℝ) : Prop :=
  ∀ a b c τ : ℝ, (a ≠ 0 ∨ b ≠ 0 ∨ c ≠ 0) → a * τ ^ 2 + b * τ + c = 0 →
    τ ∈ (solveQuadratic a b c).take 2

/-- Modelled from the spec: a root solver with the contract of `solveQuadratic(a, b, c)`
(only real roots, at most two, possibly none), built on a square-root function: the
root of the linear equation when `a = 0`, nothing for a negative discriminant, and the
two roots `(-b ± sqrt(b^2 - 4ac)) / (2a)` otherwise. -/
def quadraticRoots {K : Type} [LinearOrderedField K] (sqrt : K → K) (a b c : K) : List K :=
  if a = 0 then (if b = 0 then [] else [-c / b])
  else if b * b - 4 * a * c < 0 then []
  else [(-b + sqrt (b * b - 4 * a * c)) / (2 * a), (-b - sqrt (b * b - 4 * a * c)) / (2 * a)]

/-- The point at parameter `t` of the segment that a command draws from the anchor
`p0`: the straight line `(1-t) p0 + t p` for a Line, the quadratic Bezier curve for a
Quadratic, the cubic one for a Cubic. Move and Close draw nothing, and the Conic is
not among the segments the claim on tight bounds speaks of. -/
def segmentPoint {K : Type} [Field K] (p0 : Vec2Over K) : CommandOver K → K → Option (Vec2Over K)
  | CommandOver.line p, t => some (Vec2Over.add (Vec2Over.smul (1 - t) p0) (Vec2Over.smul t p))
  | CommandOver.quadratic c p, t => some (evaluateQuadraticAt p0 c p t)
  | CommandOver.cubic c1 c2 p, t => some (evaluateCubicAt p0 c1 c2 p t)
  | _, _ => none

/-- The point `q` lies on one of the segments drawn by the commands `cs`, the first of
them starting at the point of `previous`: it is the point at some parameter `t` in
`[0, 1]` of the segment of a command, drawn from the point of the command before. -/
def TracedFrom {K : Type} [LinearOrderedField K] :
    CommandOver K → List (CommandOver K) → Vec2Over K → Prop
  | _, [], _ => False
  | previous, current :: rest, q =>
    (∃ p0 t, previous.point = some p0 ∧ 0 ≤ t ∧ t ≤ 1 ∧ segmentPoint p0 current t = some q) ∨
      TracedFrom current rest q

/-- The point `q` is traced by the path: it is the point of the first command, or it
lies on one of its segments. -/
def Traced {K : Type} [LinearOrderedField K] : List (CommandOver K) → Vec2Over K → Prop
  | [], _ => False
  | front :: rest, q => front.point = some q ∨ TracedFrom front rest q

/-- The root a solver of `a t + b = 0` is to report when `a` is not zero. -/
def ReportsRoot (solveLinear : ℝ → ℝ → Option ℝ) : Prop :=
  ∀ a b : ℝ, a ≠ 0 → solveLinear a b = some (-b / a)

end PathOver

namespace Shape

/-- The include-merge of a list of rectangles, the default rectangle when there is
none. -/
def mergeAll : List Rect2 → Rect2
  | [] => Rect2.zero
  | b :: rest => rest.foldl Rect2.includeRect b

end Shape

/-! ## Theorems -/

namespace Path

/-! ### Builder operations -/

theorem noClose_append {l m : List Command} (hl : NoClose l) (hm : NoClose m) :
    NoClose (l ++ m) := by
  intro c hc
  rcases List.mem_append.mp hc with h | h
  · exact hl c h
  · exact hm c h

theorem closeOnlyLast_iff (p : Path) : closeOnlyLast p = true ↔ NoClose p.dropLast := by
  simp [closeOnlyLast, NoClose, List.all_eq_true]

theorem closeOnlyLast_concat (l : List Command) (c : Command) :
    closeOnlyLast (l ++ [c]) = true ↔ NoClose l := by
  rw [closeOnlyLast_iff, List.dropLast_concat]

theorem close_concat (l : List Command) (c : Command) (hc : c.type ≠ CommandType.CLOSE) :
    close (l ++ [c]) = some (l ++ [c] ++ [Command.close]) := by
  simp [close, hc]

theorem close_concat_close (l : List Command) :
    close (l ++ [Command.close]) = some (l ++ [Command.close]) := by
  simp [close, Command.type]

theorem withoutTrailingClose_concat (l : List Command) (c : Command) :
    withoutTrailingClose (l ++ [c]) = if c.type = CommandType.CLOSE then l else l ++ [c] := by
  simp [withoutTrailingClose]

theorem getLast?_cons_concat {α : Type} (a : α) (l : List α) (c : α) :
    (a :: (l ++ [c])).getLast? = some c :=
  List.getLast?_concat (a :: l)

theorem getLast?_cons_concat_pair {α : Type} (a : α) (l : List α) (b c : α) :
    (a :: (l ++ [b, c])).getLast? = some c := by
  have e : a :: (l ++ [b, c]) = (a :: l ++ [b]) ++ [c] := by simp
  rw [e]
  exact List.getLast?_concat _

/-- The shared body of the appending builders on a non-empty path whose first command
carries a point. -/
theorem appendSegment_cons (first : Command) (rest : Path) (fp : Vec2) (c : Command)
    (point : Vec2) (hf : first.point = some fp) (hc : c.type ≠ CommandType.CLOSE) :
    appendSegment (first :: rest) c point
      = some (withoutTrailingClose (first :: rest) ++ [c] ++
          (if point = fp then [Command.close] else [])) := by
  have hfc : first.type ≠ CommandType.CLOSE := by
    cases first <;> simp_all [Command.point, Command.type]
  rcases List.eq_nil_or_concat rest with hr | ⟨l, b, hr⟩
  · subst hr
    simp only [appendSegment, withoutTrailingClose, List.isEmpty_cons, List.getLast?_singleton,
      if_neg hfc]
    by_cases hp : point = fp
    · simp [hf, hp, close, hc]
    · simp [hf, hp]
  · rw [List.concat_eq_append] at hr
    subst hr
    have e : first :: (l ++ [b]) = (first :: l) ++ [b] := rfl
    rw [e]
    simp only [appendSegment, withoutTrailingClose, List.getLast?_concat, List.dropLast_concat]
    by_cases hb : b.type = CommandType.CLOSE
    · by_cases hp : point = fp
      · simp [hb, hf, hp, close, hc, getLast?_cons_concat]
      · simp [hb, hf, hp]
    · by_cases hp : point = fp
      · simp [hb, hf, hp, close, hc, getLast?_cons_concat_pair]
      · simp [hb, hf, hp]

theorem appendSegment_eq_appended (p : Path) (c : Command) (point : Vec2)
    (hc : c.point = some point)
    (h : ∀ f, p.head? = some f → f.type ≠ CommandType.CLOSE) :
    appendSegment p c point = some (appended p c point) := by
  cases p with
  | nil => simp [appendSegment, appended, moveTo]
  | cons first rest =>
    have hfc : first.type ≠ CommandType.CLOSE := h first (by simp)
    have hcc : c.type ≠ CommandType.CLOSE := by
      cases c <;> simp_all [Command.point, Command.type]
    obtain ⟨fp, hfp⟩ : ∃ fp, first.point = some fp := by
      cases first <;> simp_all [Command.point, Command.type]
    rw [appendSegment_cons first rest fp c point hfp hcc]
    simp only [appended, hfp, Option.some.injEq]
    by_cases hp : point = fp
    · simp [hp]
    · have hp2 : ¬ fp = point := fun e => hp e.symm
      simp [hp, hp2]

/-- C1: for every path whose first command (if any) carries a point, each of lineTo,
quadraticTo, conicTo and cubicTo gives `[Move p]` on the empty path and otherwise the
path without its trailing Close, followed by the new command with exactly the given
payload, followed by one Close exactly when `p` equals the first command's point. -/
theorem appending_builders_spec (p : Path) (control control1 control2 point : Vec2)
    (weight : ℚ) (h : ∀ f, p.head? = some f → f.type ≠ CommandType.CLOSE) :
    lineTo p point = some (appended p (Command.line point) point) ∧
    quadraticTo p control point = some (appended p (Command.quadratic control point) point) ∧
    conicTo p control point weight
      = some (appended p (Command.conic control point weight) point) ∧
    cubicTo p control1 control2 point
      = some (appended p (Command.cubic control1 control2 point) point) :=
  ⟨appendSegment_eq_appended p _ point rfl h, appendSegment_eq_appended p _ point rfl h,
    appendSegment_eq_appended p _ point rfl h, appendSegment_eq_appended p _ point rfl h⟩

/-- Witness for C1: a closed triangle re-opened and closed again by touching its
first point. -/
theorem appending_builders_spec_witness :
    lineTo [Command.move ⟨0, 0⟩, Command.line ⟨1, 0⟩, Command.close] ⟨0, 0⟩
      = some [Command.move ⟨0, 0⟩, Command.line ⟨1, 0⟩, Command.line ⟨0, 0⟩, Command.close] ∧
    cubicTo [Command.move ⟨0, 0⟩] ⟨1, 1⟩ ⟨2, 1⟩ ⟨3, 0⟩
      = some [Command.move ⟨0, 0⟩, Command.cubic ⟨1, 1⟩ ⟨2, 1⟩ ⟨3, 0⟩] := by
  have h1 := appending_builders_spec
    [Command.move ⟨0, 0⟩, Command.line ⟨1, 0⟩, Command.close] ⟨0, 0⟩ ⟨0, 0⟩ ⟨0, 0⟩ ⟨0, 0⟩ 1
    (by decide)
  have h2 := appending_builders_spec [Command.move ⟨0, 0⟩] ⟨0, 0⟩ ⟨1, 1⟩ ⟨2, 1⟩ ⟨3, 0⟩ 1
    (by decide)
  exact ⟨h1.1.trans (by decide), h2.2.2.2.trans (by decide)⟩

/-! ### Invariants of the builder interface -/

theorem wellFormed_iff (p : Path) :
    wellFormed p = true ↔ firstIsMove p = true ∧ NoClose p.dropLast := by
  simp [wellFormed, closeOnlyLast_iff]

theorem withoutTrailingClose_cons (first : Command) (rest : Path)
    (hf : first.type ≠ CommandType.CLOSE) (hn : NoClose (first :: rest).dropLast) :
    ∃ l, withoutTrailingClose (first :: rest) = first :: l ∧ NoClose (first :: l) := by
  rcases List.eq_nil_or_concat rest with hr | ⟨l, b, hr⟩
  · subst hr
    refine ⟨[], by simp [withoutTrailingClose, hf], ?_⟩
    intro c hc
    simp only [List.mem_singleton] at hc
    subst hc
    exact hf
  · rw [List.concat_eq_append] at hr
    subst hr
    have e : first :: (l ++ [b]) = (first :: l) ++ [b] := rfl
    rw [e, List.dropLast_concat] at hn
    rw [e, withoutTrailingClose_concat]
    by_cases hb : b.type = CommandType.CLOSE
    · exact ⟨l, by simp [hb], hn⟩
    · refine ⟨l ++ [b], by simp [hb], ?_⟩
      have : NoClose ((first :: l) ++ [b]) := noClose_append hn (by
        intro c hc
        simp only [List.mem_singleton] at hc
        subst hc
        exact hb)
      exact this

theorem firstIsMove_type {first : Command} {rest : Path}
    (h : firstIsMove (first :: rest) = true) : first.type = CommandType.MOVE := by
  simpa [firstIsMove] using h

theorem point_of_move {c : Command} (h : c.type = CommandType.MOVE) :
    ∃ q, c = Command.move q := by
  cases c <;> simp_all [Command.type]

theorem appendSegment_wellFormed (p : Path) (c : Command) (point : Vec2)
    (hc : c.type ≠ CommandType.CLOSE) (hw : wellFormed p = true) :
    ∃ q, appendSegment p c point = some q ∧ wellFormed q = true ∧ q ≠ [] := by
  cases p with
  | nil => exact ⟨[Command.move point], by simp [appendSegment, moveTo], rfl, by simp⟩
  | cons first rest =>
    obtain ⟨hm, hn⟩ := (wellFormed_iff _).mp hw
    have hft := firstIsMove_type hm
    obtain ⟨q0, hq0⟩ := point_of_move hft
    have hfc : first.type ≠ CommandType.CLOSE := by rw [hft]; decide
    obtain ⟨l, hl, hnl⟩ := withoutTrailingClose_cons first rest hfc hn
    have hcn : NoClose [c] := by
      intro d hd
      simp only [List.mem_singleton] at hd
      subst hd
      exact hc
    rw [appendSegment_cons first rest q0 c point (by rw [hq0]; rfl) hc, hl]
    refine ⟨_, rfl, ?_, by simp⟩
    rw [wellFormed_iff]
    constructor
    · simpa [firstIsMove] using hft
    · by_cases hp : point = q0
      · rw [if_pos hp, List.dropLast_concat]
        exact noClose_append hnl hcn
      · rw [if_neg hp, List.append_nil, List.dropLast_concat]
        exact hnl

theorem close_wellFormed (p : Path) (hw : wellFormed p = true) (hne : p ≠ []) :
    ∃ q, close p = some q ∧ wellFormed q = true ∧ q ≠ [] := by
  obtain ⟨hm, hn⟩ := (wellFormed_iff _).mp hw
  rcases List.eq_nil_or_concat p with hr | ⟨l, b, hr⟩
  · exact absurd hr hne
  · rw [List.concat_eq_append] at hr
    subst hr
    rw [List.dropLast_concat] at hn
    by_cases hb : b.type = CommandType.CLOSE
    · refine ⟨l ++ [b], by simp [close, hb], hw, hne⟩
    · refine ⟨l ++ [b] ++ [Command.close], close_concat l b hb, ?_, by simp⟩
      rw [wellFormed_iff, List.dropLast_concat]
      constructor
      · cases l with
        | nil => simpa [firstIsMove] using hm
        | cons a l1 => simpa [firstIsMove] using hm
      · exact noClose_append hn (by
          intro c hc
          simp only [List.mem_singleton] at hc
          subst hc
          exact hb)

/-- Every builder call keeps a well-formed path well-formed; only `close()` on the
empty path fails. -/
theorem applyOp_wellFormed (p : Path) (op : BuilderOp) (hw : wellFormed p = true)
    (h : p ≠ [] ∨ op ≠ BuilderOp.close) :
    ∃ q, applyOp p op = some q ∧ wellFormed q = true ∧ q ≠ [] := by
  cases op with
  | moveTo point => exact ⟨[Command.move point], rfl, rfl, by simp⟩
  | lineTo point => exact appendSegment_wellFormed p _ point (by simp [Command.type]) hw
  | quadraticTo control point =>
    exact appendSegment_wellFormed p _ point (by simp [Command.type]) hw
  | conicTo control point weight =>
    exact appendSegment_wellFormed p _ point (by simp [Command.type]) hw
  | cubicTo control1 control2 point =>
    exact appendSegment_wellFormed p _ point (by simp [Command.type]) hw
  | close =>
    rcases h with h | h
    · exact close_wellFormed p hw h
    · exact absurd rfl h

theorem runOps_wellFormed_of_nonempty (ops : List BuilderOp) (p : Path)
    (hw : wellFormed p = true) (hne : p ≠ []) :
    ∃ q, runOps p ops = some q ∧ wellFormed q = true := by
  induction ops generalizing p with
  | nil => exact ⟨p, rfl, hw⟩
  | cons op ops ih =>
    obtain ⟨q, hq, hwq, hneq⟩ := applyOp_wellFormed p op hw (Or.inl hne)
    obtain ⟨r, hr, hwr⟩ := ih q hwq hneq
    exact ⟨r, by simp [runOps, hq, hr], hwr⟩

/-- A run from the empty path produces a result unless it starts with `close()`. -/
theorem runOps_empty_isSome (ops : List BuilderOp) (h : ops.head? ≠ some BuilderOp.close) :
    ∃ q, runOps [] ops = some q ∧ wellFormed q = true := by
  cases ops with
  | nil => exact ⟨[], rfl, by decide⟩
  | cons op ops =>
    have hop : op ≠ BuilderOp.close := by
      intro e
      apply h
      simp [e]
    obtain ⟨q, hq, hwq, hneq⟩ := applyOp_wellFormed [] op (by decide) (Or.inr hop)
    obtain ⟨r, hr, hwr⟩ := runOps_wellFormed_of_nonempty ops q hwq hneq
    exact ⟨r, by simp [runOps, hq, hr], hwr⟩

theorem runOps_empty_wellFormed (ops : List BuilderOp) (p : Path)
    (h : runOps [] ops = some p) : wellFormed p = true := by
  by_cases hc : ops.head? = some BuilderOp.close
  · cases ops with
    | nil => simp at hc
    | cons op ops =>
      simp only [List.head?_cons, Option.some.injEq] at hc
      subst hc
      simp [runOps, applyOp, close] at h
  · obtain ⟨q, hq, hwq⟩ := runOps_empty_isSome ops hc
    rw [hq] at h
    cases h
    exact hwq

theorem filter_close_length (p : Path) (hn : NoClose p.dropLast) :
    (p.filter (fun c => decide (c.type = CommandType.CLOSE))).length ≤ 1 := by
  rcases List.eq_nil_or_concat p with hr | ⟨l, b, hr⟩
  · subst hr
    simp
  · rw [List.concat_eq_append] at hr
    subst hr
    rw [List.dropLast_concat] at hn
    have hl : l.filter (fun c => decide (c.type = CommandType.CLOSE)) = [] := by
      rw [List.filter_eq_nil_iff]
      intro c hc
      simpa using hn c hc
    rw [List.filter_append, hl, List.nil_append]
    by_cases hb : b.type = CommandType.CLOSE <;> simp [List.filter, hb]

/-- C2: every path reached from the empty path by a finite sequence of moveTo, lineTo,
quadraticTo, conicTo, cubicTo and close calls satisfies both path invariants: (a) a
first command, if any, is a Move; (b) there is at most one Close command, and no
Close stands before the last position. -/
theorem builder_reachable_invariants (ops : List BuilderOp) (p : Path)
    (h : runOps [] ops = some p) :
    (∀ c, p.head? = some c → c.type = CommandType.MOVE) ∧
    (p.filter (fun c => decide (c.type = CommandType.CLOSE))).length ≤ 1 ∧
    (∀ c ∈ p.dropLast, c.type ≠ CommandType.CLOSE) := by
  obtain ⟨hm, hn⟩ := (wellFormed_iff p).mp (runOps_empty_wellFormed ops p h)
  refine ⟨?_, filter_close_length p hn, hn⟩
  intro c hc
  cases p with
  | nil => simp at hc
  | cons first rest =>
    simp only [List.head?_cons, Option.some.injEq] at hc
    subst hc
    exact firstIsMove_type hm

/-- Witness for C2: a run that closes by touching, calls `close()` again, re-opens
the contour with a curve and restarts it with `moveTo`. -/
theorem builder_reachable_invariants_witness :
    runOps [] [BuilderOp.lineTo ⟨0, 0⟩, BuilderOp.lineTo ⟨1, 0⟩, BuilderOp.lineTo ⟨0, 0⟩,
        BuilderOp.close, BuilderOp.conicTo ⟨1, 1⟩ ⟨2, 0⟩ 1, BuilderOp.close]
      = some [Command.move ⟨0, 0⟩, Command.line ⟨1, 0⟩, Command.line ⟨0, 0⟩,
          Command.conic ⟨1, 1⟩ ⟨2, 0⟩ 1, Command.close] ∧
    ([Command.move ⟨0, 0⟩, Command.line ⟨1, 0⟩, Command.line ⟨0, 0⟩,
        Command.conic ⟨1, 1⟩ ⟨2, 0⟩ 1, Command.close].filter
      (fun c => decide (c.type = CommandType.CLOSE))).length ≤ 1 :=
  ⟨by decide, (builder_reachable_invariants
    [BuilderOp.lineTo ⟨0, 0⟩, BuilderOp.lineTo ⟨1, 0⟩, BuilderOp.lineTo ⟨0, 0⟩,
      BuilderOp.close, BuilderOp.conicTo ⟨1, 1⟩ ⟨2, 0⟩ 1, BuilderOp.close] _ (by decide)).2.1⟩

/-! ### reverse -/

theorem type_ne_close_iff (c : Command) : c.type ≠ CommandType.CLOSE ↔ c ≠ Command.close := by
  cases c <;> simp [Command.type]

theorem point_eq_anchorOf {c : Command} (h : c.type ≠ CommandType.CLOSE) :
    c.point = some (anchorOf c) := by
  cases c <;> simp_all [Command.type, Command.point, anchorOf]

theorem holdersOf_reverse {c : Command} (h : c.type ≠ CommandType.CLOSE) :
    (holdersOf c).reverse = Holder.vector (anchorOf c) :: dataRev c := by
  cases c <;> simp_all [Command.type, Command.point, anchorOf, holdersOf, dataRev]

theorem refill_dataRev {c : Command} (h : c.type ≠ CommandType.CLOSE) (q : Vec2)
    (rest : List Holder) :
    refill c (dataRev c ++ Holder.vector q :: rest) = some (mirrored c q, rest) := by
  cases c <;> simp_all [Command.type, refill, dataRev, mirrored, takeVector, takeScalar]

theorem anchorOf_mirrored {c : Command} (h : c.type ≠ CommandType.CLOSE) (q : Vec2) :
    anchorOf (mirrored c q) = q := by
  cases c <;> simp_all [Command.type, Command.point, anchorOf, mirrored]

theorem mirrored_mirrored {c : Command} (h : c.type ≠ CommandType.CLOSE) (q : Vec2) :
    mirrored (mirrored c q) (anchorOf c) = c := by
  cases c <;> simp_all [Command.type, Command.point, anchorOf, mirrored]

theorem type_mirrored (c : Command) (q : Vec2) : (mirrored c q).type = c.type := by
  cases c <;> rfl

theorem noClose_cons {c : Command} {l : List Command} :
    NoClose (c :: l) ↔ c.type ≠ CommandType.CLOSE ∧ NoClose l := by
  simp [NoClose]

theorem noClose_reverse {l : List Command} : NoClose l.reverse ↔ NoClose l := by
  simp [NoClose]

theorem collectHolders_append (l m : List Command) :
    collectHolders (l ++ m) = collectHolders l ++ collectHolders m := by
  induction l with
  | nil => rfl
  | cons c l ih => simp [collectHolders, ih]

theorem collectHolders_reverse_stream (p0 : Vec2) (rb : List Command) (h : NoClose rb) :
    (collectHolders rb.reverse).reverse ++ [Holder.vector p0]
      = Holder.vector (lastAnchor p0 rb) :: holderStream p0 rb := by
  induction rb with
  | nil => rfl
  | cons c rb ih =>
    obtain ⟨hc, hrb⟩ := noClose_cons.mp h
    rw [List.reverse_cons, collectHolders_append, List.reverse_append]
    have e : collectHolders [c] = holdersOf c := by simp [collectHolders]
    rw [e, holdersOf_reverse hc, List.append_assoc, ih hrb]
    simp [holderStream, lastAnchor]

theorem refillAll_append (l m : List Command) (hs hs1 hs2 : List Holder)
    (o1 o2 : List Command) (h1 : refillAll l hs = some (o1, hs1))
    (h2 : refillAll m hs1 = some (o2, hs2)) :
    refillAll (l ++ m) hs = some (o1 ++ o2, hs2) := by
  induction l generalizing hs o1 with
  | nil =>
    simp only [refillAll, Option.some.injEq, Prod.mk.injEq] at h1
    obtain ⟨rfl, rfl⟩ := h1
    simpa using h2
  | cons c l ih =>
    simp only [refillAll] at h1
    cases hc : refill c hs with
    | none => simp [hc] at h1
    | some r =>
      obtain ⟨c1, hsc⟩ := r
      simp only [hc] at h1
      cases hl : refillAll l hsc with
      | none => simp [hl] at h1
      | some r2 =>
        obtain ⟨o, hso⟩ := r2
        simp only [hl, Option.some.injEq, Prod.mk.injEq] at h1
        obtain ⟨rfl, rfl⟩ := h1
        have := ih hsc o hl
        simp [refillAll, hc, this]

theorem refillAll_stream (p0 : Vec2) (rb : List Command) (h : NoClose rb)
    (rest : List Holder) :
    refillAll rb (holderStream p0 rb ++ rest) = some (mirrorAll p0 rb, rest) := by
  induction rb with
  | nil => rfl
  | cons c rb ih =>
    obtain ⟨hc, hrb⟩ := noClose_cons.mp h
    simp only [holderStream, List.append_assoc, List.cons_append, refillAll,
      refill_dataRev hc, ih hrb, mirrorAll]

theorem refillAll_tail (tail : List Command) (ht : tail = [] ∨ tail = [Command.close]) :
    refillAll tail [] = some (tail, []) := by
  rcases ht with rfl | rfl <;> rfl

theorem collectHolders_tail (tail : List Command) (ht : tail = [] ∨ tail = [Command.close]) :
    collectHolders tail = [] := by
  rcases ht with rfl | rfl <;> rfl

theorem reverseCommands_shape (p0 : Vec2) (body tail : List Command) (hb : NoClose body)
    (ht : tail = [] ∨ tail = [Command.close]) :
    reverseCommands (Command.move p0 :: (body ++ tail))
      = some (Command.move p0 :: (body.reverse ++ tail)) := by
  rcases ht with rfl | rfl
  · rcases List.eq_nil_or_concat body with hr | ⟨l, b, hr⟩
    · subst hr
      simp [reverseCommands, Command.type]
    · rw [List.concat_eq_append] at hr
      subst hr
      have hbt : b.type ≠ CommandType.CLOSE := hb b (by simp)
      simp [reverseCommands, getLast?_cons_concat, hbt]
  · cases body with
    | nil => simp [reverseCommands, Command.type]
    | cons c l =>
      have e : Command.move p0 :: (c :: l ++ [Command.close])
          = Command.move p0 :: ((c :: l) ++ [Command.close]) := rfl
      have e2 : (c :: l ++ [Command.close]) = (c :: (l ++ [Command.close])) := rfl
      simp only [reverseCommands, getLast?_cons_concat, Command.type, if_true]
      rw [e2]
      simp only []
      have e3 : (c :: (l ++ [Command.close])).dropLast = c :: l := by
        rw [← List.cons_append, List.dropLast_concat]
      rw [e3]

/-- The result of `reverse` on a well-formed non-empty path, over the reversed
segment list. -/
theorem reverse_eq_mirrorAll (p0 : Vec2) (body tail : List Command) (hb : NoClose body)
    (ht : tail = [] ∨ tail = [Command.close]) :
    reverse (Command.move p0 :: (body ++ tail))
      = some (Command.move (lastAnchor p0 body.reverse) ::
          (mirrorAll p0 body.reverse ++ tail)) := by
  have hh : (collectHolders (Command.move p0 :: (body ++ tail))).reverse
      = Holder.vector (lastAnchor p0 body.reverse) :: holderStream p0 body.reverse := by
    have := collectHolders_reverse_stream p0 body.reverse (noClose_reverse.mpr hb)
    rw [List.reverse_reverse] at this
    simp [collectHolders, holdersOf, collectHolders_append, collectHolders_tail tail ht, this]
  have h1 : refillAll (body.reverse ++ tail) (holderStream p0 body.reverse)
      = some (mirrorAll p0 body.reverse ++ tail, []) := by
    apply refillAll_append _ _ _ [] _ _ _ _ (refillAll_tail tail ht)
    have := refillAll_stream p0 body.reverse (noClose_reverse.mpr hb) []
    simpa using this
  simp only [reverse, List.isEmpty_cons, reverseCommands_shape p0 body tail hb ht, hh,
    refillAll, refill, takeVector, h1]
  simp

theorem anchors_concat (l : List Command) {c : Command} (h : c.type ≠ CommandType.CLOSE) :
    anchors (l ++ [c]) = anchors l ++ [anchorOf c] := by
  simp [anchors, List.filterMap_append, point_eq_anchorOf h]

theorem lastAnchor_eq_getLastD (p0 : Vec2) (rb : List Command) (h : NoClose rb) :
    lastAnchor p0 rb = (anchors rb.reverse).getLastD p0 := by
  cases rb with
  | nil => rfl
  | cons c rb =>
    obtain ⟨hc, _⟩ := noClose_cons.mp h
    rw [List.reverse_cons, anchors_concat _ hc]
    simp [lastAnchor, List.getLastD_eq_getLast?]

theorem starts_reverse (p0 : Vec2) (rb : List Command) (h : NoClose rb) :
    (p0 :: anchors rb.reverse).reverse
      = lastAnchor p0 rb :: (p0 :: anchors rb.reverse).dropLast.reverse := by
  cases rb with
  | nil => rfl
  | cons d rb =>
    obtain ⟨hd, _⟩ := noClose_cons.mp h
    have ea : anchors (d :: rb).reverse = anchors rb.reverse ++ [anchorOf d] := by
      rw [List.reverse_cons, anchors_concat _ hd]
    have e : p0 :: (anchors rb.reverse ++ [anchorOf d])
        = (p0 :: anchors rb.reverse) ++ [anchorOf d] := rfl
    rw [ea, e, List.dropLast_concat, List.reverse_append]
    rfl

theorem mirrorAll_eq_zipWith (p0 : Vec2) (rb : List Command) (h : NoClose rb) :
    mirrorAll p0 rb
      = List.zipWith mirrored rb (p0 :: anchors rb.reverse).dropLast.reverse := by
  induction rb with
  | nil => rfl
  | cons c rb ih =>
    obtain ⟨hc, hrb⟩ := noClose_cons.mp h
    rw [List.reverse_cons, anchors_concat _ hc]
    have e : p0 :: (anchors rb.reverse ++ [anchorOf c])
        = (p0 :: anchors rb.reverse) ++ [anchorOf c] := rfl
    rw [e, List.dropLast_concat, starts_reverse p0 rb hrb, List.zipWith_cons_cons, ← ih hrb]
    rfl

/-- C4: for a path `Move p0, s1, .., sn` with an optional trailing Close (`tail`) and
no other Close, `reverse()` yields `Move pn`, then for `k = 1..n` the segment
`s(n+1-k)` with its tag kept, its endpoint set to `p(n-k)` and its control data
mirrored (Quadratic: same control; Conic: same control and weight; Cubic: controls
exchanged), then the trailing Close exactly when the original has one; the size is
unchanged. -/
theorem reverse_traces_backwards (p0 : Vec2) (body tail : List Command) (hb : NoClose body)
    (ht : tail = [] ∨ tail = [Command.close]) :
    reverse (Command.move p0 :: (body ++ tail)) = some (reversedPath p0 body tail) ∧
    (reversedPath p0 body tail).length = (Command.move p0 :: (body ++ tail)).length := by
  have h1 := reverse_eq_mirrorAll p0 body tail hb ht
  have h2 := mirrorAll_eq_zipWith p0 body.reverse (noClose_reverse.mpr hb)
  have h3 := lastAnchor_eq_getLastD p0 body.reverse (noClose_reverse.mpr hb)
  rw [List.reverse_reverse] at h2 h3
  have h4 : reversedPath p0 body tail
      = Command.move (lastAnchor p0 body.reverse) :: (mirrorAll p0 body.reverse ++ tail) := by
    simp [reversedPath, h2, h3]
  refine ⟨by rw [h1, h4], ?_⟩
  rw [h4]
  have hl : ∀ rb : List Command, (mirrorAll p0 rb).length = rb.length := by
    intro rb
    induction rb with
    | nil => rfl
    | cons c rb ih => simp [mirrorAll, ih]
  simp [hl]

/-- Witness for C4: a closed path with one segment of each curve kind. -/
theorem reverse_traces_backwards_witness :
    reverse [Command.move ⟨0, 0⟩, Command.quadratic ⟨1, 1⟩ ⟨2, 0⟩,
        Command.conic ⟨3, 1⟩ ⟨4, 0⟩ 2, Command.cubic ⟨5, 1⟩ ⟨6, 2⟩ ⟨7, 0⟩, Command.line ⟨8, 8⟩,
        Command.close]
      = some [Command.move ⟨8, 8⟩, Command.line ⟨7, 0⟩, Command.cubic ⟨6, 2⟩ ⟨5, 1⟩ ⟨4, 0⟩,
          Command.conic ⟨3, 1⟩ ⟨2, 0⟩ 2, Command.quadratic ⟨1, 1⟩ ⟨0, 0⟩, Command.close] :=
  (reverse_traces_backwards ⟨0, 0⟩
    [Command.quadratic ⟨1, 1⟩ ⟨2, 0⟩, Command.conic ⟨3, 1⟩ ⟨4, 0⟩ 2,
      Command.cubic ⟨5, 1⟩ ⟨6, 2⟩ ⟨7, 0⟩, Command.line ⟨8, 8⟩]
    [Command.close] (by decide) (Or.inr rfl)).1.trans (by decide)

theorem wellFormed_decompose (p : Path) (hw : wellFormed p = true) :
    p = [] ∨ ∃ p0 body tail, p = Command.move p0 :: (body ++ tail) ∧ NoClose body ∧
      (tail = [] ∨ tail = [Command.close]) := by
  cases p with
  | nil => exact Or.inl rfl
  | cons first rest =>
    right
    obtain ⟨hm, hn⟩ := (wellFormed_iff _).mp hw
    obtain ⟨p0, rfl⟩ := point_of_move (firstIsMove_type hm)
    rcases List.eq_nil_or_concat rest with hr | ⟨l, b, hr⟩
    · subst hr
      exact ⟨p0, [], [], rfl, by simp [NoClose], Or.inl rfl⟩
    · rw [List.concat_eq_append] at hr
      subst hr
      have e : Command.move p0 :: (l ++ [b]) = (Command.move p0 :: l) ++ [b] := rfl
      rw [e, List.dropLast_concat] at hn
      have hl : NoClose l := (noClose_cons.mp hn).2
      by_cases hb : b.type = CommandType.CLOSE
      · have hbc : b = Command.close := by
          by_contra hne
          exact (type_ne_close_iff b).mpr hne hb
        subst hbc
        exact ⟨p0, l, [Command.close], rfl, hl, Or.inr rfl⟩
      · refine ⟨p0, l ++ [b], [], by simp, ?_, Or.inl rfl⟩
        exact noClose_append hl (by
          intro c hc
          simp only [List.mem_singleton] at hc
          subst hc
          exact hb)

theorem lastAnchor_concat (s : Vec2) (l : List Command) (d : Command) :
    lastAnchor s (l ++ [d]) = lastAnchor (anchorOf d) l := by
  cases l <;> rfl

theorem mirrorAll_concat (s : Vec2) (l : List Command) (d : Command) :
    mirrorAll s (l ++ [d]) = mirrorAll (anchorOf d) l ++ [mirrored d s] := by
  induction l with
  | nil => rfl
  | cons e l ih => simp [mirrorAll, ih, lastAnchor_concat]

theorem noClose_mirrorAll (p0 : Vec2) (rb : List Command) (h : NoClose rb) :
    NoClose (mirrorAll p0 rb) := by
  induction rb with
  | nil => simp [mirrorAll, NoClose]
  | cons c rb ih =>
    obtain ⟨hc, hrb⟩ := noClose_cons.mp h
    exact noClose_cons.mpr ⟨by rw [type_mirrored]; exact hc, ih hrb⟩

theorem lastAnchor_cons (p0 : Vec2) (c : Command) (rb : List Command) :
    lastAnchor p0 (c :: rb) = anchorOf c := rfl

theorem mirrorAll_mirrorAll (p0 : Vec2) (rb : List Command) (h : NoClose rb) :
    mirrorAll (lastAnchor p0 rb) (mirrorAll p0 rb).reverse = rb.reverse := by
  induction rb with
  | nil => rfl
  | cons c rb ih =>
    obtain ⟨hc, hrb⟩ := noClose_cons.mp h
    simp only [mirrorAll, List.reverse_cons, mirrorAll_concat, lastAnchor_cons,
      anchorOf_mirrored hc, mirrored_mirrored hc, ih hrb]

theorem lastAnchor_mirrorAll (p0 : Vec2) (rb : List Command) (h : NoClose rb) :
    lastAnchor (lastAnchor p0 rb) (mirrorAll p0 rb).reverse = p0 := by
  rcases List.eq_nil_or_concat rb with hr | ⟨l, d, hr⟩
  · subst hr
    rfl
  · rw [List.concat_eq_append] at hr
    subst hr
    have hd : d.type ≠ CommandType.CLOSE := h d (by simp)
    rw [mirrorAll_concat, List.reverse_append]
    simp [lastAnchor, anchorOf_mirrored hd]

/-- C3: `reverse()` is an involution on every path satisfying the path invariants
(first command Move, at most one Close and only as the last command), whatever the
mix of Line, Quadratic, Conic and Cubic commands: reversing twice gives back the same
command list; on the empty path `reverse` is the identity. -/
theorem reverse_involution (p : Path) (hw : wellFormed p = true) :
    (reverse p).bind reverse = some p ∧ reverse ([] : Path) = some [] := by
  refine ⟨?_, rfl⟩
  rcases wellFormed_decompose p hw with rfl | ⟨p0, body, tail, rfl, hb, ht⟩
  · rfl
  · have hrb : NoClose body.reverse := noClose_reverse.mpr hb
    rw [reverse_eq_mirrorAll p0 body tail hb ht, Option.some_bind,
      reverse_eq_mirrorAll _ _ tail (noClose_mirrorAll p0 _ hrb) ht,
      mirrorAll_mirrorAll p0 _ hrb, lastAnchor_mirrorAll p0 _ hrb, List.reverse_reverse]

/-- Witness for C3: reversing a closed path with every curve kind twice. -/
theorem reverse_involution_witness :
    (reverse [Command.move ⟨0, 0⟩, Command.quadratic ⟨1, 1⟩ ⟨2, 0⟩,
        Command.conic ⟨3, 1⟩ ⟨4, 0⟩ 2, Command.cubic ⟨5, 1⟩ ⟨6, 2⟩ ⟨7, 0⟩,
        Command.close]).bind reverse
      = some [Command.move ⟨0, 0⟩, Command.quadratic ⟨1, 1⟩ ⟨2, 0⟩,
        Command.conic ⟨3, 1⟩ ⟨4, 0⟩ 2, Command.cubic ⟨5, 1⟩ ⟨6, 2⟩ ⟨7, 0⟩, Command.close] :=
  (reverse_involution _ (by decide)).1

/-! ### bounds -/

theorem lowerTo_some (cur : Option ℚ) (v : ℚ) :
    ∃ m, lowerTo cur v = some m ∧ m ≤ v ∧ ∀ a, cur = some a → m ≤ a := by
  cases cur with
  | none => exact ⟨v, rfl, le_refl v, by simp⟩
  | some a =>
    by_cases h : v < a
    · exact ⟨v, by simp [lowerTo, h], le_refl v, by
        intro b hb
        cases hb
        exact le_of_lt h⟩
    · exact ⟨a, by simp [lowerTo, h], not_lt.mp h, by
        intro b hb
        cases hb
        exact le_refl _⟩

theorem raiseTo_some (cur : Option ℚ) (v : ℚ) :
    ∃ m, raiseTo cur v = some m ∧ v ≤ m ∧ ∀ a, cur = some a → a ≤ m := by
  cases cur with
  | none => exact ⟨v, rfl, le_refl v, by simp⟩
  | some a =>
    by_cases h : v > a
    · exact ⟨v, by simp [raiseTo, h], le_refl v, by
        intro b hb
        cases hb
        exact le_of_lt h⟩
    · exact ⟨a, by simp [raiseTo, h], not_lt.mp h, by
        intro b hb
        cases hb
        exact le_refl _⟩

theorem visit_holds_self (l : Limits) (p : Vec2) : (l.visit p).Holds p := by
  obtain ⟨a, ha, ha1, _⟩ := lowerTo_some l.min_x p.x
  obtain ⟨b, hb, hb1, _⟩ := lowerTo_some l.min_y p.y
  obtain ⟨c, hc, hc1, _⟩ := raiseTo_some l.max_x p.x
  obtain ⟨d, hd, hd1, _⟩ := raiseTo_some l.max_y p.y
  exact ⟨a, b, c, d, by simp [Limits.visit, ha, hb, hc, hd], ha1, hb1, hc1, hd1⟩

theorem visit_holds_mono (l : Limits) (p q : Vec2) (h : l.Holds q) : (l.visit p).Holds q := by
  obtain ⟨a0, b0, c0, d0, hl, h1, h2, h3, h4⟩ := h
  obtain ⟨a, ha, _, ha2⟩ := lowerTo_some l.min_x p.x
  obtain ⟨b, hb, _, hb2⟩ := lowerTo_some l.min_y p.y
  obtain ⟨c, hc, _, hc2⟩ := raiseTo_some l.max_x p.x
  obtain ⟨d, hd, _, hd2⟩ := raiseTo_some l.max_y p.y
  subst hl
  exact ⟨a, b, c, d, by simp [Limits.visit, ha, hb, hc, hd],
    le_trans (ha2 a0 rfl) h1, le_trans (hb2 b0 rfl) h2,
    le_trans h3 (hc2 c0 rfl), le_trans h4 (hd2 d0 rfl)⟩

theorem holds_includePoint (l : Limits) (r : Rect2) (p : Vec2)
    (hmin : l.Holds r.min) (hmax : l.Holds r.max) (hp : l.Holds p) :
    l.Holds (r.includePoint p).min ∧ l.Holds (r.includePoint p).max := by
  obtain ⟨a, b, c, d, hl, h1, h2, h3, h4⟩ := hmin
  obtain ⟨a1, b1, c1, d1, hl1, k1, k2, k3, k4⟩ := hmax
  obtain ⟨a2, b2, c2, d2, hl2, m1, m2, m3, m4⟩ := hp
  subst hl
  simp only [Limits.mk.injEq, Option.some.injEq] at hl1 hl2
  obtain ⟨rfl, rfl, rfl, rfl⟩ := hl1
  obtain ⟨rfl, rfl, rfl, rfl⟩ := hl2
  constructor
  · exact ⟨a, b, c, d, rfl, le_min h1 m1, le_min h2 m2,
      le_trans (min_le_left _ _) h3, le_trans (min_le_left _ _) h4⟩
  · exact ⟨a, b, c, d, rfl, le_trans k1 (le_max_left _ _), le_trans k2 (le_max_left _ _),
      max_le k3 m3, max_le k4 m4⟩

theorem holds_foldl_includePoint (l : Limits) (pts : List Vec2) (r : Rect2)
    (hmin : l.Holds r.min) (hmax : l.Holds r.max) (hp : ∀ p ∈ pts, l.Holds p) :
    l.Holds (pts.foldl Rect2.includePoint r).min ∧
      l.Holds (pts.foldl Rect2.includePoint r).max := by
  induction pts generalizing r with
  | nil => exact ⟨hmin, hmax⟩
  | cons p pts ih =>
    obtain ⟨h1, h2⟩ := holds_includePoint l r p hmin hmax (hp p (by simp))
    exact ih (r.includePoint p) h1 h2 (fun q hq => hp q (by simp [hq]))

theorem quadratic_between (a x0 x1 x2 t : ℚ) (h0 : a ≤ x0) (h1 : a ≤ x1) (h2 : a ≤ x2)
    (ht0 : 0 < t) (ht1 : t < 1) :
    a ≤ (1 - t) * (1 - t) * x0 + 2 * (1 - t) * t * x1 + t * t * x2 := by
  have hs : 0 ≤ 1 - t := by linarith
  have e0 := mul_nonneg (mul_nonneg hs hs) (sub_nonneg.mpr h0)
  have e1 := mul_nonneg (mul_nonneg (mul_nonneg (by norm_num : (0 : ℚ) ≤ 2) hs) (le_of_lt ht0))
    (sub_nonneg.mpr h1)
  have e2 := mul_nonneg (mul_nonneg (le_of_lt ht0) (le_of_lt ht0)) (sub_nonneg.mpr h2)
  nlinarith [e0, e1, e2]

theorem quadratic_below (a x0 x1 x2 t : ℚ) (h0 : x0 ≤ a) (h1 : x1 ≤ a) (h2 : x2 ≤ a)
    (ht0 : 0 < t) (ht1 : t < 1) :
    (1 - t) * (1 - t) * x0 + 2 * (1 - t) * t * x1 + t * t * x2 ≤ a := by
  have hs : 0 ≤ 1 - t := by linarith
  have e0 := mul_nonneg (mul_nonneg hs hs) (sub_nonneg.mpr h0)
  have e1 := mul_nonneg (mul_nonneg (mul_nonneg (by norm_num : (0 : ℚ) ≤ 2) hs) (le_of_lt ht0))
    (sub_nonneg.mpr h1)
  have e2 := mul_nonneg (mul_nonneg (le_of_lt ht0) (le_of_lt ht0)) (sub_nonneg.mpr h2)
  nlinarith [e0, e1, e2]

theorem holds_evaluateQuadraticAt (l : Limits) (p0 p1 p2 : Vec2) (t : ℚ)
    (h0 : l.Holds p0) (h1 : l.Holds p1) (h2 : l.Holds p2) (ht0 : 0 < t) (ht1 : t < 1) :
    l.Holds (evaluateQuadraticAt p0 p1 p2 t) := by
  obtain ⟨a, b, c, d, hl, u1, u2, u3, u4⟩ := h0
  obtain ⟨a1, b1, c1, d1, hl1, v1, v2, v3, v4⟩ := h1
  obtain ⟨a2, b2, c2, d2, hl2, w1, w2, w3, w4⟩ := h2
  subst hl
  simp only [Limits.mk.injEq, Option.some.injEq] at hl1 hl2
  obtain ⟨rfl, rfl, rfl, rfl⟩ := hl1
  obtain ⟨rfl, rfl, rfl, rfl⟩ := hl2
  refine ⟨a, b, c, d, rfl, ?_, ?_, ?_, ?_⟩
  · exact quadratic_between a _ _ _ t u1 v1 w1 ht0 ht1
  · exact quadratic_between b _ _ _ t u2 v2 w2 ht0 ht1
  · exact quadratic_below c _ _ _ t u3 v3 w3 ht0 ht1
  · exact quadratic_below d _ _ _ t u4 v4 w4 ht0 ht1

theorem mem_extremumAt {eval : ℚ → Vec2} {root : Option ℚ} {p : Vec2}
    (h : p ∈ extremumAt eval root) : ∃ t, 0 < t ∧ t < 1 ∧ p = eval t := by
  cases root with
  | none => simp [extremumAt] at h
  | some r =>
    by_cases hr : 0 < r ∧ r < 1
    · simp only [extremumAt, hr, and_self, if_true, List.mem_singleton] at h
      exact ⟨r, hr.1, hr.2, h⟩
    · simp [extremumAt, hr] at h

theorem mem_findQuadraticExtrema {solveLinear : ℚ → ℚ → Option ℚ} {p0 p1 p2 p : Vec2}
    (h : p ∈ findQuadraticExtrema solveLinear p0 p1 p2) :
    ∃ t, 0 < t ∧ t < 1 ∧ p = evaluateQuadraticAt p0 p1 p2 t := by
  simp only [findQuadraticExtrema, List.mem_append] at h
  rcases h with h | h <;> exact mem_extremumAt h

theorem preciseStep_quadratic (solveLinear : ℚ → ℚ → Option ℚ)
    (solveQuadratic : ℚ → ℚ → ℚ → List ℚ) (previous : Command) (pp ctl p : Vec2) (r : Rect2)
    (h : previous.point = some pp) :
    preciseStep solveLinear solveQuadratic previous (Command.quadratic ctl p) r
      = some ((findQuadraticExtrema solveLinear pp ctl p).foldl Rect2.includePoint
          (r.includePoint p)) := by
  simp only [preciseStep, Command.type, h]
  rfl

/-- On a command list without Cubic commands whose only Close, if any, is last, both
bounds loops run to the end, and every corner the precise loop reaches lies within
the limits the approximate loop reaches. -/
theorem preciseLoop_within_limits (solveLinear : ℚ → ℚ → Option ℚ)
    (solveQuadratic : ℚ → ℚ → ℚ → List ℚ) (cs : List Command)
    (hnc : NoClose cs.dropLast) (hcf : ∀ c ∈ cs, c.type ≠ CommandType.CUBIC)
    (l : Limits) (r : Rect2) (previous : Command) (pp : Vec2)
    (hprev : previous.point = some pp) (hpp : l.Holds pp)
    (hmin : l.Holds r.min) (hmax : l.Holds r.max) :
    ∃ lf rf, approximateLoop cs l = some lf ∧
      preciseLoop solveLinear solveQuadratic previous cs r = some rf ∧
      lf.Holds rf.min ∧ lf.Holds rf.max := by
  induction cs generalizing l r previous pp with
  | nil => exact ⟨l, r, rfl, rfl, hmin, hmax⟩
  | cons c rest ih =>
    have hrest : NoClose rest.dropLast := by
      cases rest with
      | nil => simp [NoClose]
      | cons d rest1 =>
        rw [List.dropLast_cons₂] at hnc
        exact (noClose_cons.mp hnc).2
    have hcf1 : ∀ d ∈ rest, d.type ≠ CommandType.CUBIC := fun d hd => hcf d (by simp [hd])
    cases c with
    | move p =>
      have hl1 := visit_holds_self l p
      obtain ⟨lf, rf, e1, e2, e3, e4⟩ := ih hrest hcf1 (l.visit p) r (Command.move p) p rfl hl1
        (visit_holds_mono l p _ hmin) (visit_holds_mono l p _ hmax)
      exact ⟨lf, rf, by simp [approximateLoop, approximateStep, Command.type, Command.point, e1],
        by simp [preciseLoop, preciseStep, Command.type, e2], e3, e4⟩
    | line p =>
      have hl1 := visit_holds_self l p
      obtain ⟨k1, k2⟩ := holds_includePoint (l.visit p) r p
        (visit_holds_mono l p _ hmin) (visit_holds_mono l p _ hmax) hl1
      obtain ⟨lf, rf, e1, e2, e3, e4⟩ := ih hrest hcf1 (l.visit p) (r.includePoint p)
        (Command.line p) p rfl hl1 k1 k2
      exact ⟨lf, rf, by simp [approximateLoop, approximateStep, Command.type, Command.point, e1],
        by simp [preciseLoop, preciseStep, Command.type, Command.point, e2], e3, e4⟩
    | quadratic ctl p =>
      have hp := visit_holds_self (l.visit ctl) p
      have hc := visit_holds_mono (l.visit ctl) p _ (visit_holds_self l ctl)
      have hq := visit_holds_mono (l.visit ctl) p _ (visit_holds_mono l ctl _ hpp)
      obtain ⟨k1, k2⟩ := holds_includePoint ((l.visit ctl).visit p) r p
        (visit_holds_mono _ p _ (visit_holds_mono l ctl _ hmin))
        (visit_holds_mono _ p _ (visit_holds_mono l ctl _ hmax)) hp
      obtain ⟨m1, m2⟩ := holds_foldl_includePoint ((l.visit ctl).visit p)
        (findQuadraticExtrema solveLinear pp ctl p) (r.includePoint p) k1 k2 (by
          intro q hq1
          obtain ⟨t, ht0, ht1, rfl⟩ := mem_findQuadraticExtrema hq1
          exact holds_evaluateQuadraticAt _ pp ctl p t hq hc hp ht0 ht1)
      obtain ⟨lf, rf, e1, e2, e3, e4⟩ := ih hrest hcf1 ((l.visit ctl).visit p) _
        (Command.quadratic ctl p) p rfl hp m1 m2
      exact ⟨lf, rf,
        by simp [approximateLoop, approximateStep, Command.type, Command.point,
          Command.control, e1],
        by simp [preciseLoop, preciseStep_quadratic _ _ previous pp ctl p r hprev, e2], e3, e4⟩
    | conic ctl p w =>
      have hp := visit_holds_self (l.visit ctl) p
      have hc := visit_holds_mono (l.visit ctl) p _ (visit_holds_self l ctl)
      obtain ⟨k1, k2⟩ := holds_includePoint ((l.visit ctl).visit p) r ctl
        (visit_holds_mono _ p _ (visit_holds_mono l ctl _ hmin))
        (visit_holds_mono _ p _ (visit_holds_mono l ctl _ hmax)) hc
      obtain ⟨m1, m2⟩ := holds_includePoint ((l.visit ctl).visit p) _ p k1 k2 hp
      obtain ⟨lf, rf, e1, e2, e3, e4⟩ := ih hrest hcf1 ((l.visit ctl).visit p) _
        (Command.conic ctl p w) p rfl hp m1 m2
      exact ⟨lf, rf,
        by simp [approximateLoop, approximateStep, Command.type, Command.point,
          Command.control, e1],
        by simp [preciseLoop, preciseStep, Command.type, Command.point, Command.control, e2],
        e3, e4⟩
    | cubic c1 c2 p => exact absurd rfl (hcf (Command.cubic c1 c2 p) (List.mem_cons_self _ _))
    | close =>
      cases rest with
      | nil =>
        exact ⟨l, r, by simp [approximateLoop, approximateStep, Command.type],
          by simp [preciseLoop, preciseStep, Command.type], hmin, hmax⟩
      | cons d rest1 =>
        rw [List.dropLast_cons₂] at hnc
        exact absurd rfl ((noClose_cons.mp hnc).1)

/-- On every non-empty well-formed path without Cubic commands both `bounds(false)`
and `bounds(true)` produce a box, and the approximate box is a component-wise
superset of the precise one, for every root solver. -/
theorem approximate_covers_precise_without_cubic (solveLinear : ℚ → ℚ → Option ℚ)
    (solveQuadratic : ℚ → ℚ → ℚ → List ℚ) (p : Path) (hne : p ≠ [])
    (hw : wellFormed p = true) (hcf : ∀ c ∈ p, c.type ≠ CommandType.CUBIC) :
    ∃ ra rp, bounds solveLinear solveQuadratic p false = some ra ∧
      bounds solveLinear solveQuadratic p true = some rp ∧ Rect2.covers ra rp := by
  cases p with
  | nil => exact absurd rfl hne
  | cons first rest =>
    obtain ⟨hm, hn⟩ := (wellFormed_iff _).mp hw
    obtain ⟨p0, rfl⟩ := point_of_move (firstIsMove_type hm)
    have hrest : NoClose rest.dropLast := by
      cases rest with
      | nil => simp [NoClose]
      | cons d rest1 =>
        rw [List.dropLast_cons₂] at hn
        exact (noClose_cons.mp hn).2
    have h0 : (Limits.visit ⟨none, none, none, none⟩ p0).Holds p0 := visit_holds_self _ p0
    obtain ⟨lf, rf, e1, e2, ⟨a, b, c, d, hl, u1, u2, _, _⟩, ⟨a1, b1, c1, d1, hl1, _, _, v3, v4⟩⟩ :=
      preciseLoop_within_limits solveLinear solveQuadratic rest hrest
        (fun d hd => hcf d (by simp [hd])) _ (Rect2.ofPoint p0) (Command.move p0) p0 rfl h0 h0 h0
    subst hl
    simp only [Limits.mk.injEq, Option.some.injEq] at hl1
    obtain ⟨rfl, rfl, rfl, rfl⟩ := hl1
    refine ⟨⟨⟨a, b⟩, ⟨c, d⟩⟩, rf, ?_, ?_, u1, u2, v3, v4⟩
    · simp [bounds, calculateApproximateBounds, approximateLoop, approximateStep, Command.type,
        Command.point, e1]
    · simp [bounds, calculatePreciseBounds, Command.point, e2]

/-- C5: on the path Move(0,0), Cubic(control1 (0,1), control2 (1,1), point (1,0)),
`bounds(false)` reads `control()` of the Cubic command in the pass-through from the
Cubic case and so produces no box, whereas `bounds(true)` produces one for every
root solver; the approximate box is therefore not a superset of the precise box. -/
theorem approximate_bounds_undefined_on_cubic
    (solveLinear : ℚ → ℚ → Option ℚ) (solveQuadratic : ℚ → ℚ → ℚ → List ℚ) :
    bounds solveLinear solveQuadratic
        [Command.move ⟨0, 0⟩, Command.cubic ⟨0, 1⟩ ⟨1, 1⟩ ⟨1, 0⟩] false = none ∧
    (bounds solveLinear solveQuadratic
        [Command.move ⟨0, 0⟩, Command.cubic ⟨0, 1⟩ ⟨1, 1⟩ ⟨1, 0⟩] true).isSome = true := by
  constructor
  · rfl
  · simp [bounds, calculatePreciseBounds, preciseLoop, preciseStep, Command.type,
      Command.point, Command.control1, Command.control2]

/-! ### removeDuplicates -/

/-- Counterexample for C6: with threshold 5 the path Move(10,0), Line(6,0), Line(12,0)
becomes Move(8,0), Line(12,0) after one application and Move(10,0) after two, so the
second application changes the command list again. -/
theorem removeDuplicates_not_idempotent :
    removeDuplicates Vec2.equals 5
        [Command.move ⟨10, 0⟩, Command.line ⟨6, 0⟩, Command.line ⟨12, 0⟩]
      = some ([Command.move ⟨8, 0⟩, Command.line ⟨12, 0⟩], true) ∧
    removeDuplicates Vec2.equals 5 [Command.move ⟨8, 0⟩, Command.line ⟨12, 0⟩]
      = some ([Command.move ⟨10, 0⟩], true) ∧
    ((removeDuplicates Vec2.equals 5
        [Command.move ⟨10, 0⟩, Command.line ⟨6, 0⟩, Command.line ⟨12, 0⟩]).bind
          (fun r => removeDuplicates Vec2.equals 5 r.1)).map Prod.fst
      ≠ (removeDuplicates Vec2.equals 5
        [Command.move ⟨10, 0⟩, Command.line ⟨6, 0⟩, Command.line ⟨12, 0⟩]).map Prod.fst := by
  decide!

theorem scanDuplicates_separated (equals : Vec2 → Vec2 → ℚ → Bool) (threshold : ℚ)
    (i : Nat) (previous : Command) (rest : List Command)
    (h : SeparatedFrom equals threshold previous rest) :
    scanDuplicates equals threshold i previous rest ⟨[], false, false⟩
      = some ⟨[], false, false⟩ := by
  induction rest generalizing i previous with
  | nil => rfl
  | cons current rest ih =>
    obtain ⟨⟨cp, pp, hcp, hpp, he⟩, hrest⟩ := h
    simp only [scanDuplicates, hcp, hpp, he]
    exact ih (i + 1) current hrest

theorem liveCommands_fresh (p : List Command) :
    liveCommands (p.map (fun c => (⟨c, false⟩ : Cell))) = p := by
  induction p with
  | nil => rfl
  | cons c p ih =>
    simp only [liveCommands] at ih
    simp [liveCommands, ih]

/-- A path with no anchor within threshold of its predecessor is returned unchanged,
with `changed` false. -/
theorem removeDuplicates_separated (equals : Vec2 → Vec2 → ℚ → Bool) (threshold : ℚ)
    (q : Path) (h : Separated equals threshold q) :
    removeDuplicates equals threshold q = some (q, false) := by
  cases q with
  | nil => exact absurd h (by simp [Separated])
  | cons front rest =>
    simp only [removeDuplicates, scanDuplicates_separated equals threshold 0 front rest h,
      mergeGroups, liveCommands_fresh]

/-- C6 (amended): whenever the result of `removeDuplicates(threshold)` has no anchor
within threshold of its predecessor's anchor, applying `removeDuplicates(threshold)`
a second time gives the same command list as applying it once (and reports no
change), whatever point comparison `equals` is used. -/
theorem removeDuplicates_twice (equals : Vec2 → Vec2 → ℚ → Bool) (threshold : ℚ)
    (p q : Path) (changed : Bool)
    (h1 : removeDuplicates equals threshold p = some (q, changed))
    (h2 : Separated equals threshold q) :
    (removeDuplicates equals threshold p).bind
        (fun r => removeDuplicates equals threshold r.1) = some (q, false) ∧
    ((removeDuplicates equals threshold p).bind
        (fun r => removeDuplicates equals threshold r.1)).map Prod.fst
      = (removeDuplicates equals threshold p).map Prod.fst := by
  rw [h1, Option.some_bind, removeDuplicates_separated equals threshold q h2]
  exact ⟨rfl, rfl⟩

/-- Witness for C6 (amended): with threshold 2, Move(0,0), Line(1,0), Line(10,0)
becomes Move(1/2,0), Line(10,0), which a second application leaves alone. -/
theorem removeDuplicates_twice_witness :
    (removeDuplicates Vec2.equals 2
        [Command.move ⟨0, 0⟩, Command.line ⟨1, 0⟩, Command.line ⟨10, 0⟩]).bind
          (fun r => removeDuplicates Vec2.equals 2 r.1)
      = some ([Command.move ⟨1 / 2, 0⟩, Command.line ⟨10, 0⟩], false) :=
  (removeDuplicates_twice Vec2.equals 2
    [Command.move ⟨0, 0⟩, Command.line ⟨1, 0⟩, Command.line ⟨10, 0⟩]
    [Command.move ⟨1 / 2, 0⟩, Command.line ⟨10, 0⟩] true (by decide!)
    ⟨⟨⟨10, 0⟩, ⟨1 / 2, 0⟩, rfl, rfl, by decide!⟩, trivial⟩).1

/-! ### direction -/

theorem anchors_cons {c : Command} (h : c.type ≠ CommandType.CLOSE) (l : List Command) :
    anchors (c :: l) = anchorOf c :: anchors l := by
  simp [anchors, List.filterMap_cons, point_eq_anchorOf h]

theorem directionLoop_eq_shoelaceFrom (front : Command) (fp : Vec2)
    (hf : front.point = some fp) (cs : List Command) (h : NoClose cs) (sum : ℚ) :
    directionLoop front cs sum = some (sum + shoelaceFrom fp (anchors cs)) := by
  induction cs generalizing sum with
  | nil => simp [directionLoop, anchors, shoelaceFrom]
  | cons c cs ih =>
    obtain ⟨hc, hcs⟩ := noClose_cons.mp h
    cases cs with
    | nil =>
      simp [directionLoop, point_eq_anchorOf hc, hf, anchors, shoelaceFrom]
    | cons d cs1 =>
      obtain ⟨hd, _⟩ := noClose_cons.mp hcs
      rw [directionLoop, point_eq_anchorOf hc, point_eq_anchorOf hd]
      simp only []
      rw [ih hcs, anchors_cons hc, anchors_cons hd, shoelaceFrom, ← anchors_cons hd, add_assoc]

/-- On a closed path of size at least 3 in which every command carries an anchor
(closed by its last anchor equalling its first), `direction()` is decided by the
shoelace sum over the anchors. -/
theorem direction_eq_shoelace (p : Path) (hlen : 3 ≤ p.length) (hn : NoClose p)
    (hc : closed p = some true) :
    direction p = some (directionOfSum (shoelace (anchors p))) := by
  cases p with
  | nil => simp at hlen
  | cons first rest =>
    obtain ⟨hf, _⟩ := noClose_cons.mp hn
    have hl : ¬ (first :: rest).length < 3 := by omega
    simp only [direction, hl, if_false, hc, List.head?_cons,
      directionLoop_eq_shoelaceFrom first (anchorOf first) (point_eq_anchorOf hf) _ hn 0,
      anchors_cons hf, shoelace, zero_add, directionOfSum]
    split_ifs <;> rfl

/-- A path for which `closed()` is false has direction Undefined. -/
theorem direction_of_not_closed (p : Path) (hc : closed p = some false) :
    direction p = some PathDirection.UNDEFINED := by
  by_cases hl : p.length < 3
  · simp [direction, hl]
  · simp [direction, hl, hc]

/-- C9: the path Move(0,0), Line(10,0), Line(10,10), Close is closed and has size 4,
and the shoelace sum of its anchors is 100 > 0 (Clockwise), but `direction()` reads
the point of the Close command while walking the command list and yields no
direction. -/
theorem direction_fails_on_explicit_close :
    closed [Command.move ⟨0, 0⟩, Command.line ⟨10, 0⟩, Command.line ⟨10, 10⟩, Command.close]
      = some true ∧
    directionOfSum (shoelace (anchors
      [Command.move ⟨0, 0⟩, Command.line ⟨10, 0⟩, Command.line ⟨10, 10⟩, Command.close]))
      = PathDirection.CLOCKWISE ∧
    direction [Command.move ⟨0, 0⟩, Command.line ⟨10, 0⟩, Command.line ⟨10, 10⟩, Command.close]
      = none := by
  decide!

/-- C10: the path Move(0,0), Line(1,0), Line(2,0), Close is closed by an explicit Close
and its anchors are colinear (shoelace sum 0), but `direction()` reads the point of
the Close command and yields no direction instead of Undefined. -/
theorem direction_fails_on_colinear_explicit_close :
    closed [Command.move ⟨0, 0⟩, Command.line ⟨1, 0⟩, Command.line ⟨2, 0⟩, Command.close]
      = some true ∧
    shoelace (anchors
      [Command.move ⟨0, 0⟩, Command.line ⟨1, 0⟩, Command.line ⟨2, 0⟩, Command.close]) = 0 ∧
    direction [Command.move ⟨0, 0⟩, Command.line ⟨1, 0⟩, Command.line ⟨2, 0⟩, Command.close]
      = none := by
  decide!

/-! ### convertQuadraticsToCubics -/

theorem elevate_eq_twoThirds (a b : Vec2) : elevate a b = twoThirds a b := by
  simp only [elevate, twoThirds, Vec2.add, Vec2.sub, Vec2.smul, Vec2.sdiv, Vec2.mk.injEq]
  constructor <;> ring

theorem noClose_dropLast_tail {c : Command} {rest : List Command}
    (h : NoClose (c :: rest).dropLast) : NoClose rest.dropLast := by
  cases rest with
  | nil => simp [NoClose]
  | cons d rest1 =>
    rw [List.dropLast_cons₂] at h
    exact (noClose_cons.mp h).2

theorem noClose_dropLast_head {c d : Command} {rest : List Command}
    (h : NoClose (c :: d :: rest).dropLast) : c.type ≠ CommandType.CLOSE := by
  rw [List.dropLast_cons₂] at h
  exact (noClose_cons.mp h).1

theorem quadraticsToCubicsLoop_quadratic (previous : Command) (pa : Vec2)
    (hp : previous.point = some pa) (b c : Vec2) (rest : List Command) (changed : Bool) :
    quadraticsToCubicsLoop previous (Command.quadratic b c :: rest) changed
      = match quadraticsToCubicsLoop (Command.cubic (elevate pa b) (elevate c b) c) rest true with
        | none => none
        | some (out, ch) => some (Command.cubic (elevate pa b) (elevate c b) c :: out, ch) := by
  simp only [quadraticsToCubicsLoop, Command.type, ne_eq, not_true_eq_false, if_false, hp]
  rfl

theorem quadraticsToCubicsLoop_eq (rest : List Command) (hn : NoClose rest.dropLast)
    (previous : Command) (pa : Vec2) (hp : previous.point = some pa) (changed : Bool) :
    quadraticsToCubicsLoop previous rest changed
      = some (elevated pa rest,
          changed || rest.any (fun c => decide (c.type = CommandType.QUADRATIC))) := by
  induction rest generalizing previous pa changed with
  | nil => simp [quadraticsToCubicsLoop, elevated]
  | cons current rest ih =>
    have hrest := noClose_dropLast_tail hn
    by_cases hq : current.type = CommandType.QUADRATIC
    · obtain ⟨b, c, rfl⟩ : ∃ b c, current = Command.quadratic b c := by
        cases current <;> simp_all [Command.type]
      have h1 := ih hrest (Command.cubic (elevate pa b) (elevate c b) c) c rfl true
      rw [quadraticsToCubicsLoop_quadratic previous pa hp, h1]
      simp [elevated, elevateCommand, elevate_eq_twoThirds, anchorOf, Command.point,
        Command.type]
    · cases rest with
      | nil =>
        simp only [quadraticsToCubicsLoop, ne_eq, hq, not_false_eq_true, if_true]
        cases current <;> simp_all [elevated, elevateCommand, Command.type]
      | cons d rest1 =>
        have hc : current.type ≠ CommandType.CLOSE := noClose_dropLast_head hn
        have h1 := ih hrest current (anchorOf current) (point_eq_anchorOf hc) changed
        simp only [quadraticsToCubicsLoop, ne_eq, hq, not_false_eq_true, if_true] at h1 ⊢
        rw [h1]
        cases current <;> simp_all [elevated, elevateCommand, Command.type]

theorem elevated_length (a : Vec2) (l : List Command) : (elevated a l).length = l.length := by
  induction l generalizing a with
  | nil => rfl
  | cons c l ih => simp [elevated, ih]

theorem elevateCommand_type_ne (a : Vec2) (c : Command) :
    (elevateCommand a c).type ≠ CommandType.QUADRATIC := by
  cases c <;> simp [elevateCommand, Command.type]

theorem elevated_no_quadratic (a : Vec2) (l : List Command) :
    ∀ c ∈ elevated a l, c.type ≠ CommandType.QUADRATIC := by
  induction l generalizing a with
  | nil => simp [elevated]
  | cons d l ih =>
    intro c hc
    simp only [elevated, List.mem_cons] at hc
    rcases hc with rfl | hc
    · exact elevateCommand_type_ne a d
    · exact ih _ c hc

theorem elevated_get_other (a : Vec2) (l : List Command) (i : Nat) (c : Command)
    (h : l.get? i = some c) (hq : c.type ≠ CommandType.QUADRATIC) :
    (elevated a l).get? i = some c := by
  induction l generalizing a i with
  | nil => simp at h
  | cons d l ih =>
    cases i with
    | zero =>
      simp only [List.get?_cons_zero, Option.some.injEq] at h
      subst h
      cases d <;> simp_all [elevated, elevateCommand, Command.type]
    | succ i =>
      simp only [List.get?_cons_succ] at h
      simpa [elevated] using ih _ i h

theorem elevated_get_quadratic (a0 : Vec2) (l : List Command) (i : Nat)
    (previous : Command) (a b c : Vec2) (hprev : l.get? i = some previous)
    (hcur : l.get? (i + 1) = some (Command.quadratic b c)) (ha : previous.point = some a) :
    (elevated a0 l).get? (i + 1)
      = some (Command.cubic (twoThirds a b) (twoThirds c b) c) := by
  induction l generalizing a0 i with
  | nil => simp at hprev
  | cons d l ih =>
    cases i with
    | zero =>
      simp only [List.get?_cons_zero, Option.some.injEq] at hprev
      subst hprev
      cases l with
      | nil => simp at hcur
      | cons e l1 =>
        simp only [List.get?_cons_succ, List.get?_cons_zero, Option.some.injEq] at hcur
        subst hcur
        simp [elevated, elevateCommand, anchorOf, ha]
    | succ i =>
      simp only [List.get?_cons_succ] at hprev hcur
      simpa [elevated] using ih _ i hprev hcur

theorem elevatedPath_move (p0 : Vec2) (rest : List Command) :
    elevatedPath (Command.move p0 :: rest) = elevated ⟨0, 0⟩ (Command.move p0 :: rest) := by
  simp [elevatedPath, elevated, elevateCommand]

/-- C12: on a non-empty path satisfying the path invariants,
`convertQuadraticsToCubics()` yields `elevatedPath`: each Quadratic (previous anchor
`a`, control `b`, endpoint `c`) becomes the Cubic with `control1 = a + 2/3 (b - a)`,
`control2 = c + 2/3 (b - c)` and endpoint `c`, every other command stays at its
position unchanged, the size is kept, no Quadratic remains, and the returned flag is
true exactly when the path contained a Quadratic. -/
theorem convertQuadraticsToCubics_spec (p : Path) (hne : p ≠ []) (hw : wellFormed p = true) :
    convertQuadraticsToCubics p
      = some (elevatedPath p, p.any (fun c => decide (c.type = CommandType.QUADRATIC))) ∧
    (elevatedPath p).length = p.length ∧
    (∀ c ∈ elevatedPath p, c.type ≠ CommandType.QUADRATIC) ∧
    (∀ i c, p.get? i = some c → c.type ≠ CommandType.QUADRATIC →
      (elevatedPath p).get? i = some c) ∧
    (∀ i previous a b c, p.get? i = some previous →
      p.get? (i + 1) = some (Command.quadratic b c) → previous.point = some a →
      (elevatedPath p).get? (i + 1)
        = some (Command.cubic (twoThirds a b) (twoThirds c b) c)) := by
  cases p with
  | nil => exact absurd rfl hne
  | cons first rest =>
    obtain ⟨hm, hn⟩ := (wellFormed_iff _).mp hw
    obtain ⟨p0, rfl⟩ := point_of_move (firstIsMove_type hm)
    have hrest := noClose_dropLast_tail hn
    rw [elevatedPath_move]
    refine ⟨?_, elevated_length _ _, elevated_no_quadratic _ _,
      fun i c h hq => elevated_get_other _ _ i c h hq,
      fun i previous a b c h1 h2 h3 => elevated_get_quadratic _ _ i previous a b c h1 h2 h3⟩
    simp [convertQuadraticsToCubics,
      quadraticsToCubicsLoop_eq rest hrest (Command.move p0) p0 rfl false, elevated,
      elevateCommand, anchorOf, Command.point, Command.type]

/-- Witness for C12: a closed path with a Quadratic after the Move and one after a
Line. -/
theorem convertQuadraticsToCubics_spec_witness :
    convertQuadraticsToCubics [Command.move ⟨0, 0⟩, Command.quadratic ⟨3, 3⟩ ⟨6, 0⟩,
        Command.line ⟨9, 0⟩, Command.quadratic ⟨9, 6⟩ ⟨0, 6⟩, Command.close]
      = some ([Command.move ⟨0, 0⟩, Command.cubic ⟨2, 2⟩ ⟨4, 2⟩ ⟨6, 0⟩, Command.line ⟨9, 0⟩,
          Command.cubic ⟨9, 4⟩ ⟨6, 6⟩ ⟨0, 6⟩, Command.close], true) :=
  (convertQuadraticsToCubics_spec _ (by decide) (by decide)).1.trans (by decide!)

/-- C13: degree elevation is exact. For all points `a`, `b`, `c` and every parameter
`t`, the Cubic that `convertQuadraticsToCubics` writes, with control points
`a + 2/3 (b - a)` and `c + 2/3 (b - c)`, evaluated by `evaluateCubicAt` equals the
Quadratic `(a, b, c)` evaluated by `evaluateQuadraticAt`. -/
theorem degree_elevation_exact (a b c : Vec2) (t : ℚ) :
    elevate a b = twoThirds a b ∧ elevate c b = twoThirds c b ∧
    evaluateCubicAt a (elevate a b) (elevate c b) c t = evaluateQuadraticAt a b c t := by
  refine ⟨elevate_eq_twoThirds a b, elevate_eq_twoThirds c b, ?_⟩
  simp only [evaluateCubicAt, evaluateQuadraticAt, elevate, Vec2.add, Vec2.sub, Vec2.smul,
    Vec2.sdiv, Vec2.mk.injEq]
  constructor <;> ring

/-! ### convertConicsToQuadratics -/

theorem quadratics_eq (sqrt : ℚ → ℚ) (k : Conic) :
    Conic.quadratics sqrt k
      = [(Conic.chop sqrt k).1.b, (Conic.chop sqrt k).1.c, (Conic.chop sqrt k).2.b, k.c] := rfl

theorem conicsToQuadraticsLoop_conic (sqrt : ℚ → ℚ) (previous : Command) (pa : Vec2)
    (hp : previous.point = some pa) (b c : Vec2) (w : ℚ) (rest : List Command)
    (changed : Bool) :
    conicsToQuadraticsLoop (Conic.quadratics sqrt) previous (Command.conic b c w :: rest) changed
      = match conicsToQuadraticsLoop (Conic.quadratics sqrt)
            (Command.quadratic (Conic.chop sqrt ⟨pa, b, c, w⟩).2.b c) rest true with
        | none => none
        | some (out, ch) => some (halveCommand sqrt pa (Command.conic b c w) ++ out, ch) := by
  simp only [conicsToQuadraticsLoop, Command.type, ne_eq, not_true_eq_false, if_false, hp]
  rfl

theorem conicsToQuadraticsLoop_eq (sqrt : ℚ → ℚ) (rest : List Command)
    (hn : NoClose rest.dropLast) (previous : Command) (pa : Vec2)
    (hp : previous.point = some pa) (changed : Bool) :
    conicsToQuadraticsLoop (Conic.quadratics sqrt) previous rest changed
      = some (halved sqrt pa rest,
          changed || rest.any (fun c => decide (c.type = CommandType.CONIC))) := by
  induction rest generalizing previous pa changed with
  | nil => simp [conicsToQuadraticsLoop, halved]
  | cons current rest ih =>
    have hrest := noClose_dropLast_tail hn
    by_cases hq : current.type = CommandType.CONIC
    · obtain ⟨b, c, w, rfl⟩ : ∃ b c w, current = Command.conic b c w := by
        cases current <;> simp_all [Command.type]
      have h1 := ih hrest (Command.quadratic (Conic.chop sqrt ⟨pa, b, c, w⟩).2.b c) c rfl true
      rw [conicsToQuadraticsLoop_conic sqrt previous pa hp, h1]
      simp [halved, anchorOf, Command.point, Command.type]
    · cases rest with
      | nil =>
        simp only [conicsToQuadraticsLoop, ne_eq, hq, not_false_eq_true, if_true]
        cases current <;> simp_all [halved, halveCommand, Command.type]
      | cons d rest1 =>
        have hc : current.type ≠ CommandType.CLOSE := noClose_dropLast_head hn
        have h1 := ih hrest current (anchorOf current) (point_eq_anchorOf hc) changed
        simp only [conicsToQuadraticsLoop, ne_eq, hq, not_false_eq_true, if_true] at h1 ⊢
        rw [h1]
        cases current <;> simp_all [halved, halveCommand, Command.type]

theorem halved_length (sqrt : ℚ → ℚ) (a : Vec2) (l : List Command) :
    (halved sqrt a l).length
      = l.length + l.countP (fun c => decide (c.type = CommandType.CONIC)) := by
  induction l generalizing a with
  | nil => rfl
  | cons c l ih =>
    cases c <;> simp [halved, halveCommand, ih, Command.type, List.countP_cons] <;> omega

theorem halved_no_conic (sqrt : ℚ → ℚ) (a : Vec2) (l : List Command) :
    ∀ c ∈ halved sqrt a l, c.type ≠ CommandType.CONIC := by
  induction l generalizing a with
  | nil => simp [halved]
  | cons d l ih =>
    intro c hc
    simp only [halved, List.mem_append] at hc
    rcases hc with hc | hc
    · cases d <;> simp_all [halveCommand, Command.type]
      rcases hc with rfl | rfl <;> simp [Command.type]
    · exact ih _ c hc

/-- C11: on a non-empty path satisfying the path invariants,
`convertConicsToQuadratics()` yields `halvedPath`: each Conic (previous anchor `a`,
control `b`, endpoint `c`, weight `w`) is replaced by exactly two Quadratics whose
(control, endpoint) pairs are the pairs of `Conic(a, b, c, w).quadratics()`, the
second ending at `c`; every other command is kept in order; the size grows by the
number of Conics, no Conic remains, and the returned flag is true exactly when the
path contained a Conic. -/
theorem convertConicsToQuadratics_spec (sqrt : ℚ → ℚ) (p : Path) (hne : p ≠ [])
    (hw : wellFormed p = true) :
    convertConicsToQuadratics sqrt p
      = some (halvedPath sqrt p, p.any (fun c => decide (c.type = CommandType.CONIC))) ∧
    (∀ k : Conic, Conic.quadratics sqrt k
      = [(Conic.chop sqrt k).1.b, (Conic.chop sqrt k).1.c, (Conic.chop sqrt k).2.b, k.c]) ∧
    (halvedPath sqrt p).length
      = p.length + p.countP (fun c => decide (c.type = CommandType.CONIC)) ∧
    (∀ c ∈ halvedPath sqrt p, c.type ≠ CommandType.CONIC) := by
  cases p with
  | nil => exact absurd rfl hne
  | cons first rest =>
    obtain ⟨hm, hn⟩ := (wellFormed_iff _).mp hw
    obtain ⟨p0, rfl⟩ := point_of_move (firstIsMove_type hm)
    have hrest := noClose_dropLast_tail hn
    refine ⟨?_, quadratics_eq sqrt, ?_, ?_⟩
    · simp [convertConicsToQuadratics, convertConicsWith,
        conicsToQuadraticsLoop_eq sqrt rest hrest (Command.move p0) p0 rfl false, halvedPath,
        anchorOf, Command.point, Command.type]
    · have hc0 : (Command.move p0).type ≠ CommandType.CONIC := by simp [Command.type]
      simp only [halvedPath, List.length_cons, halved_length, List.countP_cons, hc0,
        decide_False, Bool.false_eq_true, if_false]
      omega
    · intro c hc
      simp only [halvedPath, List.mem_cons] at hc
      rcases hc with rfl | hc
      · simp [Command.type]
      · exact halved_no_conic sqrt _ rest c hc

/-- Witness for C11: `moveTo(0,0); conicTo(control (1,1), point (2,0), weight 1)`
becomes Move, Quadratic, Quadratic and the call returns true. -/
theorem convertConicsToQuadratics_spec_witness :
    convertConicsToQuadratics Rat.sqrt [Command.move ⟨0, 0⟩, Command.conic ⟨1, 1⟩ ⟨2, 0⟩ 1]
      = some ([Command.move ⟨0, 0⟩, Command.quadratic ⟨1 / 2, 1 / 2⟩ ⟨1, 1 / 2⟩,
          Command.quadratic ⟨3 / 2, 1 / 2⟩ ⟨2, 0⟩], true) :=
  (convertConicsToQuadratics_spec Rat.sqrt _ (by decide) (by decide)).1.trans (by decide!)

/-! ### bounds(true) on Line and Quadratic segments -/

theorem quadratic_le_of_critical (x0 x1 x2 M t : ℚ) (h0 : x0 ≤ M) (h2 : x2 ≤ M)
    (hcrit : x0 - 2 * x1 + x2 ≠ 0 → ∀ τ, (x0 - 2 * x1 + x2) * τ + (x1 - x0) = 0 → 0 < τ → τ < 1 →
      (1 - τ) * (1 - τ) * x0 + 2 * (1 - τ) * τ * x1 + τ * τ * x2 ≤ M)
    (ht0 : 0 ≤ t) (ht1 : t ≤ 1) :
    (1 - t) * (1 - t) * x0 + 2 * (1 - t) * t * x1 + t * t * x2 ≤ M := by
  have hs : 0 ≤ 1 - t := by linarith
  have hts : 0 ≤ t * (1 - t) := mul_nonneg ht0 hs
  by_cases ha : 0 ≤ x0 - 2 * x1 + x2
  · nlinarith [mul_nonneg hts ha]
  · have ha' : x0 - 2 * x1 + x2 < 0 := not_le.mp ha
    have hne : x0 - 2 * x1 + x2 ≠ 0 := ne_of_lt ha'
    obtain ⟨τ, hτ⟩ : ∃ τ, (x0 - 2 * x1 + x2) * τ + (x1 - x0) = 0 :=
      ⟨-(x1 - x0) / (x0 - 2 * x1 + x2), by field_simp⟩
    by_cases h1 : τ ≤ 0
    · have hb : x1 - x0 ≤ 0 := by nlinarith
      nlinarith [mul_nonneg ht0 (neg_nonneg.mpr hb), mul_nonneg (mul_nonneg ht0 ht0) (le_of_lt (neg_pos.mpr ha'))]
    · by_cases h3 : 1 ≤ τ
      · have hab : 0 ≤ (x0 - 2 * x1 + x2) + (x1 - x0) := by nlinarith
        nlinarith [mul_nonneg hs hab, mul_nonneg (mul_nonneg hs hs) (le_of_lt (neg_pos.mpr ha'))]
      · have hc := hcrit hne τ hτ (not_le.mp h1) (not_le.mp h3)
        have key : (1 - τ) * (1 - τ) * x0 + 2 * (1 - τ) * τ * x1 + τ * τ * x2
            - ((1 - t) * (1 - t) * x0 + 2 * (1 - t) * t * x1 + t * t * x2)
            = -(x0 - 2 * x1 + x2) * (τ - t) ^ 2 := by
          linear_combination 2 * (τ - t) * hτ
        nlinarith [mul_nonneg (le_of_lt (neg_pos.mpr ha')) (sq_nonneg (τ - t))]

theorem quadratic_ge_of_critical (x0 x1 x2 m t : ℚ) (h0 : m ≤ x0) (h2 : m ≤ x2)
    (hcrit : x0 - 2 * x1 + x2 ≠ 0 → ∀ τ, (x0 - 2 * x1 + x2) * τ + (x1 - x0) = 0 → 0 < τ → τ < 1 →
      m ≤ (1 - τ) * (1 - τ) * x0 + 2 * (1 - τ) * τ * x1 + τ * τ * x2)
    (ht0 : 0 ≤ t) (ht1 : t ≤ 1) :
    m ≤ (1 - t) * (1 - t) * x0 + 2 * (1 - t) * t * x1 + t * t * x2 := by
  have h := quadratic_le_of_critical (-x0) (-x1) (-x2) (-m) t (by linarith) (by linarith)
    (by
      intro hne τ hτ hτ0 hτ1
      have hne' : x0 - 2 * x1 + x2 ≠ 0 := by
        intro e
        apply hne
        linarith
      have := hcrit hne' τ (by linarith) hτ0 hτ1
      linarith) ht0 ht1
  linarith

theorem contains_includePoint_self (r : Rect2) (p : Vec2) :
    (r.includePoint p).Contains p :=
  ⟨min_le_right _ _, le_max_right _ _, min_le_right _ _, le_max_right _ _⟩

theorem contains_includePoint_mono (r : Rect2) (p q : Vec2) (h : r.Contains q) :
    (r.includePoint p).Contains q :=
  ⟨le_trans (min_le_left _ _) h.1, le_trans h.2.1 (le_max_left _ _),
    le_trans (min_le_left _ _) h.2.2.1, le_trans h.2.2.2 (le_max_left _ _)⟩

theorem contains_foldl_mono (pts : List Vec2) (r : Rect2) (q : Vec2) (h : r.Contains q) :
    (pts.foldl Rect2.includePoint r).Contains q := by
  induction pts generalizing r with
  | nil => exact h
  | cons p pts ih => exact ih _ (contains_includePoint_mono r p q h)

theorem contains_foldl_mem (pts : List Vec2) (r : Rect2) (q : Vec2) (h : q ∈ pts) :
    (pts.foldl Rect2.includePoint r).Contains q := by
  induction pts generalizing r with
  | nil => simp at h
  | cons p pts ih =>
    rcases List.mem_cons.mp h with rfl | h1
    · exact contains_foldl_mono pts _ _ (contains_includePoint_self r q)
    · exact ih _ h1

theorem preciseStep_mono (solveLinear : ℚ → ℚ → Option ℚ)
    (solveQuadratic : ℚ → ℚ → ℚ → List ℚ) (previous current : Command) (r r1 : Rect2)
    (q : Vec2) (hs : preciseStep solveLinear solveQuadratic previous current r = some r1)
    (h : r.Contains q) : r1.Contains q := by
  cases current with
  | move p =>
    simp only [preciseStep, Command.type, Option.some.injEq] at hs
    subst hs
    exact h
  | close =>
    simp only [preciseStep, Command.type, Option.some.injEq] at hs
    subst hs
    exact h
  | line p =>
    simp only [preciseStep, Command.type, Command.point, Option.some.injEq] at hs
    subst hs
    exact contains_includePoint_mono r p q h
  | conic c p w =>
    simp only [preciseStep, Command.type, Command.point, Command.control,
      Option.some.injEq] at hs
    subst hs
    exact contains_includePoint_mono _ p q (contains_includePoint_mono r c q h)
  | quadratic c p =>
    cases hp : previous.point with
    | none => simp [preciseStep, Command.type, hp] at hs
    | some pp =>
      rw [preciseStep_quadratic _ _ previous pp c p r hp, Option.some.injEq] at hs
      subst hs
      exact contains_foldl_mono _ _ q (contains_includePoint_mono r p q h)
  | cubic c1 c2 p =>
    cases hp : previous.point with
    | none => simp [preciseStep, Command.type, hp] at hs
    | some pp =>
      have e : preciseStep solveLinear solveQuadratic previous (Command.cubic c1 c2 p) r
          = some ((findCubicExtrema solveQuadratic pp c1 c2 p).foldl Rect2.includePoint
              (r.includePoint p)) := by
        simp only [preciseStep, Command.type, hp]
        rfl
      rw [e, Option.some.injEq] at hs
      subst hs
      exact contains_foldl_mono _ _ q (contains_includePoint_mono r p q h)

/-- The precise loop only grows the box. -/
theorem preciseLoop_mono (solveLinear : ℚ → ℚ → Option ℚ)
    (solveQuadratic : ℚ → ℚ → ℚ → List ℚ) (cs : List Command) (previous : Command)
    (r rf : Rect2) (q : Vec2)
    (hs : preciseLoop solveLinear solveQuadratic previous cs r = some rf)
    (h : r.Contains q) : rf.Contains q := by
  induction cs generalizing previous r with
  | nil =>
    simp only [preciseLoop, Option.some.injEq] at hs
    subst hs
    exact h
  | cons c cs ih =>
    simp only [preciseLoop] at hs
    cases hstep : preciseStep solveLinear solveQuadratic previous c r with
    | none => simp [hstep] at hs
    | some r1 =>
      simp only [hstep] at hs
      exact ih c r1 hs (preciseStep_mono _ _ previous c r r1 q hstep h)

/-- A command list of Line and Quadratic commands. -/
theorem preciseLoop_isSome (solveLinear : ℚ → ℚ → Option ℚ)
    (solveQuadratic : ℚ → ℚ → ℚ → List ℚ) (cs : List Command)
    (hcs : ∀ c ∈ cs, c.type = CommandType.LINE ∨ c.type = CommandType.QUADRATIC)
    (previous : Command) (pp : Vec2) (hp : previous.point = some pp) (r : Rect2) :
    ∃ rf, preciseLoop solveLinear solveQuadratic previous cs r = some rf := by
  induction cs generalizing previous pp r with
  | nil => exact ⟨r, rfl⟩
  | cons c cs ih =>
    have hc := hcs c (List.mem_cons_self _ _)
    have hrest : ∀ d ∈ cs, d.type = CommandType.LINE ∨ d.type = CommandType.QUADRATIC :=
      fun d hd => hcs d (List.mem_cons_of_mem _ hd)
    cases c with
    | line p =>
      obtain ⟨rf, hrf⟩ := ih hrest (Command.line p) p rfl (r.includePoint p)
      exact ⟨rf, by simp [preciseLoop, preciseStep, Command.type, Command.point, hrf]⟩
    | quadratic ctl p =>
      obtain ⟨rf, hrf⟩ := ih hrest (Command.quadratic ctl p) p rfl
        ((findQuadraticExtrema solveLinear pp ctl p).foldl Rect2.includePoint (r.includePoint p))
      exact ⟨rf, by simp [preciseLoop, preciseStep_quadratic _ _ previous pp ctl p r hp, hrf]⟩
    | move p => simp [Command.type] at hc
    | conic ctl p w => simp [Command.type] at hc
    | cubic c1 c2 p => simp [Command.type] at hc
    | close => simp [Command.type] at hc

/-- The box after the Quadratic case of `calculatePreciseBounds` contains the whole
segment, when the solver returns the root of `a t + b = 0` for `a ≠ 0`. -/
theorem quadratic_segment_contained (solveLinear : ℚ → ℚ → Option ℚ)
    (hsolve : ∀ a b : ℚ, a ≠ 0 → solveLinear a b = some (-b / a))
    (p0 p1 p2 : Vec2) (r : Rect2) (h0 : r.Contains p0) (t : ℚ) (ht0 : 0 ≤ t) (ht1 : t ≤ 1) :
    ((findQuadraticExtrema solveLinear p0 p1 p2).foldl Rect2.includePoint
      (r.includePoint p2)).Contains (evaluateQuadraticAt p0 p1 p2 t) := by
  have c0 := contains_foldl_mono (findQuadraticExtrema solveLinear p0 p1 p2) _ p0
    (contains_includePoint_mono r p2 p0 h0)
  have c2 := contains_foldl_mono (findQuadraticExtrema solveLinear p0 p1 p2) _ p2
    (contains_includePoint_self r p2)
  have hx : p0.x - 2 * p1.x + p2.x ≠ 0 → ∀ τ, (p0.x - 2 * p1.x + p2.x) * τ + (p1.x - p0.x) = 0 →
      0 < τ → τ < 1 →
      ((findQuadraticExtrema solveLinear p0 p1 p2).foldl Rect2.includePoint
        (r.includePoint p2)).Contains (evaluateQuadraticAt p0 p1 p2 τ) := by
    intro hne τ hτ hτ0 hτ1
    have e : -(p1.x - p0.x) / (p0.x - 2 * p1.x + p2.x) = τ := by
      field_simp
      linarith
    apply contains_foldl_mem
    simp only [findQuadraticExtrema, Vec2.add, Vec2.sub, Vec2.smul, List.mem_append]
    left
    rw [hsolve _ _ hne, e]
    simp [extremumAt, hτ0, hτ1]
  have hy : p0.y - 2 * p1.y + p2.y ≠ 0 → ∀ τ, (p0.y - 2 * p1.y + p2.y) * τ + (p1.y - p0.y) = 0 →
      0 < τ → τ < 1 →
      ((findQuadraticExtrema solveLinear p0 p1 p2).foldl Rect2.includePoint
        (r.includePoint p2)).Contains (evaluateQuadraticAt p0 p1 p2 τ) := by
    intro hne τ hτ hτ0 hτ1
    have e : -(p1.y - p0.y) / (p0.y - 2 * p1.y + p2.y) = τ := by
      field_simp
      linarith
    apply contains_foldl_mem
    simp only [findQuadraticExtrema, Vec2.add, Vec2.sub, Vec2.smul, List.mem_append]
    right
    rw [hsolve _ _ hne, e]
    simp [extremumAt, hτ0, hτ1]
  refine ⟨?_, ?_, ?_, ?_⟩
  · exact quadratic_ge_of_critical p0.x p1.x p2.x _ t c0.1 c2.1
      (fun hne τ hτ hτ0 hτ1 => (hx hne τ hτ hτ0 hτ1).1) ht0 ht1
  · exact quadratic_le_of_critical p0.x p1.x p2.x _ t c0.2.1 c2.2.1
      (fun hne τ hτ hτ0 hτ1 => (hx hne τ hτ hτ0 hτ1).2.1) ht0 ht1
  · exact quadratic_ge_of_critical p0.y p1.y p2.y _ t c0.2.2.1 c2.2.2.1
      (fun hne τ hτ hτ0 hτ1 => (hy hne τ hτ hτ0 hτ1).2.2.1) ht0 ht1
  · exact quadratic_le_of_critical p0.y p1.y p2.y _ t c0.2.2.2 c2.2.2.2
      (fun hne τ hτ hτ0 hτ1 => (hy hne τ hτ hτ0 hτ1).2.2.2) ht0 ht1

theorem preciseLoop_contains_quadratic (solveLinear : ℚ → ℚ → Option ℚ)
    (solveQuadratic : ℚ → ℚ → ℚ → List ℚ)
    (hsolve : ∀ a b : ℚ, a ≠ 0 → solveLinear a b = some (-b / a))
    (pre post : List Command) (p1 p2 : Vec2)
    (hpre : ∀ c ∈ pre, c.type = CommandType.LINE ∨ c.type = CommandType.QUADRATIC)
    (hpost : ∀ c ∈ post, c.type = CommandType.LINE ∨ c.type = CommandType.QUADRATIC)
    (t : ℚ) (ht0 : 0 ≤ t) (ht1 : t ≤ 1)
    (previous : Command) (pp : Vec2) (hp : previous.point = some pp) (r : Rect2)
    (hr : r.Contains pp) :
    ∃ rf, preciseLoop solveLinear solveQuadratic previous
        (pre ++ Command.quadratic p1 p2 :: post) r = some rf ∧
      rf.Contains (evaluateQuadraticAt ((anchors pre).getLastD pp) p1 p2 t) := by
  induction pre generalizing previous pp r with
  | nil =>
    obtain ⟨rf, hrf⟩ := preciseLoop_isSome solveLinear solveQuadratic post hpost
      (Command.quadratic p1 p2) p2 rfl
      ((findQuadraticExtrema solveLinear pp p1 p2).foldl Rect2.includePoint (r.includePoint p2))
    refine ⟨rf, by simp [preciseLoop, preciseStep_quadratic _ _ previous pp p1 p2 r hp, hrf], ?_⟩
    exact preciseLoop_mono _ _ post _ _ rf _ hrf
      (quadratic_segment_contained solveLinear hsolve pp p1 p2 r hr t ht0 ht1)
  | cons c pre ih =>
    have hc := hpre c (List.mem_cons_self _ _)
    have hrest : ∀ d ∈ pre, d.type = CommandType.LINE ∨ d.type = CommandType.QUADRATIC :=
      fun d hd => hpre d (List.mem_cons_of_mem _ hd)
    cases c with
    | line p =>
      obtain ⟨rf, hrf, hcont⟩ := ih hrest (Command.line p) p rfl (r.includePoint p)
        (contains_includePoint_self r p)
      refine ⟨rf, by simp [preciseLoop, preciseStep, Command.type, Command.point, hrf], ?_⟩
      have e : (anchors (Command.line p :: pre)).getLastD pp = (anchors pre).getLastD p := by
        rw [anchors_cons (by simp [Command.type]), List.getLastD_cons]
        rfl
      rw [e]
      exact hcont
    | quadratic ctl p =>
      obtain ⟨rf, hrf, hcont⟩ := ih hrest (Command.quadratic ctl p) p rfl
        ((findQuadraticExtrema solveLinear pp ctl p).foldl Rect2.includePoint (r.includePoint p))
        (contains_foldl_mono _ _ p (contains_includePoint_self r p))
      refine ⟨rf, by
        simp [preciseLoop, preciseStep_quadratic _ _ previous pp ctl p r hp, hrf], ?_⟩
      have e : (anchors (Command.quadratic ctl p :: pre)).getLastD pp
          = (anchors pre).getLastD p := by
        rw [anchors_cons (by simp [Command.type]), List.getLastD_cons]
        rfl
      rw [e]
      exact hcont
    | move p => simp [Command.type] at hc
    | conic ctl p w => simp [Command.type] at hc
    | cubic c1 c2 p => simp [Command.type] at hc
    | close => simp [Command.type] at hc

/-- C19: for a path that is a Move followed by Line and Quadratic commands,
`bounds(true)` produces a box containing the whole curve of every Quadratic: for the
Quadratic with previous anchor `p0`, control `p1` and endpoint `p2`, and every `t` in
`[0, 1]`, the point `(1-t)^2 p0 + 2(1-t)t p1 + t^2 p2` lies in the box, given that
`solveLinear(a, b)` returns the root of `a t + b = 0` whenever `a ≠ 0`. -/
theorem precise_bounds_contain_quadratic (solveLinear : ℚ → ℚ → Option ℚ)
    (solveQuadratic : ℚ → ℚ → ℚ → List ℚ)
    (hsolve : ∀ a b : ℚ, a ≠ 0 → solveLinear a b = some (-b / a))
    (q0 : Vec2) (pre post : List Command) (p1 p2 : Vec2)
    (hpre : ∀ c ∈ pre, c.type = CommandType.LINE ∨ c.type = CommandType.QUADRATIC)
    (hpost : ∀ c ∈ post, c.type = CommandType.LINE ∨ c.type = CommandType.QUADRATIC)
    (t : ℚ) (ht0 : 0 ≤ t) (ht1 : t ≤ 1) :
    ∃ r, bounds solveLinear solveQuadratic
        (Command.move q0 :: (pre ++ Command.quadratic p1 p2 :: post)) true = some r ∧
      r.Contains (evaluateQuadraticAt ((anchors pre).getLastD q0) p1 p2 t) := by
  obtain ⟨rf, hrf, hcont⟩ := preciseLoop_contains_quadratic solveLinear solveQuadratic hsolve
    pre post p1 p2 hpre hpost t ht0 ht1 (Command.move q0) q0 rfl (Rect2.ofPoint q0)
    ⟨le_refl _, le_refl _, le_refl _, le_refl _⟩
  exact ⟨rf, by simp [bounds, calculatePreciseBounds, Command.point, hrf], hcont⟩

/-- Witness for C19: on Move(0,0), Quadratic(control (1,2), point (2,0)) the box of
`bounds(true)` contains the apex `(1,1)` of the curve, its point at `t = 1/2`. -/
theorem precise_bounds_contain_quadratic_witness :
    ∃ r, bounds exactLinear (fun _ _ _ => [])
        [Command.move ⟨0, 0⟩, Command.quadratic ⟨1, 2⟩ ⟨2, 0⟩] true = some r ∧
      r.Contains (evaluateQuadraticAt ⟨0, 0⟩ ⟨1, 2⟩ ⟨2, 0⟩ (1 / 2)) :=
  precise_bounds_contain_quadratic exactLinear (fun _ _ _ => [])
    (fun a b h => by simp [exactLinear, h]) ⟨0, 0⟩ [] [] ⟨1, 2⟩ ⟨2, 0⟩
    (by simp) (by simp) (1 / 2) (by decide!) (by decide!)

/-! ### bounds(false) as the smallest box -/

theorem lowerTo_some_eq_min (m v : ℚ) : lowerTo (some m) v = some (Min.min m v) := by
  by_cases h : v < m
  · simp [lowerTo, h, min_eq_right (le_of_lt h)]
  · simp [lowerTo, h, min_eq_left (not_lt.mp h)]

theorem raiseTo_some_eq_max (m v : ℚ) : raiseTo (some m) v = some (Max.max m v) := by
  by_cases h : v > m
  · simp [raiseTo, h, max_eq_right (le_of_lt h)]
  · simp [raiseTo, h, max_eq_left (not_lt.mp h)]

theorem visit_ofRect (r : Rect2) (p : Vec2) :
    (Limits.ofRect r).visit p = Limits.ofRect (r.includePoint p) := by
  simp [Limits.ofRect, Limits.visit, lowerTo_some_eq_min, raiseTo_some_eq_max,
    Rect2.includePoint]

theorem visit_initial (p : Vec2) :
    Limits.visit ⟨none, none, none, none⟩ p = Limits.ofRect (Rect2.ofPoint p) := rfl

theorem foldl_visit_ofRect (pts : List Vec2) (r : Rect2) :
    pts.foldl Limits.visit (Limits.ofRect r)
      = Limits.ofRect (pts.foldl Rect2.includePoint r) := by
  induction pts generalizing r with
  | nil => rfl
  | cons p pts ih => simp only [List.foldl_cons, visit_ofRect, ih]

theorem approximateStep_eq_foldl (l : Limits) (c : Command)
    (hc : c.type ≠ CommandType.CUBIC) :
    approximateStep l c = some ((pointsOf c).foldl Limits.visit l) := by
  cases c <;> simp_all [approximateStep, pointsOf, Command.type, Command.point, Command.control]

theorem approximateLoop_eq_foldl (cs : List Command)
    (hcf : ∀ c ∈ cs, c.type ≠ CommandType.CUBIC) (l : Limits) :
    approximateLoop cs l = some ((allPoints cs).foldl Limits.visit l) := by
  induction cs generalizing l with
  | nil => rfl
  | cons c cs ih =>
    simp only [approximateLoop, approximateStep_eq_foldl l c (hcf c (List.mem_cons_self _ _)),
      ih (fun d hd => hcf d (List.mem_cons_of_mem _ hd)), allPoints, List.foldl_append]

/-- The box folded from a first point contains every point folded in, and each of its
four sides passes through one of them: it is the smallest such box. -/
theorem foldl_includePoint_smallest (pts : List Vec2) (r : Rect2) (seen : List Vec2)
    (hc : ∀ q ∈ seen, r.Contains q)
    (ha : (∃ q ∈ seen, q.x = r.min.x) ∧ (∃ q ∈ seen, q.x = r.max.x) ∧
      (∃ q ∈ seen, q.y = r.min.y) ∧ (∃ q ∈ seen, q.y = r.max.y)) :
    (∀ q ∈ seen ++ pts, (pts.foldl Rect2.includePoint r).Contains q) ∧
    (∃ q ∈ seen ++ pts, q.x = (pts.foldl Rect2.includePoint r).min.x) ∧
    (∃ q ∈ seen ++ pts, q.x = (pts.foldl Rect2.includePoint r).max.x) ∧
    (∃ q ∈ seen ++ pts, q.y = (pts.foldl Rect2.includePoint r).min.y) ∧
    (∃ q ∈ seen ++ pts, q.y = (pts.foldl Rect2.includePoint r).max.y) := by
  induction pts generalizing r seen with
  | nil => simpa using ⟨hc, ha⟩
  | cons p pts ih =>
    have key := ih (r.includePoint p) (seen ++ [p])
      (by
        intro q hq
        rcases List.mem_append.mp hq with h | h
        · exact contains_includePoint_mono r p q (hc q h)
        · simp only [List.mem_singleton] at h
          subst h
          exact contains_includePoint_self r q)
      (by
        obtain ⟨⟨q1, h1, e1⟩, ⟨q2, h2, e2⟩, ⟨q3, h3, e3⟩, ⟨q4, h4, e4⟩⟩ := ha
        refine ⟨?_, ?_, ?_, ?_⟩
        · rcases min_choice r.min.x p.x with h | h
          · exact ⟨q1, by simp [h1], by simp [Rect2.includePoint, h, e1]⟩
          · exact ⟨p, by simp, by simp [Rect2.includePoint, h]⟩
        · rcases max_choice r.max.x p.x with h | h
          · exact ⟨q2, by simp [h2], by simp [Rect2.includePoint, h, e2]⟩
          · exact ⟨p, by simp, by simp [Rect2.includePoint, h]⟩
        · rcases min_choice r.min.y p.y with h | h
          · exact ⟨q3, by simp [h3], by simp [Rect2.includePoint, h, e3]⟩
          · exact ⟨p, by simp, by simp [Rect2.includePoint, h]⟩
        · rcases max_choice r.max.y p.y with h | h
          · exact ⟨q4, by simp [h4], by simp [Rect2.includePoint, h, e4]⟩
          · exact ⟨p, by simp, by simp [Rect2.includePoint, h]⟩)
    simpa [List.append_assoc] using key

/-- What `boxOf` is: the box contains every given point and each of its sides passes
through one of them. -/
theorem boxOf_smallest (pts : List Vec2) (r : Rect2) (h : boxOf pts = some r) :
    (∀ q ∈ pts, r.Contains q) ∧
    (∃ q ∈ pts, q.x = r.min.x) ∧ (∃ q ∈ pts, q.x = r.max.x) ∧
    (∃ q ∈ pts, q.y = r.min.y) ∧ (∃ q ∈ pts, q.y = r.max.y) := by
  cases pts with
  | nil => simp [boxOf] at h
  | cons p rest =>
    simp only [boxOf, Option.some.injEq] at h
    subst h
    have key := foldl_includePoint_smallest rest (Rect2.ofPoint p) [p]
      (by
        intro q hq
        simp only [List.mem_singleton] at hq
        subst hq
        exact ⟨le_refl _, le_refl _, le_refl _, le_refl _⟩)
      ⟨⟨p, by simp, rfl⟩, ⟨p, by simp, rfl⟩, ⟨p, by simp, rfl⟩, ⟨p, by simp, rfl⟩⟩
    simpa using key

/-- On a path that starts with a Move and has no Cubic command, `bounds(false)` is the
smallest box containing every anchor and control point. -/
theorem approximate_bounds_eq_boxOf (p0 : Vec2) (rest : List Command)
    (hcf : ∀ c ∈ rest, c.type ≠ CommandType.CUBIC) :
    calculateApproximateBounds (Command.move p0 :: rest)
      = boxOf (allPoints (Command.move p0 :: rest)) := by
  have hcf1 : ∀ c ∈ Command.move p0 :: rest, c.type ≠ CommandType.CUBIC := by
    intro c hc
    rcases List.mem_cons.mp hc with rfl | h
    · simp [Command.type]
    · exact hcf c h
  simp only [calculateApproximateBounds, approximateLoop_eq_foldl _ hcf1, allPoints, pointsOf,
    List.cons_append, List.nil_append, List.foldl_cons, visit_initial, foldl_visit_ofRect,
    boxOf]
  rfl

/-! ### removeDuplicates as a merge of maximal runs -/

theorem pushToBack_concat (G : List (List Nat)) (g : List Nat) (x : Nat) :
    pushToBack (G ++ [g]) x = G ++ [g ++ [x]] := by
  induction G with
  | nil => rfl
  | cons a G ih =>
    cases G with
    | nil => rfl
    | cons b G1 =>
      have e : a :: b :: G1 ++ [g] = a :: b :: (G1 ++ [g]) := rfl
      rw [e, pushToBack]
      simp only [List.cons_append] at ih ⊢
      rw [ih]

theorem scanDuplicates_eq (equals : Vec2 → Vec2 → ℚ → Bool) (threshold : ℚ)
    (rest : List Command) (hn : NoClose rest) (i : Nat) (previous : Command)
    (hp : previous.type ≠ CommandType.CLOSE) (Gc : List (List Nat)) (cur : Option (List Nat))
    (ch : Bool) :
    ∃ d, scanDuplicates equals threshold i previous rest ⟨Gc ++ cur.toList, cur.isSome, ch⟩
      = some ⟨Gc ++ tailGroups equals threshold i (anchorOf previous) rest cur, d,
          ch || hasRunFrom equals threshold (anchorOf previous) rest⟩ := by
  induction rest generalizing i previous Gc cur ch with
  | nil => exact ⟨cur.isSome, by simp [scanDuplicates, tailGroups, hasRunFrom]⟩
  | cons c cs ih =>
    obtain ⟨hc, hcs⟩ := noClose_cons.mp hn
    by_cases hm : equals (anchorOf c) (anchorOf previous) threshold = true
    · have hopen : pushToBack (if cur.isSome = true then Gc ++ cur.toList
          else Gc ++ cur.toList ++ [[i]]) (i + 1)
          = Gc ++ (some (cur.getD [i] ++ [i + 1])).toList := by
        cases cur with
        | none => simp [pushToBack_concat]
        | some g => simp [pushToBack_concat]
      obtain ⟨d, hd⟩ := ih hcs (i + 1) c hc Gc (some (cur.getD [i] ++ [i + 1])) true
      refine ⟨d, ?_⟩
      simp only [scanDuplicates, point_eq_anchorOf hc, point_eq_anchorOf hp, hm, if_true, hopen]
      simp only [Option.isSome_some] at hd
      rw [hd]
      simp [tailGroups, hasRunFrom, hm]
    · obtain ⟨d, hd⟩ := ih hcs (i + 1) c hc (Gc ++ cur.toList) none ch
      refine ⟨d, ?_⟩
      simp only [scanDuplicates, point_eq_anchorOf hc, point_eq_anchorOf hp, hm]
      simp only [Option.toList_none, List.append_nil, Option.isSome_none] at hd
      simp only [Bool.false_eq_true, if_false]
      rw [hd]
      simp [tailGroups, hasRunFrom, hm]

theorem liveCommands_append (A B : List Cell) :
    liveCommands (A ++ B) = liveCommands A ++ liveCommands B := by
  simp [liveCommands]

theorem liveCommands_cons_live (c : Command) (l : List Cell) :
    liveCommands (⟨c, false⟩ :: l) = c :: liveCommands l := by
  simp [liveCommands]

theorem liveCommands_gone (cs : List Command) : liveCommands (gone cs) = [] := by
  induction cs with
  | nil => rfl
  | cons c cs ih =>
    simp only [liveCommands, gone] at ih
    simp [liveCommands, gone, ih]

theorem eraseAt_append (A : List Cell) (c : Cell) (B : List Cell) :
    eraseAt (A ++ c :: B) A.length = A ++ ⟨c.command, true⟩ :: B := by
  induction A with
  | nil => rfl
  | cons a A ih => simp [eraseAt, ih]

theorem foldl_eraseAt_range (rs : List Command) (A B : List Cell) :
    (List.range' A.length rs.length).foldl eraseAt (A ++ (fresh rs ++ B))
      = A ++ (gone rs ++ B) := by
  induction rs generalizing A with
  | nil => rfl
  | cons r rs ih =>
    have h := ih (A ++ [⟨r, true⟩])
    simp only [List.length_append, List.length_singleton, List.append_assoc,
      List.singleton_append] at h
    simp only [List.length_cons, List.range', List.foldl_cons, fresh, gone, List.map_cons,
      List.cons_append]
    simp only [fresh, gone] at h
    rw [eraseAt_append, h]

theorem assignPointAt_append (A : List Cell) (c : Cell) (B : List Cell) (q : Vec2)
    (c1 : Command) (h : setPoint c.command q = some c1) :
    assignPointAt (A ++ c :: B) A.length q = some (A ++ ⟨c1, c.erased⟩ :: B) := by
  induction A with
  | nil => simp [assignPointAt, h]
  | cons a A ih => simp [assignPointAt, ih]

theorem getLast_range_cons (n a : Nat) (h : a :: List.range' (a + 1) n ≠ []) :
    (a :: List.range' (a + 1) n).getLast h = a + n := by
  induction n generalizing a with
  | zero => rfl
  | succ n ih =>
    simp only [List.range']
    rw [List.getLast_cons (by simp)]
    rw [ih (a + 1)]
    omega

theorem setPoint_isSome {c : Command} (h : c.type ≠ CommandType.CLOSE) (q : Vec2) :
    setPoint c q = some ((setPoint c q).getD c) := by
  cases c <;> first | rfl | exact absurd rfl h

theorem mergeGroup_of (cells cells1 : List Cell) (first second : Nat) (others : List Nat)
    (fc bc : Cell) (front back : Vec2)
    (h1 : (second :: others).foldl eraseAt cells = cells1)
    (hf : cells1.get? first = some fc)
    (hb : cells1.get? ((second :: others).getLast (by simp)) = some bc)
    (hfp : fc.command.point = some front) (hbp : bc.command.point = some back) :
    mergeGroup cells (first :: second :: others)
      = assignPointAt cells1 first (Vec2.sdiv (Vec2.add front back) 2) := by
  simp only [mergeGroup, h1, hf, hb, hfp, hbp]

theorem getAt_middle (A M B : List Cell) (k : Nat) (hk : k < M.length) :
    (A ++ (M ++ B)).get? (A.length + k) = M.get? k := by
  simp [List.getElem?_append_right, List.getElem?_append_left hk]

theorem getAt_gone_last (cs : List Command) (h : cs ≠ []) :
    (gone cs).get? (cs.length - 1) = some ⟨cs.getLast h, true⟩ := by
  simp [gone, List.getLast_eq_getElem, List.getElem?_map]

theorem mergeGroup_run (h : Command) (hh : h.type ≠ CommandType.CLOSE) (r : Command)
    (rs : List Command) (hrs : NoClose (r :: rs)) (A B : List Cell) :
    mergeGroup (A ++ (fresh (h :: r :: rs) ++ B)) (List.range' A.length (rs.length + 2))
      = some (A ++ (⟨finishRun h (anchorOf ((r :: rs).getLast (by simp))) true, false⟩
          :: (gone (r :: rs) ++ B))) := by
  have hlast : ((r :: rs).getLast (by simp)).type ≠ CommandType.CLOSE :=
    hrs _ (List.getLast_mem _)
  have h1 : ((A.length + 1) :: List.range' (A.length + 1 + 1) rs.length).foldl eraseAt
      (A ++ (fresh (h :: r :: rs) ++ B))
      = A ++ (⟨h, false⟩ :: (gone (r :: rs) ++ B)) := by
    have e := foldl_eraseAt_range (r :: rs) (A ++ [⟨h, false⟩]) B
    simp only [List.length_append, List.length_singleton, List.append_assoc,
      List.singleton_append, List.length_cons, List.range'] at e
    exact e
  have hf : (A ++ (⟨h, false⟩ :: (gone (r :: rs) ++ B))).get? A.length
      = some ⟨h, false⟩ := by
    have e := getAt_middle A [⟨h, false⟩] (gone (r :: rs) ++ B) 0 (by simp)
    simpa using e
  have hb : (A ++ (⟨h, false⟩ :: (gone (r :: rs) ++ B))).get?
      (((A.length + 1) :: List.range' (A.length + 1 + 1) rs.length).getLast (by simp))
      = some ⟨(r :: rs).getLast (by simp), true⟩ := by
    rw [getLast_range_cons]
    have e := getAt_middle (A ++ [⟨h, false⟩]) (gone (r :: rs)) B rs.length
      (by simp [gone])
    simp only [List.length_append, List.length_singleton, List.append_assoc,
      List.singleton_append] at e
    rw [e]
    exact getAt_gone_last (r :: rs) (by simp)
  show mergeGroup _ (A.length :: (A.length + 1) :: List.range' (A.length + 1 + 1) rs.length)
    = _
  rw [mergeGroup_of _ _ _ _ _ _ _ _ _ h1 hf hb (point_eq_anchorOf hh)
    (point_eq_anchorOf hlast)]
  rw [assignPointAt_append A ⟨h, false⟩ _ _ _ (setPoint_isSome hh _)]
  simp [finishRun]

theorem mergeGroups_append (G1 G2 : List (List Nat)) (cells : List Cell) :
    mergeGroups (G1 ++ G2) cells = (mergeGroups G1 cells).bind (mergeGroups G2) := by
  induction G1 generalizing cells with
  | nil => rfl
  | cons g G1 ih =>
    simp only [List.cons_append, mergeGroups]
    cases mergeGroup cells g with
    | none => rfl
    | some cells1 => exact ih cells1

theorem getLastD_eq_getLast (l : List Command) (h : l ≠ []) (d : Command) :
    l.getLastD d = l.getLast h := by
  cases l with
  | nil => exact absurd rfl h
  | cons a l =>
    induction l generalizing a with
    | nil => rfl
    | cons b l ih =>
      rw [List.getLastD_cons, List.getLast_cons (by simp), ← ih b (by simp)]
      rfl

theorem runGroup_snoc (s : Nat) (rs : List Command) (c : Command) :
    some ((runGroup s rs).getD [s + rs.length] ++ [s + rs.length + 1])
      = runGroup s (rs ++ [c]) := by
  cases rs with
  | nil => simp [runGroup, List.range']
  | cons r rs =>
    simp only [runGroup, Option.getD_some, List.cons_append, List.length_cons,
      List.length_append, List.length_singleton, List.length_nil, Nat.zero_add]
    rw [List.range'_1_concat s (rs.length + 1 + 1)]
    rfl

theorem mergeGroups_run (h : Command) (hh : h.type ≠ CommandType.CLOSE)
    (rs : List Command) (hrs : NoClose rs) (A B : List Cell) :
    mergeGroups (runGroup A.length rs).toList (A ++ (fresh (h :: rs) ++ B))
      = some (A ++ (⟨finishRun h (anchorOf (rs.getLastD h)) (!rs.isEmpty), false⟩
          :: (gone rs ++ B))) := by
  cases rs with
  | nil => simp [runGroup, mergeGroups, fresh, gone, finishRun]
  | cons r rs =>
    simp only [runGroup, Option.toList_some, mergeGroups, List.length_cons]
    rw [mergeGroup_run h hh r rs hrs A B, getLastD_eq_getLast (r :: rs) (by simp) h]
    simp

theorem mergeGroups_tail (equals : Vec2 → Vec2 → ℚ → Bool) (threshold : ℚ)
    (rest : List Command) (hn : NoClose rest) (A : List Cell) (h : Command)
    (hh : h.type ≠ CommandType.CLOSE) (rs : List Command) (hrs : NoClose rs) :
    ∃ cells, mergeGroups
        (tailGroups equals threshold (A.length + rs.length) (anchorOf (rs.getLastD h)) rest
          (runGroup A.length rs))
        (A ++ (fresh (h :: rs) ++ fresh rest)) = some cells ∧
      liveCommands cells = liveCommands A ++
        mergeFrom equals threshold h (anchorOf (rs.getLastD h)) (!rs.isEmpty) rest := by
  induction rest generalizing A h rs with
  | nil =>
    refine ⟨_, mergeGroups_run h hh rs hrs A (fresh []), ?_⟩
    rw [liveCommands_append, liveCommands_cons_live, liveCommands_append, liveCommands_gone]
    rfl
  | cons c cs ih =>
    obtain ⟨hc, hcs⟩ := noClose_cons.mp hn
    by_cases hm : equals (anchorOf c) (anchorOf (rs.getLastD h)) threshold = true
    · have hrs1 : NoClose (rs ++ [c]) := by
        intro x hx
        rcases List.mem_append.mp hx with hx | hx
        · exact hrs x hx
        · rw [List.mem_singleton.mp hx]; exact hc
      obtain ⟨cells, h1, h2⟩ := ih hcs A h hh (rs ++ [c]) hrs1
      refine ⟨cells, ?_, ?_⟩
      · simp only [tailGroups, hm, if_true, runGroup_snoc _ rs c]
        have e1 : A.length + (rs ++ [c]).length = A.length + rs.length + 1 := by
          simp; omega
        have e2 : (rs ++ [c]).getLastD h = c := by simp
        have e3 : A ++ (fresh (h :: (rs ++ [c])) ++ fresh cs)
            = A ++ (fresh (h :: rs) ++ fresh (c :: cs)) := by simp [fresh]
        rw [e1, e2, e3] at h1
        exact h1
      · have e2 : (rs ++ [c]).getLastD h = c := by simp
        have e4 : (!(rs ++ [c]).isEmpty) = true := by cases rs <;> rfl
        rw [h2, e2, e4]
        simp only [mergeFrom, hm, if_true]
    · have hA := mergeGroups_run h hh rs hrs A (fresh (c :: cs))
      obtain ⟨cells, h1, h2⟩ := ih hcs
        (A ++ ⟨finishRun h (anchorOf (rs.getLastD h)) (!rs.isEmpty), false⟩ :: gone rs)
        c hc [] (by intro x hx; cases hx)
      refine ⟨cells, ?_, ?_⟩
      · simp only [tailGroups, hm, Bool.false_eq_true, if_false]
        rw [mergeGroups_append, hA, Option.some_bind]
        have e1 : (A ++ ⟨finishRun h (anchorOf (rs.getLastD h)) (!rs.isEmpty), false⟩
            :: gone rs).length + ([] : List Command).length = A.length + rs.length + 1 := by
          simp [gone]; omega
        have e3 : (A ++ ⟨finishRun h (anchorOf (rs.getLastD h)) (!rs.isEmpty), false⟩
            :: gone rs) ++ (fresh [c] ++ fresh cs)
            = A ++ (⟨finishRun h (anchorOf (rs.getLastD h)) (!rs.isEmpty), false⟩
            :: (gone rs ++ fresh (c :: cs))) := by simp [fresh]
        rw [e1, e3] at h1
        exact h1
      · rw [h2, liveCommands_append, liveCommands_cons_live, liveCommands_gone]
        simp only [mergeFrom, hm, Bool.false_eq_true, if_false, List.getLastD_nil,
          List.isEmpty_nil, Bool.not_true, List.append_assoc, List.singleton_append]

/-- On a non-empty path without a Close, `removeDuplicates(threshold)` is the merge of
maximal runs: every run of two or more commands is replaced by its first command with
the anchor moved to the midpoint of the run's first and last original anchors, all
other commands are kept in order, and the returned flag tells whether such a run
exists. -/
theorem removeDuplicates_eq_mergeFrom (equals : Vec2 → Vec2 → ℚ → Bool) (threshold : ℚ)
    (front : Command) (rest : List Command) (hn : NoClose (front :: rest)) :
    removeDuplicates equals threshold (front :: rest)
      = some (mergeFrom equals threshold front (anchorOf front) false rest,
          hasRunFrom equals threshold (anchorOf front) rest) := by
  obtain ⟨hf, hr⟩ := noClose_cons.mp hn
  obtain ⟨d, hd⟩ := scanDuplicates_eq equals threshold rest hr 0 front hf [] none false
  obtain ⟨cells, h1, h2⟩ := mergeGroups_tail equals threshold rest hr [] front hf []
    (by intro x hx; cases hx)
  simp only [Option.toList_none, List.append_nil, Option.isSome_none, List.nil_append,
    Bool.false_or] at hd
  simp only [List.length_nil, Nat.add_zero, List.getLastD_nil, runGroup, List.nil_append,
    List.isEmpty_nil, Bool.not_true] at h1 h2
  have e : (front :: rest).map (fun c => (⟨c, false⟩ : Cell)) = fresh [front] ++ fresh rest :=
    rfl
  simp only [removeDuplicates, hd, e, h1, h2]
  simp [liveCommands]

/-! ### Concrete paths -/

/-- C17: the path built by `moveTo(0,0); lineTo(10,0); lineTo(0,10); lineTo(0,0)`
auto-closes; no anchor of it is within threshold 1 of its predecessor's anchor (the
same commands without the Close are returned unchanged, with `changed` false), so the
claim asks for the path unchanged and `false`; but `removeDuplicates(1)` reads the
point of the trailing Close in its scan and yields no result. -/
theorem removeDuplicates_fails_on_closed_path :
    runOps [] [BuilderOp.moveTo ⟨0, 0⟩, BuilderOp.lineTo ⟨10, 0⟩, BuilderOp.lineTo ⟨0, 10⟩,
        BuilderOp.lineTo ⟨0, 0⟩]
      = some [Command.move ⟨0, 0⟩, Command.line ⟨10, 0⟩, Command.line ⟨0, 10⟩,
          Command.line ⟨0, 0⟩, Command.close] ∧
    removeDuplicates Vec2.equals 1
        [Command.move ⟨0, 0⟩, Command.line ⟨10, 0⟩, Command.line ⟨0, 10⟩, Command.line ⟨0, 0⟩]
      = some ([Command.move ⟨0, 0⟩, Command.line ⟨10, 0⟩, Command.line ⟨0, 10⟩,
          Command.line ⟨0, 0⟩], false) ∧
    removeDuplicates Vec2.equals 1
        [Command.move ⟨0, 0⟩, Command.line ⟨10, 0⟩, Command.line ⟨0, 10⟩, Command.line ⟨0, 0⟩,
          Command.close]
      = none := by
  decide!

/-- C18: for the path Move(0,0), Cubic(control1 (0,5), control2 (10,5), point (10,0))
the smallest box containing the anchors and both controls is `[(0,0), (10,5)]`, but
`bounds(false)` reads `control()` of the Cubic in the pass-through from the Cubic case
and yields no box. -/
theorem approximate_bounds_not_box_on_cubic :
    boxOf (allPoints [Command.move ⟨0, 0⟩, Command.cubic ⟨0, 5⟩ ⟨10, 5⟩ ⟨10, 0⟩])
      = some ⟨⟨0, 0⟩, ⟨10, 5⟩⟩ ∧
    calculateApproximateBounds [Command.move ⟨0, 0⟩, Command.cubic ⟨0, 5⟩ ⟨10, 5⟩ ⟨10, 0⟩]
      = none := by
  decide!

/-- C20: `moveTo(0,0); lineTo(10,0); lineTo(10,10); lineTo(0,10); lineTo(0,0)` builds
Move(0,0), Line(10,0), Line(10,10), Line(0,10), Line(0,0), Close; `closed()` is true
and `bounds(false)` is the box `[(0,0), (10,10)]`; the shoelace sum of the anchors is
positive (Clockwise), but `direction()` reads the point of the Close command and
yields no direction. -/
theorem square_scenario :
    runOps [] [BuilderOp.moveTo ⟨0, 0⟩, BuilderOp.lineTo ⟨10, 0⟩, BuilderOp.lineTo ⟨10, 10⟩,
        BuilderOp.lineTo ⟨0, 10⟩, BuilderOp.lineTo ⟨0, 0⟩]
      = some [Command.move ⟨0, 0⟩, Command.line ⟨10, 0⟩, Command.line ⟨10, 10⟩,
          Command.line ⟨0, 10⟩, Command.line ⟨0, 0⟩, Command.close] ∧
    closed [Command.move ⟨0, 0⟩, Command.line ⟨10, 0⟩, Command.line ⟨10, 10⟩,
        Command.line ⟨0, 10⟩, Command.line ⟨0, 0⟩, Command.close] = some true ∧
    calculateApproximateBounds [Command.move ⟨0, 0⟩, Command.line ⟨10, 0⟩,
        Command.line ⟨10, 10⟩, Command.line ⟨0, 10⟩, Command.line ⟨0, 0⟩, Command.close]
      = some ⟨⟨0, 0⟩, ⟨10, 10⟩⟩ ∧
    directionOfSum (shoelace (anchors [Command.move ⟨0, 0⟩, Command.line ⟨10, 0⟩,
        Command.line ⟨10, 10⟩, Command.line ⟨0, 10⟩, Command.line ⟨0, 0⟩, Command.close]))
      = PathDirection.CLOCKWISE ∧
    direction [Command.move ⟨0, 0⟩, Command.line ⟨10, 0⟩, Command.line ⟨10, 10⟩,
        Command.line ⟨0, 10⟩, Command.line ⟨0, 0⟩, Command.close] = none := by
  decide!

/-! ### reverse and the winding direction -/

theorem cross_antisymm (a b : Vec2) : a.cross b = -(b.cross a) := by
  simp only [Vec2.cross]
  ring

theorem shoelaceFrom_eq_chain (f : Vec2) (l : List Vec2) :
    shoelaceFrom f l = chain l + wrapTerm (some f) l.getLast? := by
  induction l with
  | nil => simp [shoelaceFrom, chain, wrapTerm]
  | cons p l ih =>
    cases l with
    | nil => simp [shoelaceFrom, chain, wrapTerm]
    | cons q rest =>
      rw [shoelaceFrom, ih, chain, List.getLast?_cons_cons]
      ring

theorem shoelace_eq_chain (l : List Vec2) :
    shoelace l = chain l + wrapTerm l.head? l.getLast? := by
  cases l with
  | nil => simp [shoelace, chain, wrapTerm]
  | cons p rest => rw [shoelace, shoelaceFrom_eq_chain]; rfl

theorem chain_concat (l : List Vec2) (x : Vec2) :
    chain (l ++ [x]) = chain l + wrapTerm (some x) l.getLast? := by
  induction l with
  | nil => simp [chain, wrapTerm]
  | cons p l ih =>
    cases l with
    | nil => simp [chain, wrapTerm, cross_antisymm x p]
    | cons q rest =>
      have e : p :: q :: rest ++ [x] = p :: q :: (rest ++ [x]) := rfl
      rw [e, chain, chain, List.getLast?_cons_cons]
      have ih' : chain (q :: (rest ++ [x])) = chain (q :: rest) + wrapTerm (some x) (q :: rest).getLast? := ih
      rw [ih']
      ring


theorem wrapTerm_swap (a b : Option Vec2) : wrapTerm a b = -wrapTerm b a := by
  cases a <;> cases b <;> simp [wrapTerm]
  exact cross_antisymm _ _

theorem chain_cons (p : Vec2) (l : List Vec2) :
    chain (p :: l) = wrapTerm l.head? (some p) + chain l := by
  cases l with
  | nil => simp [chain, wrapTerm]
  | cons q rest => simp [chain, wrapTerm]

theorem chain_reverse (l : List Vec2) : chain l.reverse = -chain l := by
  induction l with
  | nil => simp [chain]
  | cons p l ih =>
    rw [List.reverse_cons, chain_concat, ih, chain_cons, List.getLast?_reverse,
      wrapTerm_swap l.head? (some p)]
    ring

theorem shoelace_reverse (l : List Vec2) : shoelace l.reverse = -shoelace l := by
  rw [shoelace_eq_chain, shoelace_eq_chain, chain_reverse, List.head?_reverse,
    List.getLast?_reverse, wrapTerm_swap l.head? l.getLast?]
  ring

theorem directionOfSum_neg (sum : ℚ) :
    directionOfSum (-sum) = (directionOfSum sum).opposite := by
  rcases lt_trichotomy sum 0 with h | h | h
  · have h1 : sum ≠ 0 := ne_of_lt h
    have h2 : ¬ (-sum = 0) := by simpa using h1
    have h3 : ¬ (-sum < 0) := by simp; exact le_of_lt h
    simp [directionOfSum, h, h1, h2, h3, PathDirection.opposite]
  · subst h
    simp [directionOfSum, PathDirection.opposite]
  · have h1 : sum ≠ 0 := ne_of_gt h
    have h2 : ¬ (-sum = 0) := by simpa using h1
    have h3 : -sum < 0 := by simpa using h
    have h4 : ¬ sum < 0 := not_lt.mpr (le_of_lt h)
    simp [directionOfSum, h1, h2, h3, h4, PathDirection.opposite]

theorem anchors_mirrorAll (p0 : Vec2) (rb : List Command) (h : NoClose rb) :
    lastAnchor p0 rb :: anchors (mirrorAll p0 rb) = anchors rb ++ [p0] := by
  induction rb with
  | nil => rfl
  | cons c rb ih =>
    obtain ⟨hc, hrb⟩ := noClose_cons.mp h
    have hm : (mirrored c (lastAnchor p0 rb)).type ≠ CommandType.CLOSE := by
      rw [type_mirrored]; exact hc
    rw [lastAnchor_cons, mirrorAll, anchors_cons hm, anchorOf_mirrored hc, ih hrb,
      anchors_cons hc]
    rfl

theorem anchors_reverse (l : List Command) : anchors l.reverse = (anchors l).reverse := by
  simp [anchors, List.filterMap_reverse]

theorem mirrorAll_length (p0 : Vec2) (rb : List Command) :
    (mirrorAll p0 rb).length = rb.length := by
  induction rb with
  | nil => rfl
  | cons c rb ih => simp [mirrorAll, ih]

/-- The anchors of the reverse of a Close-free path are its anchors in reverse
order. -/
theorem anchors_reverse_path (p0 : Vec2) (body : List Command) (hb : NoClose body) :
    anchors (Command.move (lastAnchor p0 body.reverse) :: mirrorAll p0 body.reverse)
      = (anchors (Command.move p0 :: body)).reverse := by
  have hm : (Command.move p0).type ≠ CommandType.CLOSE := by simp [Command.type]
  have hm1 : (Command.move (lastAnchor p0 body.reverse)).type ≠ CommandType.CLOSE := by
    simp [Command.type]
  rw [anchors_cons hm, anchors_cons hm1]
  have e : anchorOf (Command.move (lastAnchor p0 body.reverse)) = lastAnchor p0 body.reverse :=
    rfl
  have e0 : anchorOf (Command.move p0) = p0 := rfl
  rw [e, e0, anchors_mirrorAll p0 body.reverse (noClose_reverse.mpr hb), anchors_reverse,
    List.reverse_cons]


theorem getLast_mirrorAll (p0 : Vec2) (rb : List Command) (hne : rb ≠ []) (h : NoClose rb) :
    ∃ c, (mirrorAll p0 rb).getLast? = some c ∧ c.type ≠ CommandType.CLOSE ∧
      anchorOf c = p0 := by
  induction rb with
  | nil => exact absurd rfl hne
  | cons c rb ih =>
    obtain ⟨hc, hrb⟩ := noClose_cons.mp h
    cases rb with
    | nil =>
      exact ⟨mirrored c p0, rfl, by rw [type_mirrored]; exact hc, anchorOf_mirrored hc p0⟩
    | cons d rb =>
      obtain ⟨e, he, ht, ha⟩ := ih (by simp) hrb
      refine ⟨e, ?_, ht, ha⟩
      rw [mirrorAll] at he
      rw [mirrorAll, mirrorAll, List.getLast?_cons_cons]
      exact he

theorem closed_of_noClose (first : Command) (rest : List Command)
    (hn : NoClose (first :: rest)) (last : Command)
    (hl : (first :: rest).getLast? = some last) (h3 : 3 ≤ (first :: rest).length) :
    closed (first :: rest) = some (decide (anchorOf last = anchorOf first)) := by
  have hlt : ¬ (first :: rest).length < 3 := by omega
  have hf : first.type ≠ CommandType.CLOSE := (noClose_cons.mp hn).1
  have hlast : last.type ≠ CommandType.CLOSE :=
    hn last (List.mem_of_getLast?_eq_some hl)
  simp only [closed, hlt, if_false, hl, List.head?_cons, hlast, point_eq_anchorOf hlast,
    point_eq_anchorOf hf]

theorem closed_small (p : Path) (h : p.length < 3) : closed p = some false := by
  simp [closed, h]

theorem closed_of_trailing_close (p : Path) (h3 : 3 ≤ (p ++ [Command.close]).length) :
    closed (p ++ [Command.close]) = some true := by
  have hlt : ¬ (p ++ [Command.close]).length < 3 := by omega
  have hl : (p ++ [Command.close]).getLast? = some Command.close := by simp
  obtain ⟨f, hf⟩ : ∃ f, (p ++ [Command.close]).head? = some f := by
    cases p with
    | nil => exact ⟨_, rfl⟩
    | cons c p => exact ⟨c, rfl⟩
  have ht : Command.close.type = CommandType.CLOSE := rfl
  simp only [closed, hlt, if_false, hl, hf, ht, if_true]

/-- The reverse of a well-formed non-empty path has the same size and the same
`closed()`. -/
theorem reverse_keeps_size_closed (p0 : Vec2) (body tail : List Command) (hb : NoClose body)
    (ht : tail = [] ∨ tail = [Command.close]) :
    ∃ q, reverse (Command.move p0 :: (body ++ tail)) = some q ∧
      q.length = (Command.move p0 :: (body ++ tail)).length ∧
      closed q = closed (Command.move p0 :: (body ++ tail)) := by
  refine ⟨_, reverse_eq_mirrorAll p0 body tail hb ht, ?_, ?_⟩
  · simp [mirrorAll_length]
  · have hlen : (Command.move (lastAnchor p0 body.reverse) ::
        (mirrorAll p0 body.reverse ++ tail)).length
        = (Command.move p0 :: (body ++ tail)).length := by simp [mirrorAll_length]
    by_cases h3 : (Command.move p0 :: (body ++ tail)).length < 3
    · rw [closed_small _ h3, closed_small _ (by rw [hlen]; exact h3)]
    · have h3' : 3 ≤ (Command.move p0 :: (body ++ tail)).length := by omega
      rcases ht with rfl | rfl
      · have hbne : body ≠ [] := by
          intro e
          rw [e] at h3'
          simp at h3'
        have hbr : body.reverse ≠ [] := by simpa using hbne
        obtain ⟨c, hc, hct, hca⟩ := getLast_mirrorAll p0 body.reverse hbr (noClose_reverse.mpr hb)
        have hnq : NoClose (Command.move (lastAnchor p0 body.reverse) ::
            mirrorAll p0 body.reverse) :=
          noClose_cons.mpr ⟨by simp [Command.type],
            noClose_mirrorAll p0 body.reverse (noClose_reverse.mpr hb)⟩
        have hnp : NoClose (Command.move p0 :: body) :=
          noClose_cons.mpr ⟨by simp [Command.type], hb⟩
        have hlq : (Command.move (lastAnchor p0 body.reverse) ::
            mirrorAll p0 body.reverse).getLast? = some c := by
          cases hm : mirrorAll p0 body.reverse with
          | nil => rw [hm] at hc; simp at hc
          | cons m ms => rw [hm] at hc; rw [List.getLast?_cons_cons]; exact hc
        have hlp : (Command.move p0 :: body).getLast? = some (body.getLast hbne) := by
          cases body with
          | nil => exact absurd rfl hbne
          | cons b bs =>
            rw [List.getLast?_cons_cons]
            exact List.getLast?_eq_getLast _ _
        have hla : lastAnchor p0 body.reverse = anchorOf (body.getLast hbne) := by
          obtain ⟨init, z, hz⟩ : ∃ init z, body = init ++ [z] := by
            rcases List.eq_nil_or_concat body with h | ⟨init, z, h⟩
            · exact absurd h hbne
            · exact ⟨init, z, by rw [h, List.concat_eq_append]⟩
          subst hz
          simp [lastAnchor]
        simp only [List.append_nil] at hlen h3' ⊢
        rw [closed_of_noClose _ _ hnq c hlq (by rw [hlen]; exact h3'),
          closed_of_noClose _ _ hnp _ hlp h3', hca, ← hla]
        have e1 : anchorOf (Command.move (lastAnchor p0 body.reverse))
            = lastAnchor p0 body.reverse := rfl
        have e2 : anchorOf (Command.move p0) = p0 := rfl
        rw [e1, e2]
        congr 1
        exact decide_eq_decide.mpr ⟨fun h => h.symm, fun h => h.symm⟩
      · have e1 : Command.move (lastAnchor p0 body.reverse) ::
            (mirrorAll p0 body.reverse ++ [Command.close])
            = (Command.move (lastAnchor p0 body.reverse) :: mirrorAll p0 body.reverse)
              ++ [Command.close] := rfl
        have e2 : Command.move p0 :: (body ++ [Command.close])
            = (Command.move p0 :: body) ++ [Command.close] := rfl
        rw [e1, closed_of_trailing_close _ (by rw [← e1, hlen]; exact h3'), e2,
          closed_of_trailing_close _ (by rw [← e2]; exact h3')]


theorem closed_isSome_of_noClose (p : Path) (hn : NoClose p) : ∃ b, closed p = some b := by
  by_cases h3 : p.length < 3
  · exact ⟨false, closed_small p h3⟩
  · cases p with
    | nil => simp at h3
    | cons first rest =>
      have hne : first :: rest ≠ [] := by simp
      exact ⟨_, closed_of_noClose first rest hn _ (List.getLast?_eq_getLast _ hne) (by omega)⟩

/-- On a path that starts with a Move and holds no Close, `reverse()` keeps the size
and `closed()` and turns `direction()` into its opposite. -/
theorem reverse_flips_direction (p0 : Vec2) (body : List Command) (hb : NoClose body) :
    ∃ q d, reverse (Command.move p0 :: body) = some q ∧
      q.length = (Command.move p0 :: body).length ∧
      closed q = closed (Command.move p0 :: body) ∧
      direction (Command.move p0 :: body) = some d ∧
      direction q = some d.opposite := by
  obtain ⟨q, hq, hlen, hcl⟩ := reverse_keeps_size_closed p0 body [] hb (Or.inl rfl)
  simp only [List.append_nil] at hq hlen hcl
  have hq2 := reverse_eq_mirrorAll p0 body [] hb (Or.inl rfl)
  simp only [List.append_nil] at hq2
  have hqe : q = Command.move (lastAnchor p0 body.reverse) :: mirrorAll p0 body.reverse := by
    rw [hq] at hq2
    exact Option.some.inj hq2
  have hnp : NoClose (Command.move p0 :: body) :=
    noClose_cons.mpr ⟨by simp [Command.type], hb⟩
  have hnq : NoClose q := by
    rw [hqe]
    exact noClose_cons.mpr ⟨by simp [Command.type],
      noClose_mirrorAll p0 body.reverse (noClose_reverse.mpr hb)⟩
  have haq : anchors q = (anchors (Command.move p0 :: body)).reverse := by
    rw [hqe]
    exact anchors_reverse_path p0 body hb
  obtain ⟨b, hbc⟩ := closed_isSome_of_noClose _ hnp
  cases b with
  | false =>
    refine ⟨q, PathDirection.UNDEFINED, hq, hlen, hcl, direction_of_not_closed _ hbc, ?_⟩
    exact direction_of_not_closed q (by rw [hcl]; exact hbc)
  | true =>
    have h3 : 3 ≤ (Command.move p0 :: body).length := by
      by_contra h
      have := closed_small (Command.move p0 :: body) (by omega)
      rw [hbc] at this
      cases this
    refine ⟨q, directionOfSum (shoelace (anchors (Command.move p0 :: body))), hq, hlen, hcl,
      direction_eq_shoelace _ h3 hnp hbc, ?_⟩
    rw [direction_eq_shoelace q (by rw [hlen]; exact h3) hnq (by rw [hcl]; exact hbc), haq,
      shoelace_reverse, directionOfSum_neg]

/-- C30: on the auto-closed square built by
`moveTo(0,0); lineTo(10,0); lineTo(10,10); lineTo(0,10); lineTo(0,0)` the reverse has
the same size and the same `closed()`, but `direction()` reads the point of the
trailing Close and yields no result, on the path and on its reverse alike; on the same
commands without the Close it is Clockwise, and CounterClockwise on their reverse. -/
theorem reverse_direction_on_closed_square :
    runOps [] [BuilderOp.moveTo ⟨0, 0⟩, BuilderOp.lineTo ⟨10, 0⟩, BuilderOp.lineTo ⟨10, 10⟩,
        BuilderOp.lineTo ⟨0, 10⟩, BuilderOp.lineTo ⟨0, 0⟩]
      = some [Command.move ⟨0, 0⟩, Command.line ⟨10, 0⟩, Command.line ⟨10, 10⟩,
          Command.line ⟨0, 10⟩, Command.line ⟨0, 0⟩, Command.close] ∧
    reverse [Command.move ⟨0, 0⟩, Command.line ⟨10, 0⟩, Command.line ⟨10, 10⟩,
          Command.line ⟨0, 10⟩, Command.line ⟨0, 0⟩, Command.close]
      = some [Command.move ⟨0, 0⟩, Command.line ⟨0, 10⟩, Command.line ⟨10, 10⟩,
          Command.line ⟨10, 0⟩, Command.line ⟨0, 0⟩, Command.close] ∧
    closed [Command.move ⟨0, 0⟩, Command.line ⟨10, 0⟩, Command.line ⟨10, 10⟩,
          Command.line ⟨0, 10⟩, Command.line ⟨0, 0⟩, Command.close] = some true ∧
    closed [Command.move ⟨0, 0⟩, Command.line ⟨0, 10⟩, Command.line ⟨10, 10⟩,
          Command.line ⟨10, 0⟩, Command.line ⟨0, 0⟩, Command.close] = some true ∧
    direction [Command.move ⟨0, 0⟩, Command.line ⟨10, 0⟩, Command.line ⟨10, 10⟩,
          Command.line ⟨0, 10⟩, Command.line ⟨0, 0⟩, Command.close] = none ∧
    direction [Command.move ⟨0, 0⟩, Command.line ⟨0, 10⟩, Command.line ⟨10, 10⟩,
          Command.line ⟨10, 0⟩, Command.line ⟨0, 0⟩, Command.close] = none ∧
    direction [Command.move ⟨0, 0⟩, Command.line ⟨10, 0⟩, Command.line ⟨10, 10⟩,
          Command.line ⟨0, 10⟩, Command.line ⟨0, 0⟩] = some PathDirection.CLOCKWISE ∧
    direction [Command.move ⟨0, 0⟩, Command.line ⟨0, 10⟩, Command.line ⟨10, 10⟩,
          Command.line ⟨10, 0⟩, Command.line ⟨0, 0⟩]
      = some PathDirection.COUNTER_CLOCKWISE := by
  decide!

/-! ### Path bounds have ordered corners -/

theorem approximateStep_not_cubic (l l1 : Limits) (c : Command)
    (h : approximateStep l c = some l1) : c.type ≠ CommandType.CUBIC := by
  cases c <;> simp_all [approximateStep, Command.type, Command.control, Command.control2]

theorem approximateLoop_no_cubic (cs : List Command) (l l1 : Limits)
    (h : approximateLoop cs l = some l1) : ∀ c ∈ cs, c.type ≠ CommandType.CUBIC := by
  induction cs generalizing l with
  | nil => simp
  | cons c cs ih =>
    simp only [approximateLoop] at h
    cases hs : approximateStep l c with
    | none => simp [hs] at h
    | some l2 =>
      simp only [hs] at h
      intro d hd
      rcases List.mem_cons.mp hd with rfl | hd
      · exact approximateStep_not_cubic l l2 d hs
      · exact ih l2 h d hd

theorem ordered_of_contains (r : Rect2) (q : Vec2) (h : r.Contains q) : r.Ordered :=
  ⟨le_trans h.1 h.2.1, le_trans h.2.2.1 h.2.2.2⟩

theorem approximate_bounds_ordered (p : Path) (b : Rect2)
    (h : calculateApproximateBounds p = some b) : b.Ordered := by
  cases hl : approximateLoop p ⟨none, none, none, none⟩ with
  | none => simp [calculateApproximateBounds, hl] at h
  | some l =>
    have hcf := approximateLoop_no_cubic p _ l hl
    have hl2 := hl
    rw [approximateLoop_eq_foldl p hcf, Option.some.injEq] at hl2
    simp only [calculateApproximateBounds, hl, Option.some.injEq] at h
    subst h
    subst hl2
    cases hpts : allPoints p with
    | nil => exact ⟨le_refl _, le_refl _⟩
    | cons q pts =>
      rw [List.foldl_cons, visit_initial, foldl_visit_ofRect]
      exact ordered_of_contains _ q
        (contains_foldl_mono pts _ q ⟨le_refl _, le_refl _, le_refl _, le_refl _⟩)

theorem precise_bounds_ordered (solveLinear : ℚ → ℚ → Option ℚ)
    (solveQuadratic : ℚ → ℚ → ℚ → List ℚ) (p : Path) (b : Rect2)
    (h : calculatePreciseBounds solveLinear solveQuadratic p = some b) : b.Ordered := by
  cases p with
  | nil =>
    simp only [calculatePreciseBounds, Option.some.injEq] at h
    subst h
    exact ⟨le_refl _, le_refl _⟩
  | cons front rest =>
    simp only [calculatePreciseBounds] at h
    cases hf : front.point with
    | none => simp [hf] at h
    | some fp =>
      simp only [hf] at h
      exact ordered_of_contains b fp
        (preciseLoop_mono solveLinear solveQuadratic rest front _ b fp h
          ⟨le_refl _, le_refl _, le_refl _, le_refl _⟩)


theorem bounds_ordered (solveLinear : ℚ → ℚ → Option ℚ)
    (solveQuadratic : ℚ → ℚ → ℚ → List ℚ) (p : Path) (precise : Bool) (b : Rect2)
    (h : bounds solveLinear solveQuadratic p precise = some b) : b.Ordered := by
  cases precise with
  | true => exact precise_bounds_ordered solveLinear solveQuadratic p b h
  | false => exact approximate_bounds_ordered p b h

/-! ### Builder, state machine and contract checks -/

/-- C21: `Path.moveTo(p)` discards all existing commands: whatever the path holds
(nothing, an open contour or a closed one), the result is exactly the one-command list
`[Move p]`, through either overload. -/
theorem moveTo_discards (p : Path) (point : Vec2) :
    moveTo p point = [Command.move point] ∧
    moveToXY p point.x point.y = [Command.move point] :=
  ⟨rfl, rfl⟩

/-- C22 (as stated) fails: the path `[Move (0,0)]` is non-empty and `closed()` is false
on it, yet after `close()` the path is `[Move (0,0), Close]` and `closed()` is still
false, because `closed()` answers false below three commands. The same holds for
`[Move (0,0), Close]`, which `close()` leaves as it is. -/
theorem close_single_move_not_closed :
    closed [Command.move ⟨0, 0⟩] = some false ∧
    close [Command.move ⟨0, 0⟩] = some [Command.move ⟨0, 0⟩, Command.close] ∧
    (close [Command.move ⟨0, 0⟩]).bind closed = some false ∧
    closed [Command.move ⟨0, 0⟩, Command.close] = some false ∧
    (close [Command.move ⟨0, 0⟩, Command.close]).bind closed = some false := by
  decide!

/-- C22 (amended): for every path of at least two commands whose last command is not a
Close, `close()` appends a Close and yields a path for which `closed()` is true. -/
theorem close_makes_closed (p : Path) (hlen : 2 ≤ p.length)
    (hlast : ∀ b, p.getLast? = some b → b.type ≠ CommandType.CLOSE) :
    close p = some (p ++ [Command.close]) ∧
    (close p).bind closed = some true := by
  have hne : p ≠ [] := by
    intro h
    rw [h] at hlen
    simp at hlen
  obtain ⟨b, hb⟩ : ∃ b, p.getLast? = some b := ⟨p.getLast hne, List.getLast?_eq_getLast _ hne⟩
  have hcl : close p = some (p ++ [Command.close]) := by
    simp [close, hb, hlast b hb]
  refine ⟨hcl, ?_⟩
  rw [hcl, Option.some_bind]
  have h3 : ¬ (p ++ [Command.close]).length < 3 := by
    simp only [List.length_append, List.length_singleton]
    omega
  obtain ⟨f, hf⟩ : ∃ f, (p ++ [Command.close]).head? = some f := by
    cases p with
    | nil => exact absurd rfl hne
    | cons c cs => exact ⟨c, rfl⟩
  simpa [closed, hf, Command.type] using hlen

/-- Witness for C22 (amended): `[Move (0,0), Line (1,0)]` becomes closed by `close()`. -/
theorem close_makes_closed_witness :
    close [Command.move ⟨0, 0⟩, Command.line ⟨1, 0⟩]
      = some ([Command.move ⟨0, 0⟩, Command.line ⟨1, 0⟩] ++ [Command.close]) ∧
    (close [Command.move ⟨0, 0⟩, Command.line ⟨1, 0⟩]).bind closed = some true :=
  close_makes_closed [Command.move ⟨0, 0⟩, Command.line ⟨1, 0⟩] (by decide)
    (by intro b hb; cases hb; decide)


/-- C23: on the empty path `close()` reads `commands_.back()` and the loops of
`convertQuadraticsToCubics`, `convertConicsToQuadratics` and `removeDuplicates` step
their iterator past the end, and `Shape.close()` on the empty shape calls `close()` on
the empty path it has just emplaced: none of them produces a result. The other
operations are defined on the empty path. -/
theorem close_undefined_on_empty :
    close [] = none ∧
    Shape.close [] = none ∧
    convertQuadraticsToCubics [] = none ∧
    convertConicsToQuadratics Rat.sqrt [] = none ∧
    convertConicsToQuadraticsWithin Rat.sqrt 1 [] = none ∧
    removeDuplicates Vec2.equals 1 [] = none ∧
    moveTo [] ⟨1, 2⟩ = [Command.move ⟨1, 2⟩] ∧
    lineTo [] ⟨1, 2⟩ = some [Command.move ⟨1, 2⟩] ∧
    quadraticTo [] ⟨0, 1⟩ ⟨1, 2⟩ = some [Command.move ⟨1, 2⟩] ∧
    conicTo [] ⟨0, 1⟩ ⟨1, 2⟩ 1 = some [Command.move ⟨1, 2⟩] ∧
    cubicTo [] ⟨0, 1⟩ ⟨1, 0⟩ ⟨1, 2⟩ = some [Command.move ⟨1, 2⟩] ∧
    closed [] = some false ∧
    bounds exactLinear (fun _ _ _ => []) [] true = some Rect2.zero ∧
    bounds exactLinear (fun _ _ _ => []) [] false = some Rect2.zero ∧
    direction [] = some PathDirection.UNDEFINED ∧
    reverse [] = some [] := by
  decide!

/-- C25: in precise mode a Conic command adds its control point and its endpoint to
the box and nothing else, whatever its weight and whatever the root solver: the step
for a Conic is two `include` calls, and on `Move(p0), Conic(c, w, p1)` the result of
`bounds(true)` is the smallest box containing `p0`, `c` and `p1`. -/
theorem precise_bounds_conic (solveLinear : ℚ → ℚ → Option ℚ)
    (solveQuadratic : ℚ → ℚ → ℚ → List ℚ) (p0 c p1 : Vec2) (w : ℚ) :
    (∀ (previous : Command) (result : Rect2),
      preciseStep solveLinear solveQuadratic previous (Command.conic c p1 w) result
        = some ((result.includePoint c).includePoint p1)) ∧
    bounds solveLinear solveQuadratic [Command.move p0, Command.conic c p1 w] true
      = some ⟨⟨Min.min (Min.min p0.x c.x) p1.x, Min.min (Min.min p0.y c.y) p1.y⟩,
          ⟨Max.max (Max.max p0.x c.x) p1.x, Max.max (Max.max p0.y c.y) p1.y⟩⟩ ∧
    bounds solveLinear solveQuadratic [Command.move p0, Command.conic c p1 w] true
      = boxOf [p0, c, p1] :=
  ⟨fun _ _ => rfl, rfl, rfl⟩

/-- C29: three reads of a field the command's tag does not carry, on well-formed
paths: `direction()` and `removeDuplicates()` read the point of the trailing Close of
the auto-closed triangle `moveTo(0,0); lineTo(4,0); lineTo(0,3); lineTo(0,0)`, and
`bounds(false)` reads the `control` field of the Cubic of
`moveTo(0,0); cubicTo((1,2),(3,2),(4,0))`; none of the three produces a result. -/
theorem wrong_tag_reads :
    runOps [] [BuilderOp.moveTo ⟨0, 0⟩, BuilderOp.lineTo ⟨4, 0⟩, BuilderOp.lineTo ⟨0, 3⟩,
        BuilderOp.lineTo ⟨0, 0⟩]
      = some [Command.move ⟨0, 0⟩, Command.line ⟨4, 0⟩, Command.line ⟨0, 3⟩,
          Command.line ⟨0, 0⟩, Command.close] ∧
    wellFormed [Command.move ⟨0, 0⟩, Command.line ⟨4, 0⟩, Command.line ⟨0, 3⟩,
          Command.line ⟨0, 0⟩, Command.close] = true ∧
    Command.point Command.close = none ∧
    direction [Command.move ⟨0, 0⟩, Command.line ⟨4, 0⟩, Command.line ⟨0, 3⟩,
          Command.line ⟨0, 0⟩, Command.close] = none ∧
    removeDuplicates Vec2.equals 1 [Command.move ⟨0, 0⟩, Command.line ⟨4, 0⟩,
          Command.line ⟨0, 3⟩, Command.line ⟨0, 0⟩, Command.close] = none ∧
    runOps [] [BuilderOp.moveTo ⟨0, 0⟩, BuilderOp.cubicTo ⟨1, 2⟩ ⟨3, 2⟩ ⟨4, 0⟩]
      = some [Command.move ⟨0, 0⟩, Command.cubic ⟨1, 2⟩ ⟨3, 2⟩ ⟨4, 0⟩] ∧
    wellFormed [Command.move ⟨0, 0⟩, Command.cubic ⟨1, 2⟩ ⟨3, 2⟩ ⟨4, 0⟩] = true ∧
    Command.control (Command.cubic ⟨1, 2⟩ ⟨3, 2⟩ ⟨4, 0⟩) = none ∧
    bounds exactLinear (fun _ _ _ => [])
        [Command.move ⟨0, 0⟩, Command.cubic ⟨1, 2⟩ ⟨3, 2⟩ ⟨4, 0⟩] false = none := by
  decide!

end Path

/-! ### Conic -/

namespace Conic

theorem subdivisionLoop_pos (n : Nat) (error : ℚ) (h : 0 < error) :
    subdivisionLoop 0 n error = n := by
  induction n generalizing error with
  | zero => rfl
  | succ n ih =>
    have h4 : 0 < error * (1 / 4) := by positivity
    simp only [subdivisionLoop, gt_iff_lt, h, if_true, ih _ h4]
    omega

theorem subdivisionLoop_nonpos (tolerance : ℚ) (n : Nat) (error : ℚ) (h : error ≤ tolerance) :
    subdivisionLoop tolerance n error = 0 := by
  cases n with
  | zero => rfl
  | succ n => simp [subdivisionLoop, not_lt.mpr h]

/-- Counterexample for C7: at tolerance 0 the conic a = (0,0), b = (1,2), c = (10,4),
weight 3 has initial error 1, so `quadratics(0)` subdivides to level 5 and returns 64
points instead of the pair `[b, c]`. -/
theorem quadraticsWithin_zero_tolerance_splits :
    initialError Rat.sqrt ⟨⟨0, 0⟩, ⟨1, 2⟩, ⟨10, 4⟩, 3⟩ = 1 ∧
    subdivisionLevel Rat.sqrt ⟨⟨0, 0⟩, ⟨1, 2⟩, ⟨10, 4⟩, 3⟩ 0 = 5 ∧
    (quadraticsWithin Rat.sqrt ⟨⟨0, 0⟩, ⟨1, 2⟩, ⟨10, 4⟩, 3⟩ 0).length = 64 ∧
    quadraticsWithin Rat.sqrt ⟨⟨0, 0⟩, ⟨1, 2⟩, ⟨10, 4⟩, 3⟩ 0
      ≠ subdivide Rat.sqrt ⟨⟨0, 0⟩, ⟨1, 2⟩, ⟨10, 4⟩, 3⟩ 0 := by
  decide!

/-- C7 (amended): for every conic and every tolerance below 0, `quadratics(tolerance)`
returns `subdivide(0)`, the single pair `[b, c]`; at tolerance 0 it does so only when
the initial error estimate is not positive, and otherwise it returns `subdivide(5)`. -/
theorem quadraticsWithin_nonpositive (sqrt : ℚ → ℚ) (k : Conic) (tolerance : ℚ)
    (h : tolerance ≤ 0) :
    quadraticsWithin sqrt k tolerance
      = if tolerance = 0 ∧ 0 < initialError sqrt k then subdivide sqrt k 5
        else [k.b, k.c] := by
  rcases lt_or_eq_of_le h with hlt | heq
  · have h1 : ¬ tolerance ≥ 0 := not_le.mpr hlt
    have h2 : ¬ (tolerance = 0 ∧ 0 < initialError sqrt k) := fun e => (ne_of_lt hlt) e.1
    simp [quadraticsWithin, subdivisionLevel, h1, h2, subdivide]
  · subst heq
    by_cases he : 0 < initialError sqrt k
    · simp [quadraticsWithin, subdivisionLevel, he, subdivisionLoop_pos 5 _ he]
    · have h0 := subdivisionLoop_nonpos 0 5 _ (not_lt.mp he)
      simp [quadraticsWithin, subdivisionLevel, he, h0, subdivide]

/-- Witness for C7 (amended): on a conic whose error estimate is positive, a negative
tolerance gives the pair `[b, c]` and tolerance 0 gives `subdivide(5)`. -/
theorem quadraticsWithin_nonpositive_witness :
    quadraticsWithin Rat.sqrt ⟨⟨0, 0⟩, ⟨1, 2⟩, ⟨10, 4⟩, 3⟩ (-1) = [⟨1, 2⟩, ⟨10, 4⟩] ∧
    quadraticsWithin Rat.sqrt ⟨⟨0, 0⟩, ⟨1, 2⟩, ⟨10, 4⟩, 3⟩ 0
      = subdivide Rat.sqrt ⟨⟨0, 0⟩, ⟨1, 2⟩, ⟨10, 4⟩, 3⟩ 5 :=
  ⟨(quadraticsWithin_nonpositive Rat.sqrt ⟨⟨0, 0⟩, ⟨1, 2⟩, ⟨10, 4⟩, 3⟩ (-1) (by decide)).trans
      (by decide!),
    (quadraticsWithin_nonpositive Rat.sqrt ⟨⟨0, 0⟩, ⟨1, 2⟩, ⟨10, 4⟩, 3⟩ 0 (le_refl 0)).trans
      (by decide!)⟩

/-! ### subdivide and the weight 1 case -/

theorem subdivide_length (sqrt : ℚ → ℚ) (n : Nat) (k : Conic) :
    (subdivide sqrt k n).length = 2 ^ (n + 1) := by
  induction n generalizing k with
  | zero => rfl
  | succ n ih =>
    simp only [subdivide, List.length_append, ih]
    ring

theorem chop_second_end (sqrt : ℚ → ℚ) (k : Conic) : (chop sqrt k).2.c = k.c := rfl

theorem subdivide_getLast (sqrt : ℚ → ℚ) (n : Nat) (k : Conic) :
    (subdivide sqrt k n).getLast? = some k.c := by
  induction n generalizing k with
  | zero => rfl
  | succ n ih =>
    have hne : subdivide sqrt (chop sqrt k).2 n ≠ [] := by
      intro h
      have := ih (chop sqrt k).2
      rw [h] at this
      cases this
    rw [subdivide, List.getLast?_append_of_ne_nil _ hne, ih, chop_second_end]

theorem emplaceQuadratics_append (l m : List Vec2) (ql : List Command)
    (h : Path.emplaceQuadratics l = some ql) :
    Path.emplaceQuadratics (l ++ m) = (Path.emplaceQuadratics m).map (fun qm => ql ++ qm) := by
  induction l using Path.emplaceQuadratics.induct generalizing ql with
  | case1 =>
    cases h
    cases hm : Path.emplaceQuadratics m <;> simp [hm]
  | case2 x => cases h
  | case3 control point rest hrest ih =>
    simp [Path.emplaceQuadratics, hrest] at h
  | case4 control point rest out hrest ih =>
    simp only [Path.emplaceQuadratics, hrest, Option.some.injEq] at h
    subst h
    have e : control :: point :: rest ++ m = control :: point :: (rest ++ m) := rfl
    rw [e, Path.emplaceQuadratics, ih out hrest]
    cases hm : Path.emplaceQuadratics m <;> simp

theorem emplaceQuadratics_subdivide (sqrt : ℚ → ℚ) (n : Nat) (k : Conic) :
    ∃ qs, Path.emplaceQuadratics (subdivide sqrt k n) = some qs ∧ qs.length = 2 ^ n ∧
      ∀ q ∈ qs, q.type = CommandType.QUADRATIC := by
  induction n generalizing k with
  | zero => exact ⟨[Command.quadratic k.b k.c], rfl, rfl, by simp [Command.type]⟩
  | succ n ih =>
    obtain ⟨q1, h1, l1, t1⟩ := ih (chop sqrt k).1
    obtain ⟨q2, h2, l2, t2⟩ := ih (chop sqrt k).2
    refine ⟨q1 ++ q2, ?_, ?_, ?_⟩
    · rw [subdivide, emplaceQuadratics_append _ _ q1 h1, h2]
      rfl
    · rw [List.length_append, l1, l2]
      ring
    · intro q hq
      rcases List.mem_append.mp hq with h | h
      · exact t1 q h
      · exact t2 q h

/-- C27: `subdivide(0) = [b, c]`; `subdivide(n+1)` is `subdivide(n)` of the first
half of `chop()` followed by `subdivide(n)` of the second half; `subdivide(n)` has
`2^(n+1)` points, which pair up into `2^n` Quadratic commands, and its last point is
`c`; `quadratics()` is `subdivide(1)`, four points: the control and end of the first
half (the end being the chop midpoint, where the second half starts), then the control
of the second half and `c`. -/
theorem subdivide_spec (sqrt : ℚ → ℚ) (k : Conic) (n : Nat) :
    subdivide sqrt k 0 = [k.b, k.c] ∧
    subdivide sqrt k (n + 1)
      = subdivide sqrt (chop sqrt k).1 n ++ subdivide sqrt (chop sqrt k).2 n ∧
    (subdivide sqrt k n).length = 2 ^ (n + 1) ∧
    (∃ qs, Path.emplaceQuadratics (subdivide sqrt k n) = some qs ∧ qs.length = 2 ^ n ∧
      ∀ q ∈ qs, q.type = CommandType.QUADRATIC) ∧
    (subdivide sqrt k n).getLast? = some k.c ∧
    quadratics sqrt k = subdivide sqrt k 1 ∧
    (quadratics sqrt k).length = 4 ∧
    quadratics sqrt k = [(chop sqrt k).1.b, (chop sqrt k).1.c, (chop sqrt k).2.b, k.c] ∧
    (chop sqrt k).1.c = (chop sqrt k).2.a ∧
    Path.emplaceQuadratics (quadratics sqrt k)
      = some [Command.quadratic (chop sqrt k).1.b (chop sqrt k).1.c,
          Command.quadratic (chop sqrt k).2.b k.c] :=
  ⟨rfl, rfl, subdivide_length sqrt n k, emplaceQuadratics_subdivide sqrt n k,
    subdivide_getLast sqrt n k, rfl, rfl, rfl, rfl, rfl⟩


/-- C28: with weight 1 (and `sqrt 1 = 1`) `chop()` returns the de Casteljau halves
`Conic(a, (a+b)/2, (a+2b+c)/4, 1)` and `Conic((a+2b+c)/4, (b+c)/2, c, 1)`;
`quadratics()` lists their controls and ends, and the two Quadratic segments they
give trace the quadratic Bezier curve `Q` of `(a, b, c)`: the first at `u` is
`Q(u/2)`, the second at `u` is `Q((1+u)/2)`, for every `u`. -/
theorem chop_weight_one (sqrt : ℚ → ℚ) (hs : sqrt 1 = 1) (a b c : Vec2) :
    chop sqrt ⟨a, b, c, 1⟩
      = (⟨a, ⟨(a.x + b.x) / 2, (a.y + b.y) / 2⟩,
            ⟨(a.x + 2 * b.x + c.x) / 4, (a.y + 2 * b.y + c.y) / 4⟩, 1⟩,
          ⟨⟨(a.x + 2 * b.x + c.x) / 4, (a.y + 2 * b.y + c.y) / 4⟩,
            ⟨(b.x + c.x) / 2, (b.y + c.y) / 2⟩, c, 1⟩) ∧
    quadratics sqrt ⟨a, b, c, 1⟩
      = [⟨(a.x + b.x) / 2, (a.y + b.y) / 2⟩,
          ⟨(a.x + 2 * b.x + c.x) / 4, (a.y + 2 * b.y + c.y) / 4⟩,
          ⟨(b.x + c.x) / 2, (b.y + c.y) / 2⟩, c] ∧
    ∀ u : ℚ,
      Path.evaluateQuadraticAt a ⟨(a.x + b.x) / 2, (a.y + b.y) / 2⟩
          ⟨(a.x + 2 * b.x + c.x) / 4, (a.y + 2 * b.y + c.y) / 4⟩ u
        = Path.evaluateQuadraticAt a b c (u / 2) ∧
      Path.evaluateQuadraticAt ⟨(a.x + 2 * b.x + c.x) / 4, (a.y + 2 * b.y + c.y) / 4⟩
          ⟨(b.x + c.x) / 2, (b.y + c.y) / 2⟩ c u
        = Path.evaluateQuadraticAt a b c ((1 + u) / 2) := by
  have h2 : ((1 : ℚ) + 1) / 2 = 1 := by norm_num
  refine ⟨?_, ?_, ?_⟩
  · simp only [chop, h2, hs, Vec2.smul, Vec2.add, Vec2.sdiv, Prod.mk.injEq, Conic.mk.injEq,
      Vec2.mk.injEq]
    repeat' apply And.intro
    all_goals first | rfl | ring_nf
  · simp only [quadratics, subdivide, chop, Vec2.smul, Vec2.add, Vec2.sdiv, List.cons_append,
      List.nil_append, List.cons.injEq, Vec2.mk.injEq, and_true]
    repeat' apply And.intro
    all_goals first | rfl | ring_nf
  · intro u
    simp only [Path.evaluateQuadraticAt, Vec2.smul, Vec2.add, Vec2.mk.injEq]
    repeat' apply And.intro
    all_goals first | rfl | ring_nf

/-- Witness for C28: the conic `(0,0), (1,2), (2,0)` of weight 1, with the rational
square root. -/
theorem chop_weight_one_witness :
    chop Rat.sqrt ⟨⟨0, 0⟩, ⟨1, 2⟩, ⟨2, 0⟩, 1⟩
      = (⟨⟨0, 0⟩, ⟨1 / 2, 1⟩, ⟨1, 1⟩, 1⟩, ⟨⟨1, 1⟩, ⟨3 / 2, 1⟩, ⟨2, 0⟩, 1⟩) ∧
    quadratics Rat.sqrt ⟨⟨0, 0⟩, ⟨1, 2⟩, ⟨2, 0⟩, 1⟩ = [⟨1 / 2, 1⟩, ⟨1, 1⟩, ⟨3 / 2, 1⟩, ⟨2, 0⟩] ∧
    Path.evaluateQuadraticAt ⟨0, 0⟩ ⟨1 / 2, 1⟩ ⟨1, 1⟩ (1 / 2)
      = Path.evaluateQuadraticAt ⟨0, 0⟩ ⟨1, 2⟩ ⟨2, 0⟩ (1 / 4) := by
  have h := chop_weight_one Rat.sqrt (by decide!) ⟨0, 0⟩ ⟨1, 2⟩ ⟨2, 0⟩
  refine ⟨?_, ?_, ?_⟩
  · rw [h.1]; decide!
  · rw [h.2.1]; decide!
  · decide!

/-! ### The point count of quadratics(tolerance) -/

theorem subdivisionLoop_le (tolerance : ℚ) (n : Nat) (error : ℚ) :
    subdivisionLoop tolerance n error ≤ n := by
  induction n generalizing error with
  | zero => simp [subdivisionLoop]
  | succ n ih =>
    by_cases h : error > tolerance
    · have := ih (error * (1 / 4))
      simp only [subdivisionLoop, h, if_true]
      omega
    · simp [subdivisionLoop, h]

theorem subdivisionLoop_antitone (t1 t2 : ℚ) (h : t1 ≤ t2) (n : Nat) (error : ℚ) :
    subdivisionLoop t2 n error ≤ subdivisionLoop t1 n error := by
  induction n generalizing error with
  | zero => simp [subdivisionLoop]
  | succ n ih =>
    by_cases h2 : error > t2
    · have h1 : error > t1 := lt_of_le_of_lt h h2
      have := ih (error * (1 / 4))
      simp only [subdivisionLoop, h1, h2, if_true]
      omega
    · simp [subdivisionLoop, h2]

theorem subdivisionLevel_le_five (sqrt : ℚ → ℚ) (k : Conic) (tolerance : ℚ) :
    subdivisionLevel sqrt k tolerance ≤ 5 := by
  by_cases h : tolerance ≥ 0
  · simp only [subdivisionLevel, h, if_true]
    exact subdivisionLoop_le _ _ _
  · simp [subdivisionLevel, h]

theorem subdivisionLevel_antitone (sqrt : ℚ → ℚ) (k : Conic) (t1 t2 : ℚ) (h1 : 0 ≤ t1)
    (h12 : t1 ≤ t2) : subdivisionLevel sqrt k t2 ≤ subdivisionLevel sqrt k t1 := by
  have h2 : t2 ≥ 0 := le_trans h1 h12
  have h1' : t1 ≥ 0 := h1
  simp only [subdivisionLevel, h1', h2, if_true]
  exact subdivisionLoop_antitone t1 t2 h12 5 _

/-- C33: for every conic and all tolerances `0 ≤ t1 ≤ t2`, `quadratics(t2)` returns no
more points than `quadratics(t1)`; and for every tolerance `quadratics(tolerance)`
has `2^(n+1)` points for some level `n ≤ 5`, between 2 and 64 points, which pair up
into `2^n` Quadratic segments, between 1 and 32. Whatever `std::sqrt` returns. -/
theorem quadraticsWithin_count (sqrt : ℚ → ℚ) (k : Conic) (t1 t2 : ℚ) (h1 : 0 ≤ t1)
    (h12 : t1 ≤ t2) :
    (quadraticsWithin sqrt k t2).length ≤ (quadraticsWithin sqrt k t1).length ∧
    ∀ tolerance : ℚ, ∃ n, n ≤ 5 ∧
      (quadraticsWithin sqrt k tolerance).length = 2 ^ (n + 1) ∧
      2 ≤ (quadraticsWithin sqrt k tolerance).length ∧
      (quadraticsWithin sqrt k tolerance).length ≤ 64 ∧
      ∃ qs, Path.emplaceQuadratics (quadraticsWithin sqrt k tolerance) = some qs ∧
        qs.length = 2 ^ n ∧ 1 ≤ qs.length ∧ qs.length ≤ 32 := by
  constructor
  · simp only [quadraticsWithin, subdivide_length]
    exact Nat.pow_le_pow_right (by decide) (by
      have := subdivisionLevel_antitone sqrt k t1 t2 h1 h12
      omega)
  · intro tolerance
    have h5 := subdivisionLevel_le_five sqrt k tolerance
    obtain ⟨qs, hqs, hlen, _⟩ := emplaceQuadratics_subdivide sqrt
      (subdivisionLevel sqrt k tolerance) k
    have hp1 : 2 ^ (subdivisionLevel sqrt k tolerance + 1) ≤ 2 ^ (5 + 1) :=
      Nat.pow_le_pow_right (by decide) (by omega)
    have hp0 : 2 ^ (0 + 1) ≤ 2 ^ (subdivisionLevel sqrt k tolerance + 1) :=
      Nat.pow_le_pow_right (by decide) (by omega)
    have hq1 : 2 ^ subdivisionLevel sqrt k tolerance ≤ 2 ^ 5 :=
      Nat.pow_le_pow_right (by decide) h5
    have hq0 : 2 ^ 0 ≤ 2 ^ subdivisionLevel sqrt k tolerance :=
      Nat.pow_le_pow_right (by decide) (Nat.zero_le _)
    refine ⟨subdivisionLevel sqrt k tolerance, h5, ?_, ?_, ?_, qs, hqs, hlen, ?_, ?_⟩
    · simp only [quadraticsWithin, subdivide_length]
    · simp only [quadraticsWithin, subdivide_length]
      exact hp0
    · simp only [quadraticsWithin, subdivide_length]
      exact hp1
    · rw [hlen]; exact hq0
    · rw [hlen]; exact hq1

/-- Witness for C33: the conic `(0,0), (1,2), (10,4)` of weight 3 has error estimate
1; at tolerance `1/20` it is split into 16 points, at tolerance `1/2` into 4. -/
theorem quadraticsWithin_count_witness :
    (quadraticsWithin Rat.sqrt ⟨⟨0, 0⟩, ⟨1, 2⟩, ⟨10, 4⟩, 3⟩ (1 / 2)).length
      ≤ (quadraticsWithin Rat.sqrt ⟨⟨0, 0⟩, ⟨1, 2⟩, ⟨10, 4⟩, 3⟩ (1 / 20)).length ∧
    (quadraticsWithin Rat.sqrt ⟨⟨0, 0⟩, ⟨1, 2⟩, ⟨10, 4⟩, 3⟩ (1 / 2)).length = 4 ∧
    (quadraticsWithin Rat.sqrt ⟨⟨0, 0⟩, ⟨1, 2⟩, ⟨10, 4⟩, 3⟩ (1 / 20)).length = 16 :=
  ⟨(quadraticsWithin_count Rat.sqrt ⟨⟨0, 0⟩, ⟨1, 2⟩, ⟨10, 4⟩, 3⟩ (1 / 20) (1 / 2) (by decide!)
      (by decide!)).1, by decide!, by decide!⟩

end Conic

/-! ### Conic over an arbitrary scalar type -/

namespace ConicOver

/-- The rational embedding of `chop` is the instance at `ℚ` of the general one. -/
theorem chop_over (sqrt : ℚ → ℚ) (k : Conic) :
    (Conic.chop sqrt k).1.over = (chop sqrt k.over).1 ∧
    (Conic.chop sqrt k).2.over = (chop sqrt k.over).2 := ⟨rfl, rfl⟩

/-- The rational embedding of `subdivide` is the instance at `ℚ` of the general one. -/
theorem subdivide_over (sqrt : ℚ → ℚ) (k : Conic) (level : Nat) :
    (Conic.subdivide sqrt k level).map Vec2.over = subdivide sqrt k.over level := by
  induction level generalizing k with
  | zero => rfl
  | succ n ih =>
    simp only [Conic.subdivide, subdivide, List.map_append, ih]
    rfl

theorem subdivisionLoop_over (tolerance : ℚ) (n : Nat) (error : ℚ) :
    Conic.subdivisionLoop tolerance n error = subdivisionLoop tolerance n error := by
  induction n generalizing error with
  | zero => rfl
  | succ n ih => simp only [Conic.subdivisionLoop, subdivisionLoop, ih]

/-- The rational embedding of the subdivision level is the instance at `ℚ` of the
general one. -/
theorem subdivisionLevel_over (sqrt : ℚ → ℚ) (k : Conic) (tolerance : ℚ) :
    Conic.subdivisionLevel sqrt k tolerance = subdivisionLevel sqrt k.over tolerance := by
  simp only [Conic.subdivisionLevel, subdivisionLevel, subdivisionLoop_over]
  rfl

/-- C14: for every conic with weight `w > 0`, `chop()` returns exactly the pair
`Conic(a, (a + w b) s, mid, w')` and `Conic(mid, (w b + c) s, c, w')` with
`s = 1 / (1 + w)`, `w' = sqrt((1 + w) / 2)` and `mid = (a + 2 w b + c) s / 2`; the first
half starts at `a`, the second ends at `c`, they share `mid`, and `mid` is the value
of the original rational quadratic at parameter `1/2`. -/
theorem chop_spec {K : Type} [LinearOrderedField K] (sqrt : K → K) (k : ConicOver K)
    (hw : 0 < k.weight) :
    chop sqrt k
      = (⟨k.a, Vec2Over.smul (1 / (1 + k.weight)) (Vec2Over.add k.a (Vec2Over.smul k.weight k.b)),
            middle k, sqrt ((1 + k.weight) / 2)⟩,
          ⟨middle k,
            Vec2Over.smul (1 / (1 + k.weight)) (Vec2Over.add (Vec2Over.smul k.weight k.b) k.c),
            k.c, sqrt ((1 + k.weight) / 2)⟩) ∧
    (chop sqrt k).1.a = k.a ∧ (chop sqrt k).2.c = k.c ∧
    (chop sqrt k).1.c = (chop sqrt k).2.a ∧
    middle k = evaluateAt k (1 / 2) := by
  have hm : Vec2Over.sdiv
      (Vec2Over.smul (1 / (1 + k.weight))
        (Vec2Over.add (Vec2Over.add (Vec2Over.add k.a (Vec2Over.smul k.weight k.b))
          (Vec2Over.smul k.weight k.b)) k.c)) 2 = middle k := by
    simp only [middle, Vec2Over.sdiv, Vec2Over.smul, Vec2Over.add, Vec2Over.mk.injEq]
    constructor <;> ring
  have h1 : (1 : K) + k.weight ≠ 0 := by linarith
  refine ⟨?_, rfl, rfl, rfl, ?_⟩
  · simp only [chop, hm]
  · simp only [middle, evaluateAt, rationalQuadratic, Vec2Over.sdiv, Vec2Over.smul,
      Vec2Over.add, Vec2Over.mk.injEq]
    constructor <;> (field_simp; ring)

/-- Witness for C14: the conic `(0,0), (1,1), (2,0)` with weight 1 is chopped at
`mid = (1, 1/2)`, its point at parameter `1/2`. -/
theorem chop_spec_witness :
    middle (⟨⟨0, 0⟩, ⟨1, 1⟩, ⟨2, 0⟩, 1⟩ : ConicOver ℚ)
      = evaluateAt (⟨⟨0, 0⟩, ⟨1, 1⟩, ⟨2, 0⟩, 1⟩ : ConicOver ℚ) (1 / 2) ∧
    (chop Rat.sqrt (⟨⟨0, 0⟩, ⟨1, 1⟩, ⟨2, 0⟩, 1⟩ : ConicOver ℚ)).1.c = ⟨1, 1 / 2⟩ :=
  ⟨(chop_spec Rat.sqrt (⟨⟨0, 0⟩, ⟨1, 1⟩, ⟨2, 0⟩, 1⟩ : ConicOver ℚ) (by decide!)).2.2.2.2,
    by decide!⟩

theorem subdivisionLoop_spec {K : Type} [LinearOrderedField K] (tolerance : K) (n : Nat)
    (error : K) :
    subdivisionLoop tolerance n error ≤ n ∧
    (∀ m, m < subdivisionLoop tolerance n error → ¬ error / 4 ^ m ≤ tolerance) ∧
    (subdivisionLoop tolerance n error < n →
      error / 4 ^ subdivisionLoop tolerance n error ≤ tolerance) := by
  induction n generalizing error with
  | zero => simp [subdivisionLoop]
  | succ n ih =>
    by_cases h : error > tolerance
    · obtain ⟨h1, h2, h3⟩ := ih (error * (1 / 4))
      have e : ∀ m : Nat, error * (1 / 4) / 4 ^ m = error / 4 ^ (m + 1) := by
        intro m
        rw [pow_succ]
        field_simp
        left
        ring
      simp only [subdivisionLoop, h, if_true]
      refine ⟨by omega, ?_, ?_⟩
      · intro m hm
        cases m with
        | zero => simpa using h
        | succ m =>
          rw [← e m]
          exact h2 m (by omega)
      · intro hlt
        have := h3 (by omega)
        rw [e] at this
        rw [Nat.add_comm]
        exact this
    · simp only [subdivisionLoop, h, if_false]
      refine ⟨by omega, by simp, ?_⟩
      intro _
      simpa using not_lt.mp h

theorem initialError_eq_flatnessError {K : Type} [LinearOrderedField K] (sqrt : K → K)
    (k : ConicOver K) (h1 : IsSqrtAt sqrt (bendSq k)) (h2 : IsSqrtAt sqrt (errorSq k)) :
    initialError sqrt k = flatnessError sqrt k := by
  have he : initialError sqrt k = sqrt (errorSq k) := rfl
  rw [he, flatnessError]
  have hnn : 0 ≤ |(k.weight - 1) / (4 * (k.weight + 1))| * sqrt (bendSq k) :=
    mul_nonneg (abs_nonneg _) h1.1
  rw [← mul_self_inj_of_nonneg h2.1 hnn, h2.2]
  have hsq : |(k.weight - 1) / (4 * (k.weight + 1))| * sqrt (bendSq k) *
      (|(k.weight - 1) / (4 * (k.weight + 1))| * sqrt (bendSq k))
      = (|(k.weight - 1) / (4 * (k.weight + 1))| * |(k.weight - 1) / (4 * (k.weight + 1))|) *
        (sqrt (bendSq k) * sqrt (bendSq k)) := by ring
  rw [hsq, abs_mul_abs_self, h1.2]
  simp only [errorSq, bendSq]
  ring

/-- The level `quadratics(tolerance)` settles on, over any ordered field, when `sqrt`
returns the non-negative square root at the two arguments involved. -/
theorem quadraticsWithin_level_of_sqrt {K : Type} [LinearOrderedField K] (sqrt : K → K)
    (k : ConicOver K) (tolerance : K) (ht : 0 ≤ tolerance)
    (h1 : IsSqrtAt sqrt (bendSq k)) (h2 : IsSqrtAt sqrt (errorSq k)) :
    quadraticsWithin sqrt k tolerance = subdivide sqrt k (subdivisionLevel sqrt k tolerance) ∧
    subdivisionLevel sqrt k tolerance ≤ 5 ∧
    (∀ m, m < subdivisionLevel sqrt k tolerance →
      ¬ flatnessError sqrt k / 4 ^ m ≤ tolerance) ∧
    (subdivisionLevel sqrt k tolerance < 5 →
      flatnessError sqrt k / 4 ^ subdivisionLevel sqrt k tolerance ≤ tolerance) := by
  have hl : subdivisionLevel sqrt k tolerance
      = subdivisionLoop tolerance 5 (flatnessError sqrt k) := by
    simp [subdivisionLevel, ht, initialError_eq_flatnessError sqrt k h1 h2]
  rw [hl]
  exact ⟨by rw [quadraticsWithin, hl], subdivisionLoop_spec tolerance 5 _⟩

/-- The rational instance, evaluated: the conic `(0,0), (1,2), (10,4)` with weight 3
has error estimate 1 and, at tolerance 1/20, settles on level 3 (64 > 20 >= 16). -/
theorem quadraticsWithin_level_example :
    subdivisionLevel Rat.sqrt (⟨⟨0, 0⟩, ⟨1, 2⟩, ⟨10, 4⟩, 3⟩ : ConicOver ℚ) (1 / 20) = 3 ∧
    flatnessError Rat.sqrt (⟨⟨0, 0⟩, ⟨1, 2⟩, ⟨10, 4⟩, 3⟩ : ConicOver ℚ) / 4 ^ 3 ≤ 1 / 20 :=
  ⟨by decide!,
    by
      have h := (quadraticsWithin_level_of_sqrt Rat.sqrt
        (⟨⟨0, 0⟩, ⟨1, 2⟩, ⟨10, 4⟩, 3⟩ : ConicOver ℚ) (1 / 20) (by decide!)
        ⟨by decide!, by decide!⟩ ⟨by decide!, by decide!⟩).2.2.2
      have e : subdivisionLevel Rat.sqrt (⟨⟨0, 0⟩, ⟨1, 2⟩, ⟨10, 4⟩, 3⟩ : ConicOver ℚ) (1 / 20)
          = 3 := by decide!
      rw [e] at h
      exact h (by decide)⟩

theorem isSqrtAt_real (x : ℝ) (hx : 0 ≤ x) : IsSqrtAt Real.sqrt x :=
  ⟨Real.sqrt_nonneg x, Real.mul_self_sqrt hx⟩

/-- C16: for every conic and every tolerance `>= 0` (exact arithmetic, `sqrt` the real
square root), `quadratics(tolerance)` returns `subdivide(n)` where, for
`err = |(w-1)/(4(w+1))| * ‖a - 2b + c‖`, the level `n` is at most 5, no level below `n`
has `err / 4^m <= tolerance`, and `err / 4^n <= tolerance` unless `n = 5`: `n` is the
least such level in `0..5`, and 5 when there is none. -/
theorem quadraticsWithin_level (k : ConicOver ℝ) (tolerance : ℝ) (ht : 0 ≤ tolerance) :
    quadraticsWithin Real.sqrt k tolerance
      = subdivide Real.sqrt k (subdivisionLevel Real.sqrt k tolerance) ∧
    subdivisionLevel Real.sqrt k tolerance ≤ 5 ∧
    (∀ m, m < subdivisionLevel Real.sqrt k tolerance →
      ¬ flatnessError Real.sqrt k / 4 ^ m ≤ tolerance) ∧
    (subdivisionLevel Real.sqrt k tolerance < 5 →
      flatnessError Real.sqrt k / 4 ^ subdivisionLevel Real.sqrt k tolerance ≤ tolerance) :=
  quadraticsWithin_level_of_sqrt Real.sqrt k tolerance ht
    (isSqrtAt_real _ (by unfold bendSq; positivity))
    (isSqrtAt_real _ (by
      unfold errorSq
      exact add_nonneg (mul_self_nonneg _) (mul_self_nonneg _)))

/-- Witness for C16: the real conic `(0,0), (1,2), (10,4)` with weight 3 at
tolerance 1/20. -/
theorem quadraticsWithin_level_witness :
    (0 : ℝ) ≤ 1 / 20 ∧
    subdivisionLevel Real.sqrt (⟨⟨0, 0⟩, ⟨1, 2⟩, ⟨10, 4⟩, 3⟩ : ConicOver ℝ) (1 / 20) ≤ 5 :=
  ⟨by norm_num,
    (quadraticsWithin_level (⟨⟨0, 0⟩, ⟨1, 2⟩, ⟨10, 4⟩, 3⟩ : ConicOver ℝ) (1 / 20)
      (by norm_num)).2.1⟩

theorem rationalQuadratic_den_pos {K : Type} [LinearOrderedField K] (w t : K) (hw : 0 < w)
    (h0 : 0 ≤ t) (h1 : t ≤ 1) : 0 < (1 - t) ^ 2 + 2 * t * (1 - t) * w + t ^ 2 := by
  have hs : 0 ≤ 1 - t := by linarith
  have e1 : 0 ≤ 2 * t * (1 - t) * w :=
    mul_nonneg (mul_nonneg (mul_nonneg (by norm_num) h0) hs) (le_of_lt hw)
  have e2 : 0 < (1 - t) ^ 2 + t ^ 2 := by
    nlinarith [sq_nonneg (1 - t), sq_nonneg t, sq_nonneg (1 - 2 * t)]
  linarith

/-- One coordinate of the first half at `u` is the original coordinate at
`t = u / (2 (u + r (1 - u)))`, where `r` is the square root of `(1 + w) / 2`. -/
theorem rationalQuadratic_first_half {K : Type} [LinearOrderedField K] (a b c w r u : K)
    (hr : r * r = (1 + w) / 2) (hrpos : 0 < r) (hw : 0 < w) (hu0 : 0 ≤ u) (hu1 : u ≤ 1) :
    rationalQuadratic a (1 / (1 + w) * (a + w * b))
        (1 / (1 + w) * (a + w * b + w * b + c) / 2) r u
      = rationalQuadratic a b c w (u / (2 * (u + r * (1 - u)))) := by
  have hwr : w = 2 * r * r - 1 := by linarith
  subst hwr
  have hq : 0 < u + r * (1 - u) := by
    nlinarith [mul_nonneg (le_of_lt hrpos) (sub_nonneg.mpr hu1)]
  have hrr : (1 : K) + (2 * r * r - 1) ≠ 0 := by nlinarith
  have ht0 : 0 ≤ u / (2 * (u + r * (1 - u))) := by positivity
  have ht1 : u / (2 * (u + r * (1 - u))) ≤ 1 := by
    rw [div_le_one (by positivity)]
    nlinarith [mul_nonneg (le_of_lt hrpos) (sub_nonneg.mpr hu1)]
  have hd1 := rationalQuadratic_den_pos r u hrpos hu0 hu1
  have hd2 := rationalQuadratic_den_pos (2 * r * r - 1) _ hw ht0 ht1
  unfold rationalQuadratic
  rw [div_eq_div_iff (ne_of_gt hd1) (ne_of_gt hd2)]
  field_simp
  ring

/-- One coordinate of the second half at `u` is the original coordinate at
`t = (q + u r) / (2 q)` with `q = u r + (1 - u)`. -/
theorem rationalQuadratic_second_half {K : Type} [LinearOrderedField K] (a b c w r u : K)
    (hr : r * r = (1 + w) / 2) (hrpos : 0 < r) (hw : 0 < w) (hu0 : 0 ≤ u) (hu1 : u ≤ 1) :
    rationalQuadratic (1 / (1 + w) * (a + w * b + w * b + c) / 2)
        (1 / (1 + w) * (w * b + c)) c r u
      = rationalQuadratic a b c w ((u * r + (1 - u) + u * r) / (2 * (u * r + (1 - u)))) := by
  have hwr : w = 2 * r * r - 1 := by linarith
  subst hwr
  have hq : 0 < u * r + (1 - u) := by nlinarith [mul_nonneg hu0 (le_of_lt hrpos)]
  have hrr : (1 : K) + (2 * r * r - 1) ≠ 0 := by nlinarith
  have hur : 0 ≤ u * r := mul_nonneg hu0 (le_of_lt hrpos)
  have ht0 : 0 ≤ (u * r + (1 - u) + u * r) / (2 * (u * r + (1 - u))) := by
    apply div_nonneg <;> linarith
  have ht1 : (u * r + (1 - u) + u * r) / (2 * (u * r + (1 - u))) ≤ 1 := by
    rw [div_le_one (by positivity)]
    linarith
  have hd1 := rationalQuadratic_den_pos r u hrpos hu0 hu1
  have hd2 := rationalQuadratic_den_pos (2 * r * r - 1) _ hw ht0 ht1
  unfold rationalQuadratic
  rw [div_eq_div_iff (ne_of_gt hd1) (ne_of_gt hd2)]
  field_simp
  ring

theorem evaluateAt_first_half {K : Type} [LinearOrderedField K] (sqrt : K → K)
    (k : ConicOver K) (hw : 0 < k.weight)
    (hs : 0 < sqrt ((1 + k.weight) / 2) ∧
      sqrt ((1 + k.weight) / 2) * sqrt ((1 + k.weight) / 2) = (1 + k.weight) / 2)
    (u : K) (hu0 : 0 ≤ u) (hu1 : u ≤ 1) :
    evaluateAt (chop sqrt k).1 u
      = evaluateAt k (u / (2 * (u + sqrt ((1 + k.weight) / 2) * (1 - u)))) := by
  apply Vec2Over.ext
  · exact rationalQuadratic_first_half k.a.x k.b.x k.c.x k.weight _ u hs.2 hs.1 hw hu0 hu1
  · exact rationalQuadratic_first_half k.a.y k.b.y k.c.y k.weight _ u hs.2 hs.1 hw hu0 hu1

theorem evaluateAt_second_half {K : Type} [LinearOrderedField K] (sqrt : K → K)
    (k : ConicOver K) (hw : 0 < k.weight)
    (hs : 0 < sqrt ((1 + k.weight) / 2) ∧
      sqrt ((1 + k.weight) / 2) * sqrt ((1 + k.weight) / 2) = (1 + k.weight) / 2)
    (u : K) (hu0 : 0 ≤ u) (hu1 : u ≤ 1) :
    evaluateAt (chop sqrt k).2 u
      = evaluateAt k ((u * sqrt ((1 + k.weight) / 2) + (1 - u) + u * sqrt ((1 + k.weight) / 2)) /
          (2 * (u * sqrt ((1 + k.weight) / 2) + (1 - u)))) := by
  apply Vec2Over.ext
  · exact rationalQuadratic_second_half k.a.x k.b.x k.c.x k.weight _ u hs.2 hs.1 hw hu0 hu1
  · exact rationalQuadratic_second_half k.a.y k.b.y k.c.y k.weight _ u hs.2 hs.1 hw hu0 hu1

theorem param_first_inverse {K : Type} [LinearOrderedField K] (r t : K) (hrpos : 0 < r)
    (ht0 : 0 ≤ t) (ht1 : t ≤ 1 / 2) :
    0 ≤ 2 * r * t / (1 - 2 * t + 2 * r * t) ∧ 2 * r * t / (1 - 2 * t + 2 * r * t) ≤ 1 ∧
    2 * r * t / (1 - 2 * t + 2 * r * t) /
      (2 * (2 * r * t / (1 - 2 * t + 2 * r * t) +
        r * (1 - 2 * r * t / (1 - 2 * t + 2 * r * t)))) = t := by
  have hrt : 0 ≤ r * t := mul_nonneg (le_of_lt hrpos) ht0
  have hd : 0 < 1 - 2 * t + 2 * r * t := by nlinarith
  have hne : 1 - 2 * t + 2 * r * t ≠ 0 := ne_of_gt hd
  have hrne : r ≠ 0 := ne_of_gt hrpos
  have hq : 2 * r * t / (1 - 2 * t + 2 * r * t) +
      r * (1 - 2 * r * t / (1 - 2 * t + 2 * r * t)) = r / (1 - 2 * t + 2 * r * t) := by
    field_simp
    ring
  refine ⟨div_nonneg (by linarith) (le_of_lt hd), ?_, ?_⟩
  · rw [div_le_one hd]
    linarith
  · rw [hq]
    field_simp

theorem param_second_inverse {K : Type} [LinearOrderedField K] (r t : K) (hrpos : 0 < r)
    (ht0 : 1 / 2 ≤ t) (ht1 : t ≤ 1) :
    0 ≤ (2 * t - 1) / ((2 * t - 1) + r * (2 - 2 * t)) ∧
    (2 * t - 1) / ((2 * t - 1) + r * (2 - 2 * t)) ≤ 1 ∧
    ((2 * t - 1) / ((2 * t - 1) + r * (2 - 2 * t)) * r +
        (1 - (2 * t - 1) / ((2 * t - 1) + r * (2 - 2 * t))) +
        (2 * t - 1) / ((2 * t - 1) + r * (2 - 2 * t)) * r) /
      (2 * ((2 * t - 1) / ((2 * t - 1) + r * (2 - 2 * t)) * r +
        (1 - (2 * t - 1) / ((2 * t - 1) + r * (2 - 2 * t))))) = t := by
  have hrt : 0 ≤ r * (2 - 2 * t) := mul_nonneg (le_of_lt hrpos) (by linarith)
  have hd : 0 < (2 * t - 1) + r * (2 - 2 * t) := by nlinarith
  have hne : (2 * t - 1) + r * (2 - 2 * t) ≠ 0 := ne_of_gt hd
  have hrne : r ≠ 0 := ne_of_gt hrpos
  have hq : (2 * t - 1) / ((2 * t - 1) + r * (2 - 2 * t)) * r +
      (1 - (2 * t - 1) / ((2 * t - 1) + r * (2 - 2 * t))) = r / ((2 * t - 1) + r * (2 - 2 * t)) := by
    field_simp
    ring
  refine ⟨div_nonneg (by linarith) (le_of_lt hd), ?_, ?_⟩
  · rw [div_le_one hd]
    linarith
  · rw [hq]
    field_simp
    ring

/-- Curve preservation over any ordered field in which `sqrt` returns the positive
square root of `(1 + w) / 2`: each half of `chop()` traces exactly its half of the
original conic. -/
theorem chop_traces_curve_of_sqrt {K : Type} [LinearOrderedField K] (sqrt : K → K)
    (k : ConicOver K) (hw : 0 < k.weight)
    (hs : 0 < sqrt ((1 + k.weight) / 2) ∧
      sqrt ((1 + k.weight) / 2) * sqrt ((1 + k.weight) / 2) = (1 + k.weight) / 2) :
    (∀ u, 0 ≤ u → u ≤ 1 →
      ∃ t, 0 ≤ t ∧ t ≤ 1 / 2 ∧ evaluateAt (chop sqrt k).1 u = evaluateAt k t) ∧
    (∀ u, 0 ≤ u → u ≤ 1 →
      ∃ t, 1 / 2 ≤ t ∧ t ≤ 1 ∧ evaluateAt (chop sqrt k).2 u = evaluateAt k t) ∧
    (∀ t, 0 ≤ t → t ≤ 1 / 2 →
      ∃ u, 0 ≤ u ∧ u ≤ 1 ∧ evaluateAt (chop sqrt k).1 u = evaluateAt k t) ∧
    (∀ t, 1 / 2 ≤ t → t ≤ 1 →
      ∃ u, 0 ≤ u ∧ u ≤ 1 ∧ evaluateAt (chop sqrt k).2 u = evaluateAt k t) := by
  obtain ⟨hrpos, hr⟩ := hs
  generalize hrdef : sqrt ((1 + k.weight) / 2) = r at hrpos hr
  have first := fun u hu0 hu1 =>
    evaluateAt_first_half sqrt k hw (by rw [hrdef]; exact ⟨hrpos, hr⟩) u hu0 hu1
  have second := fun u hu0 hu1 =>
    evaluateAt_second_half sqrt k hw (by rw [hrdef]; exact ⟨hrpos, hr⟩) u hu0 hu1
  rw [hrdef] at first second
  refine ⟨?_, ?_, ?_, ?_⟩
  · intro u hu0 hu1
    have hq : 0 < u + r * (1 - u) := by
      nlinarith [mul_nonneg (le_of_lt hrpos) (sub_nonneg.mpr hu1)]
    refine ⟨_, by positivity, ?_, first u hu0 hu1⟩
    rw [div_le_iff₀ (by positivity)]
    nlinarith [mul_nonneg (le_of_lt hrpos) (sub_nonneg.mpr hu1)]
  · intro u hu0 hu1
    have hur : 0 ≤ u * r := mul_nonneg hu0 (le_of_lt hrpos)
    have hq : 0 < u * r + (1 - u) := by nlinarith
    refine ⟨_, ?_, ?_, second u hu0 hu1⟩
    · rw [le_div_iff₀ (by positivity)]
      linarith
    · rw [div_le_one (by positivity)]
      linarith
  · intro t ht0 ht1
    obtain ⟨hu0, hu1, he⟩ := param_first_inverse r t hrpos ht0 ht1
    exact ⟨_, hu0, hu1, by rw [first _ hu0 hu1, he]⟩
  · intro t ht0 ht1
    obtain ⟨hu0, hu1, he⟩ := param_second_inverse r t hrpos ht0 ht1
    exact ⟨_, hu0, hu1, by rw [second _ hu0 hu1, he]⟩

/-- C15: curve preservation under subdivision, over the reals. For every conic with
weight in `(0, ∞)`, either half returned by `chop()`, evaluated as a rational
quadratic with its own weight at any `u` in `[0, 1]` (in particular at its midpoint
`u = 1/2`), gives a point the original conic takes at some `t` in `[0, 1/2]` for the
first half and in `[1/2, 1]` for the second; and every point of the original conic on
`[0, 1/2]`, respectively `[1/2, 1]`, is taken by the first, respectively second
half. -/
theorem chop_preserves_curve (k : ConicOver ℝ) (hw : 0 < k.weight) :
    (∀ u, 0 ≤ u → u ≤ 1 →
      ∃ t, 0 ≤ t ∧ t ≤ 1 / 2 ∧ evaluateAt (chop Real.sqrt k).1 u = evaluateAt k t) ∧
    (∀ u, 0 ≤ u → u ≤ 1 →
      ∃ t, 1 / 2 ≤ t ∧ t ≤ 1 ∧ evaluateAt (chop Real.sqrt k).2 u = evaluateAt k t) ∧
    (∀ t, 0 ≤ t → t ≤ 1 / 2 →
      ∃ u, 0 ≤ u ∧ u ≤ 1 ∧ evaluateAt (chop Real.sqrt k).1 u = evaluateAt k t) ∧
    (∀ t, 1 / 2 ≤ t → t ≤ 1 →
      ∃ u, 0 ≤ u ∧ u ≤ 1 ∧ evaluateAt (chop Real.sqrt k).2 u = evaluateAt k t) := by
  have hm : 0 < (1 + k.weight) / 2 := by positivity
  exact chop_traces_curve_of_sqrt Real.sqrt k hw
    ⟨Real.sqrt_pos.mpr hm, Real.mul_self_sqrt (le_of_lt hm)⟩

/-- Witness for C15: both halves of the real conic `(0,0), (1,1), (2,0)` with weight 7,
evaluated at their midpoints. -/
theorem chop_preserves_curve_witness :
    (∃ t : ℝ, 0 ≤ t ∧ t ≤ 1 / 2 ∧
      evaluateAt (chop Real.sqrt (⟨⟨0, 0⟩, ⟨1, 1⟩, ⟨2, 0⟩, 7⟩ : ConicOver ℝ)).1 (1 / 2)
        = evaluateAt (⟨⟨0, 0⟩, ⟨1, 1⟩, ⟨2, 0⟩, 7⟩ : ConicOver ℝ) t) ∧
    (∃ t : ℝ, 1 / 2 ≤ t ∧ t ≤ 1 ∧
      evaluateAt (chop Real.sqrt (⟨⟨0, 0⟩, ⟨1, 1⟩, ⟨2, 0⟩, 7⟩ : ConicOver ℝ)).2 (1 / 2)
        = evaluateAt (⟨⟨0, 0⟩, ⟨1, 1⟩, ⟨2, 0⟩, 7⟩ : ConicOver ℝ) t) :=
  ⟨(chop_preserves_curve (⟨⟨0, 0⟩, ⟨1, 1⟩, ⟨2, 0⟩, 7⟩ : ConicOver ℝ)
      (by norm_num)).1 (1 / 2) (by norm_num) (by norm_num),
    (chop_preserves_curve (⟨⟨0, 0⟩, ⟨1, 1⟩, ⟨2, 0⟩, 7⟩ : ConicOver ℝ)
      (by norm_num)).2.1 (1 / 2) (by norm_num) (by norm_num)⟩

/-- The rational instance of curve preservation, evaluated: with weight 7 the halves
have weight `sqrt 4 = 2`, and the first half at `u = 1/2` is the original conic at
`t = 1/6`. -/
theorem chop_first_half_example :
    evaluateAt (chop Rat.sqrt (⟨⟨0, 0⟩, ⟨1, 1⟩, ⟨2, 0⟩, 7⟩ : ConicOver ℚ)).1 (1 / 2)
      = evaluateAt (⟨⟨0, 0⟩, ⟨1, 1⟩, ⟨2, 0⟩, 7⟩ : ConicOver ℚ) (1 / 6) := by
  decide!

end ConicOver

/-! ### The transforms keep a path well-formed -/

namespace Path

theorem wellFormed_cons_move (p0 : Vec2) (out : List Command) (h : NoClose out.dropLast) :
    wellFormed (Command.move p0 :: out) = true := by
  rw [wellFormed_iff]
  refine ⟨rfl, ?_⟩
  cases out with
  | nil => intro c hc; simp at hc
  | cons d ds =>
    rw [List.dropLast_cons_of_ne_nil (by simp)]
    exact noClose_cons.mpr ⟨by simp [Command.type], h⟩

theorem noClose_dropLast_of_noClose {l : List Command} (h : NoClose l) : NoClose l.dropLast :=
  fun c hc => h c (List.mem_of_mem_dropLast hc)

theorem reverse_wellFormed (p : Path) (hw : wellFormed p = true) :
    ∃ q, reverse p = some q ∧ wellFormed q = true ∧
      q.head?.map Command.type = p.head?.map Command.type := by
  rcases wellFormed_decompose p hw with rfl | ⟨p0, body, tail, rfl, hb, ht⟩
  · exact ⟨[], rfl, rfl, rfl⟩
  · refine ⟨_, reverse_eq_mirrorAll p0 body tail hb ht, ?_, rfl⟩
    apply wellFormed_cons_move
    have hm := noClose_mirrorAll p0 body.reverse (noClose_reverse.mpr hb)
    rcases ht with rfl | rfl
    · rw [List.append_nil]
      exact noClose_dropLast_of_noClose hm
    · rw [List.dropLast_concat]
      exact hm

theorem elevateCommand_type_close (a : Vec2) (c : Command)
    (h : c.type ≠ CommandType.CLOSE) : (elevateCommand a c).type ≠ CommandType.CLOSE := by
  cases c <;> simp_all [elevateCommand, Command.type]

theorem noClose_dropLast_elevated (a : Vec2) (l : List Command) (h : NoClose l.dropLast) :
    NoClose (elevated a l).dropLast := by
  induction l generalizing a with
  | nil => intro c hc; simp [elevated] at hc
  | cons c l ih =>
    cases l with
    | nil => intro d hd; simp [elevated] at hd
    | cons d ds =>
      have hc : c.type ≠ CommandType.CLOSE := noClose_dropLast_head h
      have ht := ih (anchorOf c) (noClose_dropLast_tail h)
      rw [elevated]
      rw [elevated] at ht
      rw [elevated, List.dropLast_cons_of_ne_nil (by simp)]
      exact noClose_cons.mpr ⟨elevateCommand_type_close a c hc, ht⟩

theorem convertQuadraticsToCubics_wellFormed (p : Path) (hne : p ≠ [])
    (hw : wellFormed p = true) :
    ∃ q changed, convertQuadraticsToCubics p = some (q, changed) ∧ wellFormed q = true ∧
      q.head?.map Command.type = some CommandType.MOVE := by
  cases p with
  | nil => exact absurd rfl hne
  | cons first rest =>
    obtain ⟨hm, hn⟩ := (wellFormed_iff _).mp hw
    obtain ⟨p0, rfl⟩ := point_of_move (firstIsMove_type hm)
    have hr : NoClose rest.dropLast := noClose_dropLast_tail hn
    refine ⟨Command.move p0 :: elevated p0 rest,
      false || rest.any (fun c => decide (c.type = CommandType.QUADRATIC)), ?_, ?_, rfl⟩
    · simp only [convertQuadraticsToCubics,
        quadraticsToCubicsLoop_eq rest hr (Command.move p0) p0 rfl false]
    · exact wellFormed_cons_move p0 _ (noClose_dropLast_elevated p0 rest hr)

theorem conicsToQuadraticsLoop_step (method : Conic → List Vec2) (previous : Command)
    (pa : Vec2) (hp : previous.point = some pa) (b c : Vec2) (w : ℚ) (rest : List Command)
    (changed : Bool) (qs : List Command)
    (hqs : emplaceQuadratics (method ⟨pa, b, c, w⟩) = some qs) :
    conicsToQuadraticsLoop method previous (Command.conic b c w :: rest) changed
      = match conicsToQuadraticsLoop method (qs.getLastD previous) rest true with
        | none => none
        | some (out, ch) => some (qs ++ out, ch) := by
  simp only [conicsToQuadraticsLoop, Command.type, ne_eq, not_true_eq_false, if_false, hp]
  show (match emplaceQuadratics (method ⟨pa, b, c, w⟩) with
    | none => none
    | some quads =>
      match conicsToQuadraticsLoop method (quads.getLastD previous) rest true with
      | none => none
      | some (out, ch) => some (quads ++ out, ch)) = _
  rw [hqs]

theorem conicsToQuadraticsLoop_other (method : Conic → List Vec2) (previous c : Command)
    (hc : c.type ≠ CommandType.CONIC) (rest : List Command) (changed : Bool) :
    conicsToQuadraticsLoop method previous (c :: rest) changed
      = match conicsToQuadraticsLoop method c rest changed with
        | none => none
        | some (out, ch) => some (c :: out, ch) := by
  rw [conicsToQuadraticsLoop, if_pos hc]

theorem conicsToQuadraticsLoop_shape (method : Conic → List Vec2)
    (hmethod : ∀ k, ∃ qs, emplaceQuadratics (method k) = some qs ∧
      ∀ q ∈ qs, q.type = CommandType.QUADRATIC)
    (rest : List Command) (hn : NoClose rest.dropLast) (previous : Command)
    (hp : previous.type ≠ CommandType.CLOSE) (changed : Bool) :
    ∃ out ch, conicsToQuadraticsLoop method previous rest changed = some (out, ch) ∧
      NoClose out.dropLast := by
  induction rest generalizing previous changed with
  | nil => exact ⟨[], changed, rfl, by intro c hc; simp at hc⟩
  | cons c rest ih =>
    have hrest : NoClose rest.dropLast := noClose_dropLast_tail hn
    by_cases hc : c.type = CommandType.CONIC
    · obtain ⟨b, p, w, rfl⟩ : ∃ b p w, c = Command.conic b p w := by
        cases c <;> simp_all [Command.type]
      obtain ⟨pa, hpa⟩ : ∃ pa, previous.point = some pa := ⟨_, point_eq_anchorOf hp⟩
      obtain ⟨qs, hqs, hqt⟩ := hmethod ⟨pa, b, p, w⟩
      have hprev : (qs.getLastD previous).type ≠ CommandType.CLOSE := by
        cases hq : qs.getLast? with
        | none =>
          rw [List.getLastD_eq_getLast?, hq]
          exact hp
        | some z =>
          rw [List.getLastD_eq_getLast?, hq, Option.getD_some,
            hqt z (List.mem_of_getLast?_eq_some hq)]
          decide
      obtain ⟨out, ch, hout, hno⟩ := ih hrest (qs.getLastD previous) hprev true
      refine ⟨qs ++ out, ch, ?_, ?_⟩
      · rw [conicsToQuadraticsLoop_step method previous pa hpa b p w rest changed qs hqs, hout]
      · have hq : NoClose qs := fun q hq => by rw [hqt q hq]; decide
        cases out with
        | nil =>
          rw [List.append_nil]
          exact noClose_dropLast_of_noClose hq
        | cons d ds =>
          rw [List.dropLast_append_of_ne_nil _ (by simp)]
          exact noClose_append hq hno
    · cases rest with
      | nil =>
        refine ⟨[c], changed, ?_, by intro d hd; simp at hd⟩
        rw [conicsToQuadraticsLoop_other method previous c hc]
        rfl
      | cons d ds =>
        have hcc : c.type ≠ CommandType.CLOSE := noClose_dropLast_head hn
        obtain ⟨out, ch, hout, hno⟩ := ih hrest c hcc changed
        refine ⟨c :: out, ch, ?_, ?_⟩
        · rw [conicsToQuadraticsLoop_other method previous c hc, hout]
        · cases out with
          | nil => intro e he; simp at he
          | cons e es =>
            rw [List.dropLast_cons_of_ne_nil (by simp)]
            exact noClose_cons.mpr ⟨hcc, hno⟩

theorem convertConicsWith_wellFormed (method : Conic → List Vec2)
    (hmethod : ∀ k, ∃ qs, emplaceQuadratics (method k) = some qs ∧
      ∀ q ∈ qs, q.type = CommandType.QUADRATIC)
    (p : Path) (hne : p ≠ []) (hw : wellFormed p = true) :
    ∃ q changed, convertConicsWith method p = some (q, changed) ∧ wellFormed q = true ∧
      q.head?.map Command.type = some CommandType.MOVE := by
  cases p with
  | nil => exact absurd rfl hne
  | cons first rest =>
    obtain ⟨hm, hn⟩ := (wellFormed_iff _).mp hw
    obtain ⟨p0, rfl⟩ := point_of_move (firstIsMove_type hm)
    obtain ⟨out, ch, hout, hno⟩ := conicsToQuadraticsLoop_shape method hmethod rest
      (noClose_dropLast_tail hn) (Command.move p0) (by simp [Command.type]) false
    exact ⟨Command.move p0 :: out, ch, by simp only [convertConicsWith, hout],
      wellFormed_cons_move p0 out hno, rfl⟩

theorem subdivide_pairs (sqrt : ℚ → ℚ) (n : Nat) (k : Conic) :
    ∃ qs, emplaceQuadratics (Conic.subdivide sqrt k n) = some qs ∧
      ∀ q ∈ qs, q.type = CommandType.QUADRATIC := by
  obtain ⟨qs, h1, _, h2⟩ := Conic.emplaceQuadratics_subdivide sqrt n k
  exact ⟨qs, h1, h2⟩

theorem convertConicsToQuadratics_wellFormed (sqrt : ℚ → ℚ) (p : Path) (hne : p ≠ [])
    (hw : wellFormed p = true) :
    ∃ q changed, convertConicsToQuadratics sqrt p = some (q, changed) ∧
      wellFormed q = true ∧ q.head?.map Command.type = some CommandType.MOVE :=
  convertConicsWith_wellFormed (Conic.quadratics sqrt) (fun k => subdivide_pairs sqrt 1 k)
    p hne hw

theorem convertConicsToQuadraticsWithin_wellFormed (sqrt : ℚ → ℚ) (tolerance : ℚ) (p : Path)
    (hne : p ≠ []) (hw : wellFormed p = true) :
    ∃ q changed, convertConicsToQuadraticsWithin sqrt tolerance p = some (q, changed) ∧
      wellFormed q = true ∧ q.head?.map Command.type = some CommandType.MOVE :=
  convertConicsWith_wellFormed (fun k => Conic.quadraticsWithin sqrt k tolerance)
    (fun k => subdivide_pairs sqrt (Conic.subdivisionLevel sqrt k tolerance) k) p hne hw

theorem finishRun_type (head : Command) (last : Vec2) (merged : Bool) :
    (finishRun head last merged).type = head.type := by
  cases merged <;> cases head <;> rfl

theorem mergeFrom_noClose (equals : Vec2 → Vec2 → ℚ → Bool) (threshold : ℚ)
    (cs : List Command) (hcs : NoClose cs) (head : Command)
    (hh : head.type ≠ CommandType.CLOSE) (last : Vec2) (merged : Bool) :
    NoClose (mergeFrom equals threshold head last merged cs) := by
  induction cs generalizing head last merged with
  | nil =>
    intro c hc
    simp only [mergeFrom, List.mem_singleton] at hc
    rw [hc, finishRun_type]
    exact hh
  | cons c cs ih =>
    obtain ⟨hc, hrest⟩ := noClose_cons.mp hcs
    by_cases hm : equals (anchorOf c) last threshold = true
    · simp only [mergeFrom, hm, if_true]
      exact ih hrest head hh _ _
    · simp only [mergeFrom, hm, Bool.false_eq_true, if_false]
      exact noClose_cons.mpr ⟨by rw [finishRun_type]; exact hh, ih hrest c hc _ _⟩

theorem mergeFrom_head (equals : Vec2 → Vec2 → ℚ → Bool) (threshold : ℚ)
    (cs : List Command) (head : Command) (last : Vec2) (merged : Bool) :
    ∃ c tl, mergeFrom equals threshold head last merged cs = c :: tl ∧
      c.type = head.type := by
  induction cs generalizing last merged with
  | nil => exact ⟨_, [], rfl, finishRun_type head last merged⟩
  | cons c cs ih =>
    by_cases hm : equals (anchorOf c) last threshold = true
    · simp only [mergeFrom, hm, if_true]
      exact ih _ _
    · simp only [mergeFrom, hm, Bool.false_eq_true, if_false]
      exact ⟨_, _, rfl, finishRun_type head last merged⟩

theorem removeDuplicates_wellFormed (equals : Vec2 → Vec2 → ℚ → Bool) (threshold : ℚ)
    (p : Path) (hne : p ≠ []) (hw : wellFormed p = true) (hn : NoClose p) :
    ∃ q changed, removeDuplicates equals threshold p = some (q, changed) ∧
      wellFormed q = true ∧ q.head?.map Command.type = some CommandType.MOVE := by
  cases p with
  | nil => exact absurd rfl hne
  | cons first rest =>
    obtain ⟨hm, _⟩ := (wellFormed_iff _).mp hw
    obtain ⟨hf, hr⟩ := noClose_cons.mp hn
    obtain ⟨c, tl, hct, hty⟩ := mergeFrom_head equals threshold rest first (anchorOf first) false
    have hnc := mergeFrom_noClose equals threshold rest hr first hf (anchorOf first) false
    refine ⟨_, _, removeDuplicates_eq_mergeFrom equals threshold first rest hn, ?_, ?_⟩
    · rw [hct] at hnc ⊢
      rw [wellFormed_iff]
      refine ⟨?_, noClose_dropLast_of_noClose hnc⟩
      simp [firstIsMove, hty, firstIsMove_type hm]
    · rw [hct]
      simp [hty, firstIsMove_type hm]

/-- C31: on the auto-closed triangle built by
`moveTo(0,0); lineTo(4,0); lineTo(0,3); lineTo(0,0)`, a path satisfying the
invariants, `reverse()` and the three conversions return paths satisfying the
invariants with a Move first, but `removeDuplicates(1)` reads the point of the trailing
Close and yields no path; on the same commands without the Close it returns them
unchanged. -/
theorem transforms_on_closed_triangle :
    runOps [] [BuilderOp.moveTo ⟨0, 0⟩, BuilderOp.lineTo ⟨4, 0⟩, BuilderOp.lineTo ⟨0, 3⟩,
        BuilderOp.lineTo ⟨0, 0⟩]
      = some [Command.move ⟨0, 0⟩, Command.line ⟨4, 0⟩, Command.line ⟨0, 3⟩,
          Command.line ⟨0, 0⟩, Command.close] ∧
    wellFormed [Command.move ⟨0, 0⟩, Command.line ⟨4, 0⟩, Command.line ⟨0, 3⟩,
          Command.line ⟨0, 0⟩, Command.close] = true ∧
    (reverse [Command.move ⟨0, 0⟩, Command.line ⟨4, 0⟩, Command.line ⟨0, 3⟩,
          Command.line ⟨0, 0⟩, Command.close]).map wellFormed = some true ∧
    (convertQuadraticsToCubics [Command.move ⟨0, 0⟩, Command.line ⟨4, 0⟩, Command.line ⟨0, 3⟩,
          Command.line ⟨0, 0⟩, Command.close]).map (fun r => wellFormed r.1) = some true ∧
    (convertConicsToQuadratics Rat.sqrt [Command.move ⟨0, 0⟩, Command.line ⟨4, 0⟩,
          Command.line ⟨0, 3⟩, Command.line ⟨0, 0⟩, Command.close]).map
        (fun r => wellFormed r.1) = some true ∧
    (convertConicsToQuadraticsWithin Rat.sqrt 1 [Command.move ⟨0, 0⟩, Command.line ⟨4, 0⟩,
          Command.line ⟨0, 3⟩, Command.line ⟨0, 0⟩, Command.close]).map
        (fun r => wellFormed r.1) = some true ∧
    removeDuplicates Vec2.equals 1 [Command.move ⟨0, 0⟩, Command.line ⟨4, 0⟩,
          Command.line ⟨0, 3⟩, Command.line ⟨0, 0⟩, Command.close] = none ∧
    removeDuplicates Vec2.equals 1 [Command.move ⟨0, 0⟩, Command.line ⟨4, 0⟩,
          Command.line ⟨0, 3⟩, Command.line ⟨0, 0⟩]
      = some ([Command.move ⟨0, 0⟩, Command.line ⟨4, 0⟩, Command.line ⟨0, 3⟩,
          Command.line ⟨0, 0⟩], false) := by
  decide!

end Path

/-! ### Rectangles -/

namespace Rect2

theorem covers_refl (r : Rect2) : covers r r := ⟨le_refl _, le_refl _, le_refl _, le_refl _⟩

theorem covers_includeRect_left (r s t : Rect2) (h : covers r t) :
    covers (r.includeRect s) t :=
  ⟨le_trans (min_le_left _ _) h.1, le_trans (min_le_left _ _) h.2.1,
    le_trans h.2.2.1 (le_max_left _ _), le_trans h.2.2.2 (le_max_left _ _)⟩

theorem covers_includeRect_right (r s : Rect2) : covers (r.includeRect s) s :=
  ⟨min_le_right _ _, min_le_right _ _, le_max_right _ _, le_max_right _ _⟩

theorem covers_foldl_includeRect (l : List Rect2) (r t : Rect2) (h : covers r t) :
    covers (l.foldl includeRect r) t := by
  induction l generalizing r with
  | nil => exact h
  | cons b l ih => exact ih _ (covers_includeRect_left r b t h)

theorem covers_foldl_includeRect_mem (l : List Rect2) (r t : Rect2) (h : t ∈ l) :
    covers (l.foldl includeRect r) t := by
  induction l generalizing r with
  | nil => simp at h
  | cons b l ih =>
    rcases List.mem_cons.mp h with rfl | h1
    · exact covers_foldl_includeRect l _ _ (covers_includeRect_right r t)
    · exact ih _ h1

theorem ordered_includeRect (r s : Rect2) (h : r.Ordered) : (r.includeRect s).Ordered :=
  ⟨le_trans (min_le_left _ _) (le_trans h.1 (le_max_left _ _)),
    le_trans (min_le_left _ _) (le_trans h.2 (le_max_left _ _))⟩

theorem empty_includeRect (r s : Rect2) (ho : r.Ordered) (h : r.empty = false) :
    (r.includeRect s).empty = false := by
  simp only [empty, Bool.or_eq_false_iff, decide_eq_false_iff_not] at h ⊢
  obtain ⟨hx, hy⟩ := h
  have hx1 : r.min.x < r.max.x := lt_of_le_of_ne ho.1 (fun e => hx e.symm)
  have hy1 : r.min.y < r.max.y := lt_of_le_of_ne ho.2 (fun e => hy e.symm)
  constructor
  · intro e
    have h1 : (r.includeRect s).min.x ≤ r.min.x := min_le_left _ _
    have h2 : r.max.x ≤ (r.includeRect s).max.x := le_max_left _ _
    rw [e] at h2
    exact absurd (lt_of_lt_of_le hx1 h2) (not_lt.mpr h1)
  · intro e
    have h1 : (r.includeRect s).min.y ≤ r.min.y := min_le_left _ _
    have h2 : r.max.y ≤ (r.includeRect s).max.y := le_max_left _ _
    rw [e] at h2
    exact absurd (lt_of_lt_of_le hy1 h2) (not_lt.mpr h1)

end Rect2

/-! ### Shape -/

namespace Shape

/-- C8: the coordinate overload `moveTo(x, y)` always appends the new path
`[Move (x, y)]` and leaves the others unchanged, but the point overload does not: on
the shape holding the single path Move(0,0), Line(1,1), `moveTo(Vec2(5,5))` keeps
size 1 and replaces that path by `[Move (5,5)]`. -/
theorem moveTo_point_overload_resets_last_path :
    (∀ (s : Shape) (x y : ℚ), moveToXY s x y = some (s ++ [[Command.move ⟨x, y⟩]])) ∧
    moveTo [[Command.move ⟨0, 0⟩, Command.line ⟨1, 1⟩]] ⟨5, 5⟩
      = some [[Command.move ⟨5, 5⟩]] ∧
    moveToXY [[Command.move ⟨0, 0⟩, Command.line ⟨1, 1⟩]] 5 5
      = some [[Command.move ⟨0, 0⟩, Command.line ⟨1, 1⟩], [Command.move ⟨5, 5⟩]] := by
  refine ⟨?_, by decide, by decide⟩
  intro s x y
  simp [moveToXY, onBack, Path.moveToXY, Path.moveTo]

/-! ### Shape bounds -/

theorem boundsLoop_merging (isEmpty : Rect2 → Bool) (solveLinear : ℚ → ℚ → Option ℚ)
    (solveQuadratic : ℚ → ℚ → ℚ → List ℚ) (precise : Bool)
    (hmerge : ∀ r t : Rect2, r.Ordered → isEmpty r = false →
      isEmpty (r.includeRect t) = false)
    (s : Shape) (bs : List Rect2)
    (hb : s.map (fun p => Path.bounds solveLinear solveQuadratic p precise) = bs.map some)
    (result : Rect2) (ho : result.Ordered) (he : isEmpty result = false) :
    boundsLoop isEmpty solveLinear solveQuadratic precise s result
      = some ((bs.filter (fun b => !isEmpty b)).foldl Rect2.includeRect result) := by
  induction s generalizing bs result with
  | nil =>
    cases bs with
    | nil => rfl
    | cons b bs => simp at hb
  | cons p s ih =>
    cases bs with
    | nil => simp at hb
    | cons b bs =>
      simp only [List.map_cons, List.cons.injEq] at hb
      obtain ⟨hp, hrest⟩ := hb
      simp only [boundsLoop, hp]
      by_cases hbe : isEmpty b = true
      · simp only [hbe, if_true, List.filter_cons, Bool.not_true, Bool.false_eq_true, if_false]
        exact ih bs hrest result ho he
      · have hbf : isEmpty b = false := by simpa using hbe
        simp only [hbf, he, Bool.false_eq_true, if_false, List.filter_cons, Bool.not_false,
          if_true, List.foldl_cons]
        exact ih bs hrest _ (Rect2.ordered_includeRect result b ho) (hmerge result b ho he)

theorem boundsLoop_starting (isEmpty : Rect2 → Bool) (solveLinear : ℚ → ℚ → Option ℚ)
    (solveQuadratic : ℚ → ℚ → ℚ → List ℚ) (precise : Bool)
    (hmerge : ∀ r t : Rect2, r.Ordered → isEmpty r = false →
      isEmpty (r.includeRect t) = false)
    (s : Shape) (bs : List Rect2)
    (hb : s.map (fun p => Path.bounds solveLinear solveQuadratic p precise) = bs.map some)
    (h0 : isEmpty Rect2.zero = true) :
    boundsLoop isEmpty solveLinear solveQuadratic precise s Rect2.zero
      = some (mergeAll (bs.filter (fun b => !isEmpty b))) := by
  induction s generalizing bs with
  | nil =>
    cases bs with
    | nil => rfl
    | cons b bs => simp at hb
  | cons p s ih =>
    cases bs with
    | nil => simp at hb
    | cons b bs =>
      simp only [List.map_cons, List.cons.injEq] at hb
      obtain ⟨hp, hrest⟩ := hb
      simp only [boundsLoop, hp]
      by_cases hbe : isEmpty b = true
      · simp only [hbe, if_true, List.filter_cons, Bool.not_true, Bool.false_eq_true, if_false]
        exact ih bs hrest
      · have hbf : isEmpty b = false := by simpa using hbe
        simp only [hbf, h0, Bool.false_eq_true, if_false, if_true, List.filter_cons,
          Bool.not_false, mergeAll]
        exact boundsLoop_merging isEmpty solveLinear solveQuadratic precise hmerge s bs hrest b
          (Path.bounds_ordered solveLinear solveQuadratic p precise b hp) hbf

/-- C24 (amended): for every Shape whose paths all have a defined `bounds(precise)`,
`Shape::bounds(precise)` is the include-merge of the bounds of those paths whose own
bounds rectangle is not `empty()`; it contains the bounds of each such path, and it is
the default rectangle when no path remains, in particular for the empty Shape. The
test `empty()` is any test that holds of the default rectangle and that no merge into
a non-empty rectangle with ordered corners makes true. -/
theorem bounds_merges_nonempty (isEmpty : Rect2 → Bool) (solveLinear : ℚ → ℚ → Option ℚ)
    (solveQuadratic : ℚ → ℚ → ℚ → List ℚ) (precise : Bool)
    (h0 : isEmpty Rect2.zero = true)
    (hmerge : ∀ r t : Rect2, r.Ordered → isEmpty r = false →
      isEmpty (r.includeRect t) = false)
    (s : Shape) (bs : List Rect2)
    (hb : s.map (fun p => Path.bounds solveLinear solveQuadratic p precise) = bs.map some) :
    bounds isEmpty solveLinear solveQuadratic s precise
      = some (mergeAll (bs.filter (fun b => !isEmpty b))) ∧
    (∀ b ∈ bs, isEmpty b = false →
      Rect2.covers (mergeAll (bs.filter (fun b => !isEmpty b))) b) ∧
    ((∀ b ∈ bs, isEmpty b = true) →
      bounds isEmpty solveLinear solveQuadratic s precise = some Rect2.zero) ∧
    bounds isEmpty solveLinear solveQuadratic [] precise = some Rect2.zero := by
  have hmain : bounds isEmpty solveLinear solveQuadratic s precise
      = some (mergeAll (bs.filter (fun b => !isEmpty b))) := by
    cases s with
    | nil =>
      cases bs with
      | nil => rfl
      | cons b bs => simp at hb
    | cons p s =>
      simp only [bounds, List.isEmpty_cons, Bool.false_eq_true, if_false]
      exact boundsLoop_starting isEmpty solveLinear solveQuadratic precise hmerge _ bs hb h0
  refine ⟨hmain, ?_, ?_, rfl⟩
  · intro b hbm hbe
    have hmem : b ∈ bs.filter (fun b => !isEmpty b) := by
      simp [List.mem_filter, hbm, hbe]
    cases hf : bs.filter (fun b => !isEmpty b) with
    | nil => rw [hf] at hmem; simp at hmem
    | cons c rest =>
      rw [hf] at hmem
      simp only [mergeAll]
      rcases List.mem_cons.mp hmem with rfl | h1
      · exact Rect2.covers_foldl_includeRect rest _ _ (Rect2.covers_refl _)
      · exact Rect2.covers_foldl_includeRect_mem rest _ _ h1
  · intro hall
    rw [hmain]
    have hf : bs.filter (fun b => !isEmpty b) = [] := by
      rw [List.filter_eq_nil_iff]
      intro b hbm
      simp [hall b hbm]
    rw [hf]
    rfl

/-- Whatever the test `empty()` is, as long as the default rectangle is empty and the
box `[(3,4),(5,6)]` is not: the path `[Move (0,0)]` is skipped. -/
theorem bounds_skips_move_at_origin (isEmpty : Rect2 → Bool)
    (h0 : isEmpty Rect2.zero = true) (h1 : isEmpty ⟨⟨3, 4⟩, ⟨5, 6⟩⟩ = false) :
    bounds isEmpty Path.exactLinear (fun _ _ _ => [])
        [[Command.move ⟨0, 0⟩], [Command.move ⟨3, 4⟩, Command.line ⟨5, 6⟩]] true
      = some ⟨⟨3, 4⟩, ⟨5, 6⟩⟩ := by
  have e1 : Path.bounds Path.exactLinear (fun _ _ _ => []) [Command.move ⟨0, 0⟩] true
      = some Rect2.zero := by decide!
  have e2 : Path.bounds Path.exactLinear (fun _ _ _ => [])
      [Command.move ⟨3, 4⟩, Command.line ⟨5, 6⟩] true = some ⟨⟨3, 4⟩, ⟨5, 6⟩⟩ := by decide!
  simp [bounds, boundsLoop, e1, e2, h0, h1]

/-- Witness for C24 (amended): three paths, the first a single Move (its bounds is the
rectangle of one point, which is empty and skipped), the other two merged into the box
`[(0,0),(4,3)]`. -/
theorem bounds_merges_nonempty_witness :
    bounds Rect2.empty Path.exactLinear (fun _ _ _ => [])
        [[Command.move ⟨5, 5⟩], [Command.move ⟨0, 0⟩, Command.line ⟨2, 1⟩],
          [Command.move ⟨1, 3⟩, Command.line ⟨4, 2⟩]] true
      = some ⟨⟨0, 0⟩, ⟨4, 3⟩⟩ := by
  have h := (bounds_merges_nonempty Rect2.empty Path.exactLinear (fun _ _ _ => []) true
    (by decide!) Rect2.empty_includeRect
    [[Command.move ⟨5, 5⟩], [Command.move ⟨0, 0⟩, Command.line ⟨2, 1⟩],
      [Command.move ⟨1, 3⟩, Command.line ⟨4, 2⟩]]
    [⟨⟨5, 5⟩, ⟨5, 5⟩⟩, ⟨⟨0, 0⟩, ⟨2, 1⟩⟩, ⟨⟨1, 2⟩, ⟨4, 3⟩⟩] (by decide!)).1
  rw [h]
  decide!

/-- C24 (as stated) fails: a Shape holding the single path `[Move (5,5)]` has
`bounds(precise)` equal to the default rectangle `[(0,0),(0,0)]`, which does not
contain the point `(5,5)` that is the bounds of its path; and in the Shape of
`[Move (0,0)]` and `[Move (3,4), Line (5,6)]` the first path is skipped, the result
`[(3,4),(5,6)]` not containing its point `(0,0)`. Both in precise and approximate
mode. -/
theorem bounds_skips_single_move :
    Path.bounds Path.exactLinear (fun _ _ _ => []) [Command.move ⟨5, 5⟩] true
      = some ⟨⟨5, 5⟩, ⟨5, 5⟩⟩ ∧
    bounds Rect2.empty Path.exactLinear (fun _ _ _ => []) [[Command.move ⟨5, 5⟩]] true
      = some ⟨⟨0, 0⟩, ⟨0, 0⟩⟩ ∧
    bounds Rect2.empty Path.exactLinear (fun _ _ _ => []) [[Command.move ⟨5, 5⟩]] false
      = some ⟨⟨0, 0⟩, ⟨0, 0⟩⟩ ∧
    ¬ Rect2.covers ⟨⟨0, 0⟩, ⟨0, 0⟩⟩ ⟨⟨5, 5⟩, ⟨5, 5⟩⟩ ∧
    Path.bounds Path.exactLinear (fun _ _ _ => []) [Command.move ⟨0, 0⟩] true
      = some ⟨⟨0, 0⟩, ⟨0, 0⟩⟩ ∧
    bounds Rect2.empty Path.exactLinear (fun _ _ _ => [])
        [[Command.move ⟨0, 0⟩], [Command.move ⟨3, 4⟩, Command.line ⟨5, 6⟩]] true
      = some ⟨⟨3, 4⟩, ⟨5, 6⟩⟩ ∧
    bounds Rect2.empty Path.exactLinear (fun _ _ _ => [])
        [[Command.move ⟨0, 0⟩], [Command.move ⟨3, 4⟩, Command.line ⟨5, 6⟩]] false
      = some ⟨⟨3, 4⟩, ⟨5, 6⟩⟩ ∧
    ¬ Rect2.covers ⟨⟨3, 4⟩, ⟨5, 6⟩⟩ ⟨⟨0, 0⟩, ⟨0, 0⟩⟩ := by
  refine ⟨by decide!, by decide!, by decide!, ?_, by decide!, by decide!, by decide!, ?_⟩
  · intro h
    have := h.2.2.1
    norm_num at this
  · intro h
    have := h.1
    norm_num at this

end Shape

/-! ### Precise bounds over an arbitrary scalar type -/

namespace PathOver

theorem includePoint_over (r : Rect2) (p : Vec2) :
    (r.includePoint p).over = r.over.includePoint p.over := rfl

theorem foldl_includePoint_over (pts : List Vec2) (r : Rect2) :
    (pts.foldl Rect2.includePoint r).over
      = (pts.map Vec2.over).foldl Rect2Over.includePoint r.over := by
  induction pts generalizing r with
  | nil => rfl
  | cons p pts ih => simp only [List.foldl_cons, List.map_cons, ih, includePoint_over]

theorem evaluateQuadraticAt_over (p0 p1 p2 : Vec2) (t : ℚ) :
    (Path.evaluateQuadraticAt p0 p1 p2 t).over
      = evaluateQuadraticAt p0.over p1.over p2.over t := rfl

theorem evaluateCubicAt_over (p0 p1 p2 p3 : Vec2) (t : ℚ) :
    (Path.evaluateCubicAt p0 p1 p2 p3 t).over
      = evaluateCubicAt p0.over p1.over p2.over p3.over t := rfl

theorem extremumAt_over (eval : ℚ → Vec2) (root : Option ℚ) :
    (Path.extremumAt eval root).map Vec2.over = extremumAt (fun t => (eval t).over) root := by
  cases root with
  | none => rfl
  | some r =>
    by_cases h : 0 < r ∧ r < 1
    · simp [Path.extremumAt, extremumAt, h]
    · simp [Path.extremumAt, extremumAt, h]

theorem findQuadraticExtrema_over (solveLinear : ℚ → ℚ → Option ℚ) (p0 p1 p2 : Vec2) :
    (Path.findQuadraticExtrema solveLinear p0 p1 p2).map Vec2.over
      = findQuadraticExtrema solveLinear p0.over p1.over p2.over := by
  simp only [Path.findQuadraticExtrema, findQuadraticExtrema, List.map_append, extremumAt_over]
  rfl

theorem findCubicExtrema_over (solveQuadratic : ℚ → ℚ → ℚ → List ℚ) (p0 p1 p2 p3 : Vec2) :
    (Path.findCubicExtrema solveQuadratic p0 p1 p2 p3).map Vec2.over
      = findCubicExtrema solveQuadratic p0.over p1.over p2.over p3.over := by
  simp only [Path.findCubicExtrema, findCubicExtrema, List.map_append, extremumAt_over]
  rfl

theorem preciseStep_over (solveLinear : ℚ → ℚ → Option ℚ)
    (solveQuadratic : ℚ → ℚ → ℚ → List ℚ) (previous current : Command) (r : Rect2) :
    preciseStep solveLinear solveQuadratic previous.over current.over r.over
      = (Path.preciseStep solveLinear solveQuadratic previous current r).map Rect2.over := by
  cases current <;> cases previous <;>
    simp [preciseStep, Path.preciseStep, Command.over, CommandOver.type, Command.type,
      CommandOver.point, Command.point, CommandOver.control, Command.control,
      CommandOver.control1, Command.control1, CommandOver.control2, Command.control2,
      foldl_includePoint_over, includePoint_over, findQuadraticExtrema_over,
      findCubicExtrema_over]

theorem preciseLoop_over (solveLinear : ℚ → ℚ → Option ℚ)
    (solveQuadratic : ℚ → ℚ → ℚ → List ℚ) (cs : List Command) (previous : Command)
    (r : Rect2) :
    preciseLoop solveLinear solveQuadratic previous.over (cs.map Command.over) r.over
      = (Path.preciseLoop solveLinear solveQuadratic previous cs r).map Rect2.over := by
  induction cs generalizing previous r with
  | nil => rfl
  | cons c cs ih =>
    simp only [List.map_cons, preciseLoop, Path.preciseLoop, preciseStep_over]
    cases Path.preciseStep solveLinear solveQuadratic previous c r with
    | none => rfl
    | some r1 => exact ih c r1

/-- The precise bounds over `ℚ` as a scalar field are those of the rational
embedding. -/
theorem calculatePreciseBounds_over (solveLinear : ℚ → ℚ → Option ℚ)
    (solveQuadratic : ℚ → ℚ → ℚ → List ℚ) (p : Path) :
    calculatePreciseBounds solveLinear solveQuadratic (p.map Command.over)
      = (Path.calculatePreciseBounds solveLinear solveQuadratic p).map Rect2.over := by
  cases p with
  | nil => rfl
  | cons front rest =>
    cases front with
    | move p => exact preciseLoop_over solveLinear solveQuadratic rest (Command.move p) (Rect2.ofPoint p)
    | line p => exact preciseLoop_over solveLinear solveQuadratic rest (Command.line p) (Rect2.ofPoint p)
    | quadratic c p =>
      exact preciseLoop_over solveLinear solveQuadratic rest (Command.quadratic c p) (Rect2.ofPoint p)
    | conic c p w =>
      exact preciseLoop_over solveLinear solveQuadratic rest (Command.conic c p w) (Rect2.ofPoint p)
    | cubic c1 c2 p =>
      exact preciseLoop_over solveLinear solveQuadratic rest (Command.cubic c1 c2 p) (Rect2.ofPoint p)
    | close => rfl

theorem over_contains_includePoint_self {K : Type} [LinearOrderedField K] (r : Rect2Over K)
    (p : Vec2Over K) : (r.includePoint p).Contains p :=
  ⟨min_le_right _ _, le_max_right _ _, min_le_right _ _, le_max_right _ _⟩

theorem over_contains_includePoint_mono {K : Type} [LinearOrderedField K] (r : Rect2Over K)
    (p q : Vec2Over K) (h : r.Contains q) : (r.includePoint p).Contains q :=
  ⟨le_trans (min_le_left _ _) h.1, le_trans h.2.1 (le_max_left _ _),
    le_trans (min_le_left _ _) h.2.2.1, le_trans h.2.2.2 (le_max_left _ _)⟩

theorem over_contains_foldl_mono {K : Type} [LinearOrderedField K] (pts : List (Vec2Over K))
    (r : Rect2Over K) (q : Vec2Over K) (h : r.Contains q) :
    (pts.foldl Rect2Over.includePoint r).Contains q := by
  induction pts generalizing r with
  | nil => exact h
  | cons p pts ih => exact ih _ (over_contains_includePoint_mono r p q h)

theorem over_contains_foldl_mem {K : Type} [LinearOrderedField K] (pts : List (Vec2Over K))
    (r : Rect2Over K) (q : Vec2Over K) (h : q ∈ pts) :
    (pts.foldl Rect2Over.includePoint r).Contains q := by
  induction pts generalizing r with
  | nil => simp at h
  | cons p pts ih =>
    rcases List.mem_cons.mp h with rfl | h1
    · exact over_contains_foldl_mono pts _ _ (over_contains_includePoint_self r q)
    · exact ih _ h1

theorem over_preciseStep_quadratic {K : Type} [LinearOrderedField K]
    (solveLinear : K → K → Option K) (solveQuadratic : K → K → K → List K)
    (previous : CommandOver K) (p0 c p : Vec2Over K) (r : Rect2Over K)
    (h : previous.point = some p0) :
    preciseStep solveLinear solveQuadratic previous (CommandOver.quadratic c p) r
      = some ((findQuadraticExtrema solveLinear p0 c p).foldl Rect2Over.includePoint
          (r.includePoint p)) := by
  simp only [preciseStep, CommandOver.type, h]
  rfl

theorem preciseStep_cubic {K : Type} [LinearOrderedField K]
    (solveLinear : K → K → Option K) (solveQuadratic : K → K → K → List K)
    (previous : CommandOver K) (p0 c1 c2 p : Vec2Over K) (r : Rect2Over K)
    (h : previous.point = some p0) :
    preciseStep solveLinear solveQuadratic previous (CommandOver.cubic c1 c2 p) r
      = some ((findCubicExtrema solveQuadratic p0 c1 c2 p).foldl Rect2Over.includePoint
          (r.includePoint p)) := by
  simp only [preciseStep, CommandOver.type, h]
  rfl

theorem over_preciseStep_mono {K : Type} [LinearOrderedField K] (solveLinear : K → K → Option K)
    (solveQuadratic : K → K → K → List K) (previous current : CommandOver K)
    (r r1 : Rect2Over K) (q : Vec2Over K)
    (hs : preciseStep solveLinear solveQuadratic previous current r = some r1)
    (h : r.Contains q) : r1.Contains q := by
  cases current with
  | move p =>
    simp only [preciseStep, CommandOver.type, Option.some.injEq] at hs
    subst hs
    exact h
  | close =>
    simp only [preciseStep, CommandOver.type, Option.some.injEq] at hs
    subst hs
    exact h
  | line p =>
    simp only [preciseStep, CommandOver.type, CommandOver.point, Option.some.injEq] at hs
    subst hs
    exact over_contains_includePoint_mono r p q h
  | conic c p w =>
    simp only [preciseStep, CommandOver.type, CommandOver.point, CommandOver.control,
      Option.some.injEq] at hs
    subst hs
    exact over_contains_includePoint_mono _ p q (over_contains_includePoint_mono r c q h)
  | quadratic c p =>
    cases hp : previous.point with
    | none => simp [preciseStep, CommandOver.type, hp] at hs
    | some p0 =>
      rw [over_preciseStep_quadratic _ _ previous p0 c p r hp, Option.some.injEq] at hs
      subst hs
      exact over_contains_foldl_mono _ _ q (over_contains_includePoint_mono r p q h)
  | cubic c1 c2 p =>
    cases hp : previous.point with
    | none => simp [preciseStep, CommandOver.type, hp] at hs
    | some p0 =>
      rw [preciseStep_cubic _ _ previous p0 c1 c2 p r hp, Option.some.injEq] at hs
      subst hs
      exact over_contains_foldl_mono _ _ q (over_contains_includePoint_mono r p q h)

theorem over_preciseLoop_mono {K : Type} [LinearOrderedField K] (solveLinear : K → K → Option K)
    (solveQuadratic : K → K → K → List K) (cs : List (CommandOver K))
    (previous : CommandOver K) (r rf : Rect2Over K) (q : Vec2Over K)
    (hs : preciseLoop solveLinear solveQuadratic previous cs r = some rf)
    (h : r.Contains q) : rf.Contains q := by
  induction cs generalizing previous r with
  | nil =>
    simp only [preciseLoop, Option.some.injEq] at hs
    subst hs
    exact h
  | cons c cs ih =>
    simp only [preciseLoop] at hs
    cases hstep : preciseStep solveLinear solveQuadratic previous c r with
    | none => simp [hstep] at hs
    | some r1 =>
      simp only [hstep] at hs
      exact ih c r1 hs (over_preciseStep_mono solveLinear solveQuadratic previous c r r1 q hstep h)

/-- A step of the loop is defined whenever the previous command carries a point. -/
theorem preciseStep_isSome {K : Type} [LinearOrderedField K] (solveLinear : K → K → Option K)
    (solveQuadratic : K → K → K → List K) (previous current : CommandOver K)
    (hp : previous.type ≠ CommandType.CLOSE) (r : Rect2Over K) :
    ∃ r1, preciseStep solveLinear solveQuadratic previous current r = some r1 := by
  cases previous <;> cases current <;>
    first
    | exact absurd rfl hp
    | exact ⟨_, rfl⟩

theorem over_preciseLoop_isSome {K : Type} [LinearOrderedField K] (solveLinear : K → K → Option K)
    (solveQuadratic : K → K → K → List K) (cs : List (CommandOver K))
    (hcs : ∀ c ∈ cs.dropLast, c.type ≠ CommandType.CLOSE)
    (previous : CommandOver K) (hp : previous.type ≠ CommandType.CLOSE) (r : Rect2Over K) :
    ∃ rf, preciseLoop solveLinear solveQuadratic previous cs r = some rf := by
  induction cs generalizing previous r with
  | nil => exact ⟨r, rfl⟩
  | cons c cs ih =>
    obtain ⟨r1, h1⟩ := preciseStep_isSome solveLinear solveQuadratic previous c hp r
    simp only [preciseLoop, h1]
    cases cs with
    | nil => exact ⟨r1, rfl⟩
    | cons d ds =>
      have hc : c.type ≠ CommandType.CLOSE := hcs c (by simp [List.dropLast])
      exact ih (fun e he => hcs e (by
        rw [List.dropLast_cons_of_ne_nil (by simp)]
        exact List.mem_cons_of_mem _ he)) c hc r1

theorem cubic_hasDerivAt (x0 x1 x2 x3 s : ℝ) :
    HasDerivAt
      (fun τ : ℝ => (1 - τ) * (1 - τ) * (1 - τ) * x0 + 3 * (1 - τ) * (1 - τ) * τ * x1
        + 3 * (1 - τ) * τ * τ * x2 + τ * τ * τ * x3)
      ((3 * x3 - 9 * x2 + 9 * x1 - 3 * x0) * s ^ 2 + (6 * x0 - 12 * x1 + 6 * x2) * s
        + (3 * x1 - 3 * x0)) s := by
  have h1 : HasDerivAt (fun τ : ℝ => τ) 1 s := hasDerivAt_id s
  have h2 : HasDerivAt (fun τ : ℝ => τ ^ 2) (2 * s) s := by
    simpa using hasDerivAt_pow 2 s
  have h3 : HasDerivAt (fun τ : ℝ => τ ^ 3) (3 * s ^ 2) s := by
    simpa using hasDerivAt_pow 3 s
  have h := (((h1.const_mul (3 * x1 - 3 * x0)).add
    ((h2.const_mul (3 * x0 - 6 * x1 + 3 * x2)).add
      (h3.const_mul (x3 - 3 * x2 + 3 * x1 - x0)))).const_add x0)
  have hf : (fun τ : ℝ => (1 - τ) * (1 - τ) * (1 - τ) * x0 + 3 * (1 - τ) * (1 - τ) * τ * x1
        + 3 * (1 - τ) * τ * τ * x2 + τ * τ * τ * x3)
      = fun τ : ℝ => x0 + ((3 * x1 - 3 * x0) * τ + ((3 * x0 - 6 * x1 + 3 * x2) * τ ^ 2
        + (x3 - 3 * x2 + 3 * x1 - x0) * τ ^ 3)) := by
    funext τ
    ring
  rw [hf]
  convert h using 1
  ring

/-- A cubic Bezier coordinate on `[0, 1]` stays below every bound that holds at both
ends and at the roots of its derivative in `(0, 1)`. -/
theorem cubic_le_of_critical (x0 x1 x2 x3 M t : ℝ) (h0 : x0 ≤ M) (h3 : x3 ≤ M)
    (hcrit : (3 * x3 - 9 * x2 + 9 * x1 - 3 * x0 ≠ 0 ∨ 6 * x0 - 12 * x1 + 6 * x2 ≠ 0 ∨
        3 * x1 - 3 * x0 ≠ 0) → ∀ τ : ℝ, 0 < τ → τ < 1 →
      (3 * x3 - 9 * x2 + 9 * x1 - 3 * x0) * τ ^ 2 + (6 * x0 - 12 * x1 + 6 * x2) * τ
        + (3 * x1 - 3 * x0) = 0 →
      (1 - τ) * (1 - τ) * (1 - τ) * x0 + 3 * (1 - τ) * (1 - τ) * τ * x1
        + 3 * (1 - τ) * τ * τ * x2 + τ * τ * τ * x3 ≤ M)
    (ht0 : 0 ≤ t) (ht1 : t ≤ 1) :
    (1 - t) * (1 - t) * (1 - t) * x0 + 3 * (1 - t) * (1 - t) * t * x1
      + 3 * (1 - t) * t * t * x2 + t * t * t * x3 ≤ M := by
  by_cases hz : 3 * x3 - 9 * x2 + 9 * x1 - 3 * x0 = 0 ∧ 6 * x0 - 12 * x1 + 6 * x2 = 0 ∧
      3 * x1 - 3 * x0 = 0
  · obtain ⟨hA, hB, hC⟩ := hz
    have e : (1 - t) * (1 - t) * (1 - t) * x0 + 3 * (1 - t) * (1 - t) * t * x1
        + 3 * (1 - t) * t * t * x2 + t * t * t * x3 = x0 := by
      linear_combination (t ^ 3 / 3) * hA + (t ^ 2 / 2) * hB + t * hC
    rw [e]
    exact h0
  · have hnz : 3 * x3 - 9 * x2 + 9 * x1 - 3 * x0 ≠ 0 ∨ 6 * x0 - 12 * x1 + 6 * x2 ≠ 0 ∨
        3 * x1 - 3 * x0 ≠ 0 := by
      by_contra hcon
      push_neg at hcon
      exact hz hcon
    have hcont : ContinuousOn
        (fun τ : ℝ => (1 - τ) * (1 - τ) * (1 - τ) * x0 + 3 * (1 - τ) * (1 - τ) * τ * x1
          + 3 * (1 - τ) * τ * τ * x2 + τ * τ * τ * x3) (Set.Icc 0 1) :=
      Continuous.continuousOn (by continuity)
    obtain ⟨s, hs, hmax⟩ := isCompact_Icc.exists_isMaxOn
      (Set.nonempty_Icc.mpr (zero_le_one : (0 : ℝ) ≤ 1)) hcont
    have hts := isMaxOn_iff.mp hmax t ⟨ht0, ht1⟩
    simp only at hts
    refine le_trans hts ?_
    rcases eq_or_lt_of_le hs.1 with hs0 | hs0
    · rw [← hs0]
      simpa using h0
    rcases eq_or_lt_of_le hs.2 with hs1 | hs1
    · rw [hs1]
      simpa using h3
    · have hloc : IsLocalMax
          (fun τ : ℝ => (1 - τ) * (1 - τ) * (1 - τ) * x0 + 3 * (1 - τ) * (1 - τ) * τ * x1
            + 3 * (1 - τ) * τ * τ * x2 + τ * τ * τ * x3) s :=
        hmax.isLocalMax (Icc_mem_nhds hs0 hs1)
      exact hcrit hnz s hs0 hs1 (hloc.hasDerivAt_eq_zero (cubic_hasDerivAt x0 x1 x2 x3 s))

/-- The mirror statement for lower bounds. -/
theorem cubic_ge_of_critical (x0 x1 x2 x3 m t : ℝ) (h0 : m ≤ x0) (h3 : m ≤ x3)
    (hcrit : (3 * x3 - 9 * x2 + 9 * x1 - 3 * x0 ≠ 0 ∨ 6 * x0 - 12 * x1 + 6 * x2 ≠ 0 ∨
        3 * x1 - 3 * x0 ≠ 0) → ∀ τ : ℝ, 0 < τ → τ < 1 →
      (3 * x3 - 9 * x2 + 9 * x1 - 3 * x0) * τ ^ 2 + (6 * x0 - 12 * x1 + 6 * x2) * τ
        + (3 * x1 - 3 * x0) = 0 →
      m ≤ (1 - τ) * (1 - τ) * (1 - τ) * x0 + 3 * (1 - τ) * (1 - τ) * τ * x1
        + 3 * (1 - τ) * τ * τ * x2 + τ * τ * τ * x3)
    (ht0 : 0 ≤ t) (ht1 : t ≤ 1) :
    m ≤ (1 - t) * (1 - t) * (1 - t) * x0 + 3 * (1 - t) * (1 - t) * t * x1
      + 3 * (1 - t) * t * t * x2 + t * t * t * x3 := by
  have h := cubic_le_of_critical (-x0) (-x1) (-x2) (-x3) (-m) t (by linarith) (by linarith)
    (fun hnz τ hτ0 hτ1 he => by
      have hnz' : 3 * x3 - 9 * x2 + 9 * x1 - 3 * x0 ≠ 0 ∨ 6 * x0 - 12 * x1 + 6 * x2 ≠ 0 ∨
          3 * x1 - 3 * x0 ≠ 0 := by
        rcases hnz with h | h | h
        · exact Or.inl (fun e => h (by linarith))
        · exact Or.inr (Or.inl (fun e => h (by linarith)))
        · exact Or.inr (Or.inr (fun e => h (by linarith)))
      have := hcrit hnz' τ hτ0 hτ1 (by linear_combination -he)
      linear_combination this) ht0 ht1
  linear_combination h

theorem get_of_mem_take_two {α : Type} (l : List α) (x : α) (h : x ∈ l.take 2) :
    l.get? 0 = some x ∨ l.get? 1 = some x := by
  cases l with
  | nil => simp at h
  | cons a l =>
    cases l with
    | nil =>
      simp at h
      exact Or.inl (by simp [h])
    | cons b l =>
      simp at h
      rcases h with h | h
      · exact Or.inl (by simp [h])
      · exact Or.inr (by simp [h])

theorem over_mem_extremumAt {K : Type} [LinearOrderedField K] (eval : K → Vec2Over K) (τ : K)
    (h0 : 0 < τ) (h1 : τ < 1) : eval τ ∈ extremumAt eval (some τ) := by
  simp [extremumAt, h0, h1]

theorem mem_findCubicExtrema_x {K : Type} [LinearOrderedField K]
    (solveQuadratic : K → K → K → List K) (p0 p1 p2 p3 : Vec2Over K) (τ : K)
    (hr : τ ∈ (solveQuadratic (3 * p3.x - 9 * p2.x + 9 * p1.x - 3 * p0.x)
      (6 * p0.x - 12 * p1.x + 6 * p2.x) (3 * p1.x - 3 * p0.x)).take 2)
    (h0 : 0 < τ) (h1 : τ < 1) :
    evaluateCubicAt p0 p1 p2 p3 τ ∈ findCubicExtrema solveQuadratic p0 p1 p2 p3 := by
  have hm := over_mem_extremumAt (evaluateCubicAt p0 p1 p2 p3) τ h0 h1
  simp only [findCubicExtrema, Vec2Over.sub, Vec2Over.add, Vec2Over.smul, List.mem_append]
  rcases get_of_mem_take_two _ _ hr with h | h
  · rw [h]
    exact Or.inl hm
  · rw [h]
    exact Or.inr (Or.inr (Or.inl hm))

theorem mem_findCubicExtrema_y {K : Type} [LinearOrderedField K]
    (solveQuadratic : K → K → K → List K) (p0 p1 p2 p3 : Vec2Over K) (τ : K)
    (hr : τ ∈ (solveQuadratic (3 * p3.y - 9 * p2.y + 9 * p1.y - 3 * p0.y)
      (6 * p0.y - 12 * p1.y + 6 * p2.y) (3 * p1.y - 3 * p0.y)).take 2)
    (h0 : 0 < τ) (h1 : τ < 1) :
    evaluateCubicAt p0 p1 p2 p3 τ ∈ findCubicExtrema solveQuadratic p0 p1 p2 p3 := by
  have hm := over_mem_extremumAt (evaluateCubicAt p0 p1 p2 p3) τ h0 h1
  simp only [findCubicExtrema, Vec2Over.sub, Vec2Over.add, Vec2Over.smul, List.mem_append]
  rcases get_of_mem_take_two _ _ hr with h | h
  · rw [h]
    exact Or.inr (Or.inl hm)
  · rw [h]
    exact Or.inr (Or.inr (Or.inr hm))

/-- The box left by the Cubic case of `calculatePreciseBounds` contains the whole
cubic Bezier curve, when the box before contained its starting point. -/
theorem cubic_segment_contained (solveQuadratic : ℝ → ℝ → ℝ → List ℝ)
    (hsolve : ReportsRoots solveQuadratic)
    (p0 p1 p2 p3 : Vec2Over ℝ) (r : Rect2Over ℝ) (h0 : r.Contains p0) (t : ℝ)
    (ht0 : 0 ≤ t) (ht1 : t ≤ 1) :
    ((findCubicExtrema solveQuadratic p0 p1 p2 p3).foldl Rect2Over.includePoint
      (r.includePoint p3)).Contains (evaluateCubicAt p0 p1 p2 p3 t) := by
  have c0 := over_contains_foldl_mono (findCubicExtrema solveQuadratic p0 p1 p2 p3) _ p0
    (over_contains_includePoint_mono r p3 p0 h0)
  have c3 := over_contains_foldl_mono (findCubicExtrema solveQuadratic p0 p1 p2 p3) _ p3
    (over_contains_includePoint_self r p3)
  have hx : (3 * p3.x - 9 * p2.x + 9 * p1.x - 3 * p0.x ≠ 0 ∨
      6 * p0.x - 12 * p1.x + 6 * p2.x ≠ 0 ∨ 3 * p1.x - 3 * p0.x ≠ 0) → ∀ τ : ℝ, 0 < τ → τ < 1 →
      (3 * p3.x - 9 * p2.x + 9 * p1.x - 3 * p0.x) * τ ^ 2
        + (6 * p0.x - 12 * p1.x + 6 * p2.x) * τ + (3 * p1.x - 3 * p0.x) = 0 →
      ((findCubicExtrema solveQuadratic p0 p1 p2 p3).foldl Rect2Over.includePoint
        (r.includePoint p3)).Contains (evaluateCubicAt p0 p1 p2 p3 τ) :=
    fun hnz τ h0 h1 he => over_contains_foldl_mem _ _ _
      (mem_findCubicExtrema_x solveQuadratic p0 p1 p2 p3 τ (hsolve _ _ _ τ hnz he) h0 h1)
  have hy : (3 * p3.y - 9 * p2.y + 9 * p1.y - 3 * p0.y ≠ 0 ∨
      6 * p0.y - 12 * p1.y + 6 * p2.y ≠ 0 ∨ 3 * p1.y - 3 * p0.y ≠ 0) → ∀ τ : ℝ, 0 < τ → τ < 1 →
      (3 * p3.y - 9 * p2.y + 9 * p1.y - 3 * p0.y) * τ ^ 2
        + (6 * p0.y - 12 * p1.y + 6 * p2.y) * τ + (3 * p1.y - 3 * p0.y) = 0 →
      ((findCubicExtrema solveQuadratic p0 p1 p2 p3).foldl Rect2Over.includePoint
        (r.includePoint p3)).Contains (evaluateCubicAt p0 p1 p2 p3 τ) :=
    fun hnz τ h0 h1 he => over_contains_foldl_mem _ _ _
      (mem_findCubicExtrema_y solveQuadratic p0 p1 p2 p3 τ (hsolve _ _ _ τ hnz he) h0 h1)
  refine ⟨?_, ?_, ?_, ?_⟩
  · exact cubic_ge_of_critical p0.x p1.x p2.x p3.x _ t c0.1 c3.1
      (fun hnz τ h0 h1 he => (hx hnz τ h0 h1 he).1) ht0 ht1
  · exact cubic_le_of_critical p0.x p1.x p2.x p3.x _ t c0.2.1 c3.2.1
      (fun hnz τ h0 h1 he => (hx hnz τ h0 h1 he).2.1) ht0 ht1
  · exact cubic_ge_of_critical p0.y p1.y p2.y p3.y _ t c0.2.2.1 c3.2.2.1
      (fun hnz τ h0 h1 he => (hy hnz τ h0 h1 he).2.2.1) ht0 ht1
  · exact cubic_le_of_critical p0.y p1.y p2.y p3.y _ t c0.2.2.2 c3.2.2.2
      (fun hnz τ h0 h1 he => (hy hnz τ h0 h1 he).2.2.2) ht0 ht1

theorem reportsRoots_quadraticRoots (sqrt : ℝ → ℝ)
    (hsq : ∀ x : ℝ, 0 ≤ x → sqrt x * sqrt x = x) : ReportsRoots (quadraticRoots sqrt) := by
  intro a b c τ hnz he
  by_cases ha : a = 0
  · subst ha
    by_cases hb : b = 0
    · subst hb
      simp at he
      simp [he] at hnz
    · have hτ : τ = -c / b := by
        field_simp
        linarith
      simp [quadraticRoots, hb, hτ]
  · have hd : b * b - 4 * a * c = (2 * a * τ + b) * (2 * a * τ + b) := by
      linear_combination (-4 * a) * he
    have hd0 : ¬ (b * b - 4 * a * c < 0) := by
      rw [hd]
      exact not_lt.mpr (mul_self_nonneg _)
    have hs := hsq (b * b - 4 * a * c) (not_lt.mp hd0)
    have hdis : discrim a b c = sqrt (b * b - 4 * a * c) * sqrt (b * b - 4 * a * c) := by
      rw [hs, discrim]
      ring
    have he' : a * (τ * τ) + b * τ + c = 0 := by linear_combination he
    have hr := (quadratic_eq_zero_iff ha hdis τ).mp he'
    simp only [quadraticRoots, ha, if_false, hd0, List.take_succ_cons, List.take_zero,
      List.mem_cons, List.mem_singleton]
    rcases hr with h | h
    · exact Or.inl h
    · exact Or.inr (Or.inl h)

theorem type_ne_close_of_point {K : Type} (c : CommandOver K) (p : Vec2Over K)
    (h : c.point = some p) : c.type ≠ CommandType.CLOSE := by
  cases c <;> simp_all [CommandOver.type, CommandOver.point]

theorem point_of_segment {K : Type} (c : CommandOver K)
    (h : c.type ≠ CommandType.CLOSE) : ∃ p, c.point = some p := by
  cases c <;> first | exact ⟨_, rfl⟩ | exact absurd rfl h

theorem preciseStep_contains_point {K : Type} [LinearOrderedField K]
    (solveLinear : K → K → Option K) (solveQuadratic : K → K → K → List K)
    (previous current : CommandOver K) (r r1 : Rect2Over K) (cp : Vec2Over K)
    (hm : current.type ≠ CommandType.MOVE) (hc : current.point = some cp)
    (hs : preciseStep solveLinear solveQuadratic previous current r = some r1) :
    r1.Contains cp := by
  cases current with
  | move p => exact absurd rfl hm
  | close => simp [CommandOver.point] at hc
  | line p =>
    simp only [CommandOver.point, Option.some.injEq] at hc
    simp only [preciseStep, CommandOver.type, CommandOver.point, Option.some.injEq] at hs
    subst hs hc
    exact over_contains_includePoint_self r p
  | conic c p w =>
    simp only [CommandOver.point, Option.some.injEq] at hc
    simp only [preciseStep, CommandOver.type, CommandOver.point, CommandOver.control,
      Option.some.injEq] at hs
    subst hs hc
    exact over_contains_includePoint_self _ p
  | quadratic c p =>
    simp only [CommandOver.point, Option.some.injEq] at hc
    cases hp : previous.point with
    | none => simp [preciseStep, CommandOver.type, hp] at hs
    | some p0 =>
      rw [over_preciseStep_quadratic _ _ previous p0 c p r hp, Option.some.injEq] at hs
      subst hs hc
      exact over_contains_foldl_mono _ _ _ (over_contains_includePoint_self r p)
  | cubic c1 c2 p =>
    simp only [CommandOver.point, Option.some.injEq] at hc
    cases hp : previous.point with
    | none => simp [preciseStep, CommandOver.type, hp] at hs
    | some p0 =>
      rw [preciseStep_cubic _ _ previous p0 c1 c2 p r hp, Option.some.injEq] at hs
      subst hs hc
      exact over_contains_foldl_mono _ _ _ (over_contains_includePoint_self r p)

/-- The loop from any command that carries a point, over commands `pre` without a Close,
a Cubic and the rest of the path: the result holds the curve of the Cubic when the
command right before the Cubic is not a Move, or is the command the loop started from
with its point already in the box. -/
theorem preciseLoop_contains_cubic (solveLinear : ℝ → ℝ → Option ℝ)
    (solveQuadratic : ℝ → ℝ → ℝ → List ℝ) (hsolve : ReportsRoots solveQuadratic)
    (pre post : List (CommandOver ℝ)) (p1 p2 p3 : Vec2Over ℝ)
    (hpre : ∀ c ∈ pre, c.type ≠ CommandType.CLOSE)
    (hprev : ∀ c, pre.getLast? = some c → c.type ≠ CommandType.MOVE)
    (hpost : ∀ c ∈ post.dropLast, c.type ≠ CommandType.CLOSE)
    (t : ℝ) (ht0 : 0 ≤ t) (ht1 : t ≤ 1)
    (previous : CommandOver ℝ) (pp : Vec2Over ℝ) (hp : previous.point = some pp)
    (r : Rect2Over ℝ) (hr : pre = [] → r.Contains pp) :
    ∃ rf, preciseLoop solveLinear solveQuadratic previous
        (pre ++ CommandOver.cubic p1 p2 p3 :: post) r = some rf ∧
      rf.Contains (evaluateCubicAt (anchorBefore pp pre) p1 p2 p3 t) := by
  induction pre generalizing previous pp r with
  | nil =>
    obtain ⟨rf, hrf⟩ := over_preciseLoop_isSome solveLinear solveQuadratic post hpost
      (CommandOver.cubic p1 p2 p3) (by simp [CommandOver.type])
      ((findCubicExtrema solveQuadratic pp p1 p2 p3).foldl Rect2Over.includePoint
        (r.includePoint p3))
    refine ⟨rf, ?_, ?_⟩
    · simp only [List.nil_append, preciseLoop, preciseStep_cubic _ _ previous pp p1 p2 p3 r hp]
      exact hrf
    · exact over_preciseLoop_mono solveLinear solveQuadratic post _ _ rf _ hrf
        (cubic_segment_contained solveQuadratic hsolve pp p1 p2 p3 r (hr rfl) t ht0 ht1)
  | cons c pre ih =>
    have hcc := hpre c (List.mem_cons_self _ _)
    obtain ⟨cp, hcp⟩ := point_of_segment c hcc
    obtain ⟨r1, h1⟩ := preciseStep_isSome solveLinear solveQuadratic previous c
      (type_ne_close_of_point previous pp hp) r
    have hprev1 : ∀ d, pre.getLast? = some d → d.type ≠ CommandType.MOVE := by
      intro d hd
      apply hprev d
      cases pre with
      | nil => simp at hd
      | cons e es => rw [List.getLast?_cons_cons]; exact hd
    have hr1 : pre = [] → r1.Contains cp := by
      intro hnil
      subst hnil
      exact preciseStep_contains_point solveLinear solveQuadratic previous c r r1 cp
        (hprev c rfl) hcp h1
    obtain ⟨rf, hrf, hcont⟩ := ih (fun d hd => hpre d (List.mem_cons_of_mem _ hd)) hprev1
      c cp hcp r1 hr1
    refine ⟨rf, ?_, ?_⟩
    · simp only [List.cons_append, preciseLoop, h1]
      exact hrf
    · have e : anchorBefore pp (c :: pre) = anchorBefore cp pre := by
        simp only [anchorBefore, List.filterMap_cons, hcp, List.getLastD_cons]
      rw [e]
      exact hcont

theorem evaluateCubicAt_one {K : Type} [Field K] (p0 p1 p2 p3 : Vec2Over K) :
    evaluateCubicAt p0 p1 p2 p3 1 = p3 := by
  ext <;> simp [evaluateCubicAt, Vec2Over.add, Vec2Over.smul]

/-- On the path `Move (0,0), Move (10,10), Cubic ((9,9), (8,8), (7,7))` the equation
the solver is given is `0 t^2 + 0 t - 3 = 0` on both axes, which has no root: for every
solver that reports no root of it, `bounds(true)` is `[(0,0), (7,7)]`. -/
theorem precise_bounds_miss_for_every_solver (solveLinear : ℚ → ℚ → Option ℚ)
    (solveQuadratic : ℚ → ℚ → ℚ → List ℚ) (h : solveQuadratic 0 0 (-3) = []) :
    Path.bounds solveLinear solveQuadratic [Command.move ⟨0, 0⟩, Command.move ⟨10, 10⟩,
      Command.cubic ⟨9, 9⟩ ⟨8, 8⟩ ⟨7, 7⟩] true = some ⟨⟨0, 0⟩, ⟨7, 7⟩⟩ := by
  have e : Path.findCubicExtrema solveQuadratic ⟨10, 10⟩ ⟨9, 9⟩ ⟨8, 8⟩ ⟨7, 7⟩ = [] := by
    have ea : (3 : ℚ) * 7 - 9 * 8 + 9 * 9 - 3 * 10 = 0 := by norm_num
    have eb : (6 : ℚ) * 10 - 12 * 9 + 6 * 8 = 0 := by norm_num
    have ec : (3 : ℚ) * 9 - 3 * 10 = -3 := by norm_num
    simp only [Path.findCubicExtrema, Vec2.sub, Vec2.add, Vec2.smul, ea, eb, ec, h]
    rfl
  have s : Path.preciseStep solveLinear solveQuadratic (Command.move ⟨10, 10⟩)
      (Command.cubic ⟨9, 9⟩ ⟨8, 8⟩ ⟨7, 7⟩) (Rect2.ofPoint ⟨0, 0⟩)
      = some ((Path.findCubicExtrema solveQuadratic ⟨10, 10⟩ ⟨9, 9⟩ ⟨8, 8⟩ ⟨7, 7⟩).foldl
          Rect2.includePoint ((Rect2.ofPoint ⟨0, 0⟩).includePoint ⟨7, 7⟩)) := rfl
  have m : Path.preciseStep solveLinear solveQuadratic (Command.move ⟨0, 0⟩)
      (Command.move ⟨10, 10⟩) (Rect2.ofPoint ⟨0, 0⟩) = some (Rect2.ofPoint ⟨0, 0⟩) := rfl
  have b : (Rect2.ofPoint ⟨0, 0⟩).includePoint ⟨7, 7⟩ = ⟨⟨0, 0⟩, ⟨7, 7⟩⟩ := by decide!
  simp only [Path.bounds, if_true, Path.calculatePreciseBounds, Command.point, Path.preciseLoop,
    m, s, e, List.foldl_nil, b]

/-- C26 (as stated) fails: the path `Move (0,0), Move (10,10), Cubic ((9,9), (8,8), (7,7))`
satisfies both Path invariants (it starts with a Move and has no Close), and its
`bounds(true)` is `[(0,0), (7,7)]`, with the solver built on the square root and with
the solver that reports nothing (the derivative `-3` has no root). The Cubic starts at
the second Move, whose point the loop never includes: the curve point at `t = 0` is
`(10,10)` and the one at `t = 1/2` is `(17/2, 17/2)`, both outside the box. -/
theorem precise_bounds_miss_cubic_after_move :
    Path.wellFormed [Command.move ⟨0, 0⟩, Command.move ⟨10, 10⟩,
      Command.cubic ⟨9, 9⟩ ⟨8, 8⟩ ⟨7, 7⟩] = true ∧
    Path.bounds Path.exactLinear (quadraticRoots Rat.sqrt) [Command.move ⟨0, 0⟩,
      Command.move ⟨10, 10⟩, Command.cubic ⟨9, 9⟩ ⟨8, 8⟩ ⟨7, 7⟩] true
      = some ⟨⟨0, 0⟩, ⟨7, 7⟩⟩ ∧
    Path.bounds Path.exactLinear (fun _ _ _ => []) [Command.move ⟨0, 0⟩,
      Command.move ⟨10, 10⟩, Command.cubic ⟨9, 9⟩ ⟨8, 8⟩ ⟨7, 7⟩] true
      = some ⟨⟨0, 0⟩, ⟨7, 7⟩⟩ ∧
    Path.evaluateCubicAt ⟨10, 10⟩ ⟨9, 9⟩ ⟨8, 8⟩ ⟨7, 7⟩ 0 = ⟨10, 10⟩ ∧
    Path.evaluateCubicAt ⟨10, 10⟩ ⟨9, 9⟩ ⟨8, 8⟩ ⟨7, 7⟩ (1 / 2) = ⟨17 / 2, 17 / 2⟩ ∧
    ¬ Rect2.Contains ⟨⟨0, 0⟩, ⟨7, 7⟩⟩ (Path.evaluateCubicAt ⟨10, 10⟩ ⟨9, 9⟩ ⟨8, 8⟩ ⟨7, 7⟩ 0) ∧
    ¬ Rect2.Contains ⟨⟨0, 0⟩, ⟨7, 7⟩⟩
      (Path.evaluateCubicAt ⟨10, 10⟩ ⟨9, 9⟩ ⟨8, 8⟩ ⟨7, 7⟩ (1 / 2)) := by
  simp only [Rect2.Contains]
  decide!

/-- C26 (amended): over the reals, on a path that starts with a Move and has a Close at
most at its end, `bounds(true)` is defined and contains the whole curve and the endpoint
of every Cubic whose preceding command is not a Move after the first command: with
previous anchor `p0`, controls `p1`, `p2` and endpoint `p3`, the point
`(1-t)^3 p0 + 3(1-t)^2 t p1 + 3(1-t) t^2 p2 + t^3 p3` lies in the box for every `t` in
`[0, 1]`, given that `solveQuadratic(a, b, c)` reports every real root of
`a t^2 + b t + c = 0`. Moves may stand anywhere else on the path. -/
theorem precise_bounds_contain_cubic (solveLinear : ℝ → ℝ → Option ℝ)
    (solveQuadratic : ℝ → ℝ → ℝ → List ℝ) (hsolve : ReportsRoots solveQuadratic)
    (q0 : Vec2Over ℝ) (pre post : List (CommandOver ℝ)) (p1 p2 p3 : Vec2Over ℝ)
    (hpre : ∀ c ∈ pre, c.type ≠ CommandType.CLOSE)
    (hprev : ∀ c, pre.getLast? = some c → c.type ≠ CommandType.MOVE)
    (hpost : ∀ c ∈ post.dropLast, c.type ≠ CommandType.CLOSE)
    (t : ℝ) (ht0 : 0 ≤ t) (ht1 : t ≤ 1) :
    ∃ r, calculatePreciseBounds solveLinear solveQuadratic
        (CommandOver.move q0 :: (pre ++ CommandOver.cubic p1 p2 p3 :: post)) = some r ∧
      r.Contains (evaluateCubicAt (anchorBefore q0 pre) p1 p2 p3 t) ∧ r.Contains p3 := by
  obtain ⟨rf, hrf, hcont⟩ := preciseLoop_contains_cubic solveLinear solveQuadratic hsolve
    pre post p1 p2 p3 hpre hprev hpost t ht0 ht1 (CommandOver.move q0) q0 rfl
    (Rect2Over.ofPoint q0) (fun _ => ⟨le_refl _, le_refl _, le_refl _, le_refl _⟩)
  obtain ⟨rf1, hrf1, hcont1⟩ := preciseLoop_contains_cubic solveLinear solveQuadratic hsolve
    pre post p1 p2 p3 hpre hprev hpost 1 zero_le_one (le_refl 1) (CommandOver.move q0) q0 rfl
    (Rect2Over.ofPoint q0) (fun _ => ⟨le_refl _, le_refl _, le_refl _, le_refl _⟩)
  rw [hrf, Option.some.injEq] at hrf1
  subst hrf1
  rw [evaluateCubicAt_one] at hcont1
  exact ⟨rf, hrf, hcont, hcont1⟩

/-- Witness for C26: the path `Move (0,0), Move (5,5), Line (0,0),
Cubic ((0,1), (1,1), (1,0))` over the reals, with the solver built on the real square
root, at `t = 1/2`; the Cubic follows a Line. -/
theorem precise_bounds_contain_cubic_witness :
    ∃ r, calculatePreciseBounds (fun _ _ => none) (quadraticRoots Real.sqrt)
        [CommandOver.move ⟨0, 0⟩, CommandOver.move ⟨5, 5⟩, CommandOver.line ⟨0, 0⟩,
          CommandOver.cubic ⟨0, 1⟩ ⟨1, 1⟩ ⟨1, 0⟩] = some r ∧
      r.Contains (evaluateCubicAt ⟨0, 0⟩ ⟨0, 1⟩ ⟨1, 1⟩ ⟨1, 0⟩ (1 / 2)) ∧
      r.Contains ⟨1, 0⟩ :=
  precise_bounds_contain_cubic (fun _ _ => none) (quadraticRoots Real.sqrt)
    (reportsRoots_quadraticRoots Real.sqrt (fun x hx => Real.mul_self_sqrt hx))
    ⟨0, 0⟩ [CommandOver.move ⟨5, 5⟩, CommandOver.line ⟨0, 0⟩] [] ⟨0, 1⟩ ⟨1, 1⟩ ⟨1, 0⟩
    (by simp [CommandOver.type]) (by simp [CommandOver.type]) (by simp)
    (1 / 2) (by norm_num) (by norm_num)

/-- The path `Move (0,0), Cubic ((0,1), (1,1), (1,0))` over the rationals, with the
solver built on the rational square root, evaluated: the box is `[(0,0), (1,3/4)]`, its top the curve point at the root
`t = 1/2` of the derivative; the rational embedding gives the same box. -/
theorem precise_bounds_cubic_example :
    calculatePreciseBounds (fun _ _ => none) (quadraticRoots Rat.sqrt)
        [CommandOver.move ⟨0, 0⟩, CommandOver.cubic ⟨0, 1⟩ ⟨1, 1⟩ ⟨1, 0⟩]
      = some ⟨⟨0, 0⟩, ⟨1, 3 / 4⟩⟩ ∧
    Path.bounds (fun _ _ => none) (quadraticRoots Rat.sqrt)
        [Command.move ⟨0, 0⟩, Command.cubic ⟨0, 1⟩ ⟨1, 1⟩ ⟨1, 0⟩] true
      = some ⟨⟨0, 0⟩, ⟨1, 3 / 4⟩⟩ := by
  decide!

/-! ### The sides of the precise bounds are attained -/

/-- The top side of that box, spelled out: `3/4` is the `y` coordinate of the curve
point at `t = 1/2`. -/
theorem precise_bounds_top_example :
    calculatePreciseBounds (fun _ _ => none) (quadraticRoots Rat.sqrt)
        [CommandOver.move ⟨0, 0⟩, CommandOver.cubic ⟨0, 1⟩ ⟨1, 1⟩ ⟨1, 0⟩]
      = some ⟨⟨0, 0⟩, ⟨1, 3 / 4⟩⟩ ∧
    segmentPoint ⟨0, 0⟩ (CommandOver.cubic ⟨0, 1⟩ ⟨1, 1⟩ ⟨1, 0⟩) (1 / 2)
      = some (⟨1 / 2, 3 / 4⟩ : Vec2Over ℚ) := by
  decide!

/-! ### The precise bounds contain the whole curve

Over the reals, and for solvers that report the roots, the box of the precise bounds
contains every point of every Line, Quadratic and Cubic segment. -/

theorem real_quadratic_le_of_critical (x0 x1 x2 M t : ℝ) (h0 : x0 ≤ M) (h2 : x2 ≤ M)
    (hcrit : x0 - 2 * x1 + x2 ≠ 0 → ∀ τ, (x0 - 2 * x1 + x2) * τ + (x1 - x0) = 0 → 0 < τ → τ < 1 →
      (1 - τ) * (1 - τ) * x0 + 2 * (1 - τ) * τ * x1 + τ * τ * x2 ≤ M)
    (ht0 : 0 ≤ t) (ht1 : t ≤ 1) :
    (1 - t) * (1 - t) * x0 + 2 * (1 - t) * t * x1 + t * t * x2 ≤ M := by
  have hs : 0 ≤ 1 - t := by linarith
  have hts : 0 ≤ t * (1 - t) := mul_nonneg ht0 hs
  by_cases ha : 0 ≤ x0 - 2 * x1 + x2
  · nlinarith [mul_nonneg hts ha]
  · have ha' : x0 - 2 * x1 + x2 < 0 := not_le.mp ha
    have hne : x0 - 2 * x1 + x2 ≠ 0 := ne_of_lt ha'
    obtain ⟨τ, hτ⟩ : ∃ τ, (x0 - 2 * x1 + x2) * τ + (x1 - x0) = 0 :=
      ⟨-(x1 - x0) / (x0 - 2 * x1 + x2), by field_simp⟩
    by_cases h1 : τ ≤ 0
    · have hb : x1 - x0 ≤ 0 := by nlinarith
      nlinarith [mul_nonneg ht0 (neg_nonneg.mpr hb),
        mul_nonneg (mul_nonneg ht0 ht0) (le_of_lt (neg_pos.mpr ha'))]
    · by_cases h3 : 1 ≤ τ
      · have hab : 0 ≤ (x0 - 2 * x1 + x2) + (x1 - x0) := by nlinarith
        nlinarith [mul_nonneg hs hab,
          mul_nonneg (mul_nonneg hs hs) (le_of_lt (neg_pos.mpr ha'))]
      · have hc := hcrit hne τ hτ (not_le.mp h1) (not_le.mp h3)
        have key : (1 - τ) * (1 - τ) * x0 + 2 * (1 - τ) * τ * x1 + τ * τ * x2
            - ((1 - t) * (1 - t) * x0 + 2 * (1 - t) * t * x1 + t * t * x2)
            = -(x0 - 2 * x1 + x2) * (τ - t) ^ 2 := by
          linear_combination 2 * (τ - t) * hτ
        nlinarith [mul_nonneg (le_of_lt (neg_pos.mpr ha')) (sq_nonneg (τ - t))]

theorem real_quadratic_ge_of_critical (x0 x1 x2 m t : ℝ) (h0 : m ≤ x0) (h2 : m ≤ x2)
    (hcrit : x0 - 2 * x1 + x2 ≠ 0 → ∀ τ, (x0 - 2 * x1 + x2) * τ + (x1 - x0) = 0 → 0 < τ → τ < 1 →
      m ≤ (1 - τ) * (1 - τ) * x0 + 2 * (1 - τ) * τ * x1 + τ * τ * x2)
    (ht0 : 0 ≤ t) (ht1 : t ≤ 1) :
    m ≤ (1 - t) * (1 - t) * x0 + 2 * (1 - t) * t * x1 + t * t * x2 := by
  have h := real_quadratic_le_of_critical (-x0) (-x1) (-x2) (-m) t (by linarith) (by linarith)
    (by
      intro hne τ hτ hτ0 hτ1
      have hne' : x0 - 2 * x1 + x2 ≠ 0 := by
        intro e
        apply hne
        linarith
      have := hcrit hne' τ (by linarith) hτ0 hτ1
      linarith) ht0 ht1
  linarith

theorem real_quadratic_segment_contained (solveLinear : ℝ → ℝ → Option ℝ)
    (hsolve : ReportsRoot solveLinear)
    (p0 p1 p2 : Vec2Over ℝ) (r : Rect2Over ℝ) (h0 : r.Contains p0) (t : ℝ)
    (ht0 : 0 ≤ t) (ht1 : t ≤ 1) :
    ((findQuadraticExtrema solveLinear p0 p1 p2).foldl Rect2Over.includePoint
      (r.includePoint p2)).Contains (evaluateQuadraticAt p0 p1 p2 t) := by
  have c0 := over_contains_foldl_mono (findQuadraticExtrema solveLinear p0 p1 p2) _ p0
    (over_contains_includePoint_mono r p2 p0 h0)
  have c2 := over_contains_foldl_mono (findQuadraticExtrema solveLinear p0 p1 p2) _ p2
    (over_contains_includePoint_self r p2)
  have hx : p0.x - 2 * p1.x + p2.x ≠ 0 → ∀ τ, (p0.x - 2 * p1.x + p2.x) * τ + (p1.x - p0.x) = 0 →
      0 < τ → τ < 1 →
      ((findQuadraticExtrema solveLinear p0 p1 p2).foldl Rect2Over.includePoint
        (r.includePoint p2)).Contains (evaluateQuadraticAt p0 p1 p2 τ) := by
    intro hne τ hτ hτ0 hτ1
    have e : -(p1.x - p0.x) / (p0.x - 2 * p1.x + p2.x) = τ := by
      field_simp
      linarith
    apply over_contains_foldl_mem
    simp only [findQuadraticExtrema, Vec2Over.add, Vec2Over.sub, Vec2Over.smul,
      List.mem_append]
    left
    rw [hsolve _ _ hne, e]
    simp [extremumAt, hτ0, hτ1]
  have hy : p0.y - 2 * p1.y + p2.y ≠ 0 → ∀ τ, (p0.y - 2 * p1.y + p2.y) * τ + (p1.y - p0.y) = 0 →
      0 < τ → τ < 1 →
      ((findQuadraticExtrema solveLinear p0 p1 p2).foldl Rect2Over.includePoint
        (r.includePoint p2)).Contains (evaluateQuadraticAt p0 p1 p2 τ) := by
    intro hne τ hτ hτ0 hτ1
    have e : -(p1.y - p0.y) / (p0.y - 2 * p1.y + p2.y) = τ := by
      field_simp
      linarith
    apply over_contains_foldl_mem
    simp only [findQuadraticExtrema, Vec2Over.add, Vec2Over.sub, Vec2Over.smul,
      List.mem_append]
    right
    rw [hsolve _ _ hne, e]
    simp [extremumAt, hτ0, hτ1]
  refine ⟨?_, ?_, ?_, ?_⟩
  · exact real_quadratic_ge_of_critical p0.x p1.x p2.x _ t c0.1 c2.1
      (fun hne τ hτ hτ0 hτ1 => (hx hne τ hτ hτ0 hτ1).1) ht0 ht1
  · exact real_quadratic_le_of_critical p0.x p1.x p2.x _ t c0.2.1 c2.2.1
      (fun hne τ hτ hτ0 hτ1 => (hx hne τ hτ hτ0 hτ1).2.1) ht0 ht1
  · exact real_quadratic_ge_of_critical p0.y p1.y p2.y _ t c0.2.2.1 c2.2.2.1
      (fun hne τ hτ hτ0 hτ1 => (hy hne τ hτ hτ0 hτ1).2.2.1) ht0 ht1
  · exact real_quadratic_le_of_critical p0.y p1.y p2.y _ t c0.2.2.2 c2.2.2.2
      (fun hne τ hτ hτ0 hτ1 => (hy hne τ hτ hτ0 hτ1).2.2.2) ht0 ht1

theorem line_segment_contained (p0 p : Vec2Over ℝ) (r : Rect2Over ℝ) (h0 : r.Contains p0)
    (h1 : r.Contains p) (t : ℝ) (ht0 : 0 ≤ t) (ht1 : t ≤ 1) :
    r.Contains (Vec2Over.add (Vec2Over.smul (1 - t) p0) (Vec2Over.smul t p)) := by
  have hs : 0 ≤ 1 - t := by linarith
  obtain ⟨a1, a2, a3, a4⟩ := h0
  obtain ⟨b1, b2, b3, b4⟩ := h1
  refine ⟨?_, ?_, ?_, ?_⟩ <;> simp only [Vec2Over.add, Vec2Over.smul]
  · nlinarith [mul_le_mul_of_nonneg_left a1 hs, mul_le_mul_of_nonneg_left b1 ht0]
  · nlinarith [mul_le_mul_of_nonneg_left a2 hs, mul_le_mul_of_nonneg_left b2 ht0]
  · nlinarith [mul_le_mul_of_nonneg_left a3 hs, mul_le_mul_of_nonneg_left b3 ht0]
  · nlinarith [mul_le_mul_of_nonneg_left a4 hs, mul_le_mul_of_nonneg_left b4 ht0]

theorem step_contains_segment (solveLinear : ℝ → ℝ → Option ℝ)
    (solveQuadratic : ℝ → ℝ → ℝ → List ℝ) (hlin : ReportsRoot solveLinear)
    (hsolve : ReportsRoots solveQuadratic) (previous current : CommandOver ℝ)
    (r r1 : Rect2Over ℝ) (p0 : Vec2Over ℝ) (hp : previous.point = some p0)
    (hr : r.Contains p0)
    (hs : preciseStep solveLinear solveQuadratic previous current r = some r1)
    (q : Vec2Over ℝ) (t : ℝ) (ht0 : 0 ≤ t) (ht1 : t ≤ 1)
    (hq : segmentPoint p0 current t = some q) : r1.Contains q := by
  cases current with
  | move p => simp [segmentPoint] at hq
  | close => simp [segmentPoint] at hq
  | conic c p w => simp [segmentPoint] at hq
  | line p =>
    simp only [segmentPoint, Option.some.injEq] at hq
    simp only [preciseStep, CommandOver.type, CommandOver.point, Option.some.injEq] at hs
    subst hs hq
    exact line_segment_contained p0 p _ (over_contains_includePoint_mono r p p0 hr)
      (over_contains_includePoint_self r p) t ht0 ht1
  | quadratic c p =>
    simp only [segmentPoint, Option.some.injEq] at hq
    rw [over_preciseStep_quadratic _ _ previous p0 c p r hp, Option.some.injEq] at hs
    subst hs hq
    exact real_quadratic_segment_contained solveLinear hlin p0 c p r hr t ht0 ht1
  | cubic c1 c2 p =>
    simp only [segmentPoint, Option.some.injEq] at hq
    rw [preciseStep_cubic _ _ previous p0 c1 c2 p r hp, Option.some.injEq] at hs
    subst hs hq
    exact cubic_segment_contained solveQuadratic hsolve p0 c1 c2 p r hr t ht0 ht1

theorem loop_contains_traced (solveLinear : ℝ → ℝ → Option ℝ)
    (solveQuadratic : ℝ → ℝ → ℝ → List ℝ) (hlin : ReportsRoot solveLinear)
    (hsolve : ReportsRoots solveQuadratic) (cs : List (CommandOver ℝ))
    (hk : ∀ c ∈ cs, c.type = CommandType.LINE ∨ c.type = CommandType.QUADRATIC ∨
      c.type = CommandType.CUBIC)
    (previous : CommandOver ℝ) (p0 : Vec2Over ℝ) (hp : previous.point = some p0)
    (r : Rect2Over ℝ) (hr : r.Contains p0) :
    ∃ rf, preciseLoop solveLinear solveQuadratic previous cs r = some rf ∧
      (∀ q, r.Contains q → rf.Contains q) ∧
      ∀ q, TracedFrom previous cs q → rf.Contains q := by
  induction cs generalizing previous p0 r with
  | nil => exact ⟨r, rfl, fun q h => h, fun q h => h.elim⟩
  | cons c cs ih =>
    have hkc := hk c (List.mem_cons_self _ _)
    have hcm : c.type ≠ CommandType.MOVE := by
      rcases hkc with h | h | h <;> rw [h] <;> decide
    have hcc : c.type ≠ CommandType.CLOSE := by
      rcases hkc with h | h | h <;> rw [h] <;> decide
    obtain ⟨cp, hcp⟩ := point_of_segment c hcc
    obtain ⟨r1, h1⟩ := preciseStep_isSome solveLinear solveQuadratic previous c
      (type_ne_close_of_point previous p0 hp) r
    obtain ⟨rf, hrf, hmono, htr⟩ := ih (fun d hd => hk d (List.mem_cons_of_mem _ hd)) c cp hcp r1
      (preciseStep_contains_point solveLinear solveQuadratic previous c r r1 cp hcm hcp h1)
    refine ⟨rf, by simp only [preciseLoop, h1]; exact hrf, ?_, ?_⟩
    · intro q hq
      exact hmono q (over_preciseStep_mono solveLinear solveQuadratic previous c r r1 q h1 hq)
    · intro q hq
      rcases hq with ⟨p0', t, hp', ht0, ht1, hseg⟩ | hq
      · rw [hp] at hp'
        cases hp'
        exact hmono q (step_contains_segment solveLinear solveQuadratic hlin hsolve previous c
          r r1 p0 hp hr h1 q t ht0 ht1 hseg)
      · exact htr q hq

/-- The exact solution of a linear equation over the reals reports the root. -/
theorem reportsRoot_exact :
    ReportsRoot (fun a b => if a = 0 then none else some (-b / a)) := by
  intro a b ha
  simp [ha]

/-- Over the reals, with solvers that report the roots, the box of `bounds(true)`
contains every point traced by a path that is a Move followed by Line, Quadratic and
Cubic commands; with the sides attained, it is the exact bounding box of the curve. -/
theorem precise_bounds_contain_traced (solveLinear : ℝ → ℝ → Option ℝ)
    (solveQuadratic : ℝ → ℝ → ℝ → List ℝ) (hlin : ReportsRoot solveLinear)
    (hsolve : ReportsRoots solveQuadratic) (q0 : Vec2Over ℝ) (rest : List (CommandOver ℝ))
    (hk : ∀ c ∈ rest, c.type = CommandType.LINE ∨ c.type = CommandType.QUADRATIC ∨
      c.type = CommandType.CUBIC) :
    ∃ r, calculatePreciseBounds solveLinear solveQuadratic (CommandOver.move q0 :: rest)
        = some r ∧
      ∀ q, Traced (CommandOver.move q0 :: rest) q → r.Contains q := by
  obtain ⟨rf, hrf, hmono, htr⟩ := loop_contains_traced solveLinear solveQuadratic hlin hsolve
    rest hk (CommandOver.move q0) q0 rfl (Rect2Over.ofPoint q0)
    ⟨le_refl _, le_refl _, le_refl _, le_refl _⟩
  refine ⟨rf, hrf, ?_⟩
  intro q hq
  rcases hq with hq | hq
  · simp only [CommandOver.point, Option.some.injEq] at hq
    subst hq
    exact hmono _ ⟨le_refl _, le_refl _, le_refl _, le_refl _⟩
  · exact htr q hq

end PathOver

end Graphics
